import Mathlib

/-!
Verification development for the MazeAI repository.

The Python sources (util.py, maze.py, search.py) are shallowly embedded:
pure functions become Lean functions, the two stateful loops (the DFS maze
carver and the search loop) become fuel-indexed step functions over explicit
state records, machine integers become Int (coordinates can go negative
before the bounds check) and Nat (sizes, costs), and raised exceptions
become Except / Option error values.
-/

set_option maxHeartbeats 1000000

/-- Cell coordinate (row, column); Python int pairs. -/
abbrev Pos : Type := Int × Int

/-- Grid: 2D list of characters, as maze.py represents the maze. -/
abbrev Grid : Type := List (List Char)

/-- Read maze[r][c]; the sources only index inside the checked bounds, the
default values here are never reached by any guarded access. -/
def cellAt (g : Grid) (p : Pos) : Char :=
  (g.getD p.1.toNat []).getD p.2.toNat '#'

/-- Write maze[r][c] = ch; the sources only write inside checked bounds. -/
def setCell (g : Grid) (p : Pos) (ch : Char) : Grid :=
  g.set p.1.toNat ((g.getD p.1.toNat []).set p.2.toNat ch)

/-- Well-formed rows x cols grid. -/
def WFGrid (g : Grid) (rows cols : Nat) : Prop :=
  g.length = rows ∧ ∀ row ∈ g, row.length = cols

/-!  util.py  -/

/-- Node from util.py: state, parent, action.  The two constructors mirror
the only two call shapes in the sources: the root node is built with
parent=None and action=None, every other node with a parent and an action. -/
inductive Node where
  | mkRoot (state : Pos)
  | mkChild (state : Pos) (action : String) (parent : Node)
deriving DecidableEq, Repr

def Node.state : Node → Pos
  | .mkRoot s => s
  | .mkChild s _ _ => s

/-- CostNode from util.py: state, parent, action, cost.  The cost argument is
kept in both constructors exactly as in the Python constructor signature. -/
inductive CostNode where
  | mkRoot (state : Pos) (cost : Nat)
  | mkChild (state : Pos) (action : String) (parent : CostNode) (cost : Nat)
deriving DecidableEq, Repr

def CostNode.state : CostNode → Pos
  | .mkRoot s _ => s
  | .mkChild s _ _ _ => s

def CostNode.cost : CostNode → Nat
  | .mkRoot _ c => c
  | .mkChild _ _ _ c => c

/-- States along the parent chain, root first, ending with the node itself. -/
def Node.chain : Node → List Pos
  | .mkRoot s => [s]
  | .mkChild s _ p => p.chain ++ [s]

def CostNode.chain : CostNode → List Pos
  | .mkRoot s _ => [s]
  | .mkChild s _ p _ => p.chain ++ [s]

/-- Number of parent links from a CostNode back to the root of its chain. -/
def CostNode.depth : CostNode → Nat
  | .mkRoot _ _ => 0
  | .mkChild _ _ p _ => p.depth + 1

/-- Path-reconstruction walk of search.py: follow parents collecting
(action, state) pairs, already in root-to-goal order (the Python code
collects goal-to-root and reverses; this recursion produces the reversed
list directly). -/
def Node.ancPath : Node → List (String × Pos)
  | .mkRoot _ => []
  | .mkChild s a p => p.ancPath ++ [(a, s)]

def CostNode.ancPath : CostNode → List (String × Pos)
  | .mkRoot _ _ => []
  | .mkChild s a p _ => p.ancPath ++ [(a, s)]

/-- Errors raised by util.py / search.py: Exception("No solution"),
Exception("empty frontier"), and a fuel marker standing for divergence of
the embedded loops (the proofs show it never occurs at the chosen fuels). -/
inductive SearchErr where
  | noSolution
  | emptyFrontier
  | fuelOut
deriving DecidableEq, Repr

deriving instance DecidableEq for Except

/-- manhattan_distance from util.py (Node version of the duck-typed
argument): abs(row difference) + abs(col difference). -/
def manhattan_distance (node : Node) (goal : Pos) : Nat :=
  (node.state.1 - goal.1).natAbs + (node.state.2 - goal.2).natAbs

/-- manhattan_distance applied to a CostNode (same Python function,
monomorphised for the embedding). -/
def manhattan_distance_cost (node : CostNode) (goal : Pos) : Nat :=
  (node.state.1 - goal.1).natAbs + (node.state.2 - goal.2).natAbs

/-- cumulative_cost_function from util.py: manhattan distance plus the
accumulated cost. -/
def cumulative_cost_function (node : CostNode) (goal : Pos) : Nat :=
  manhattan_distance_cost node goal + node.cost

/-- StackFrontier.add: append to the frontier list (shared by all three
frontier classes except that PriorityQueueFrontier re-sorts). -/
def StackFrontier.add (node : α) (frontier : List α) : List α :=
  frontier ++ [node]

/-- StackFrontier.contains_state: any(node.state == state), generic over the
node type via a state projection. -/
def StackFrontier.contains_state (stateOf : α → Pos) (state : Pos)
    (frontier : List α) : Bool :=
  frontier.any (fun n => stateOf n = state)

/-- StackFrontier.empty: len(frontier) == 0. -/
def StackFrontier.empty (frontier : List α) : Bool :=
  frontier.length = 0

/-- StackFrontier.remove: raise on empty, else take the LAST node
(frontier[-1]) and keep frontier[:-1]. -/
def StackFrontier.remove (frontier : List α) : Except SearchErr (α × List α) :=
  match frontier.getLast? with
  | none => .error .emptyFrontier
  | some node => .ok (node, frontier.dropLast)

/-- QueueFrontier.remove: raise on empty, else take the FIRST node
(frontier[0]) and keep frontier[1:]. -/
def QueueFrontier.remove (frontier : List α) : Except SearchErr (α × List α) :=
  match frontier with
  | [] => .error .emptyFrontier
  | node :: rest => .ok (node, rest)

/-- PriorityQueueFrontier.add: append, then stably sort the whole frontier
by the priority function evaluated against the stored goal.  Python
list.sort is a stable sort, and for a total preorder the stable sorted
permutation of a list is unique, so any stable sort gives the same list;
List.insertionSort is the stable sort used here. -/
def PriorityQueueFrontier.add (func : α → Pos → Nat) (goal : Pos)
    (node : α) (frontier : List α) : List α :=
  (frontier ++ [node]).insertionSort (fun a b => func a goal ≤ func b goal)

/-!  maze.py : Maze data and neighbor expansion  -/

structure Maze where
  rows : Nat
  cols : Nat
  maze : Grid
  start : Pos
  goal : Pos
deriving DecidableEq, Repr

def Maze.get_maze (m : Maze) : Grid := m.maze

def Maze.get_goal (m : Maze) : Pos := m.goal

def Maze.is_goal (m : Maze) (node : Node) : Bool :=
  node.state = m.goal

/-- The moves dict of Maze.get_next, in Python dict insertion order. -/
def Maze.moves : List (String × (Int × Int)) :=
  [("left", (0, -1)), ("right", (0, 1)), ("up", (-1, 0)), ("down", (1, 0))]

/-- Body of Maze.get_next as a function of the node state: iterate the moves
in order, appending (action, target) when the target is in bounds and not a
wall. -/
def Maze.next_moves (m : Maze) (state : Pos) : List (String × Pos) :=
  Maze.moves.foldl
    (fun next_nodes ad =>
      let next_row := state.1 + ad.2.1
      let next_col := state.2 + ad.2.2
      if 0 ≤ next_row ∧ next_row < (m.rows : Int) ∧ 0 ≤ next_col ∧
          next_col < (m.cols : Int) ∧ cellAt m.maze (next_row, next_col) ≠ '#' then
        next_nodes ++ [(ad.1, (next_row, next_col))]
      else next_nodes)
    []

/-- Maze.get_next (the Python method is duck-typed over Node/CostNode; the
embedding monomorphises it, both versions sharing next_moves). -/
def Maze.get_next (m : Maze) (node : Node) : List (String × Pos) :=
  m.next_moves node.state

def Maze.get_next_cost (m : Maze) (node : CostNode) : List (String × Pos) :=
  m.next_moves node.state

/-!  maze.py : generate_solvable_maze

Randomness is modelled by an arbitrary stream s : Nat → Nat of draws; the
constructions below map each draw onto exactly the outcomes the Python
random calls can produce (any odd cell for randrange(1, n, 2), any
permutation of the four directions for the biased shuffle), so quantifying
over all streams covers every real execution. -/

/-- random.randrange(1, stop, 2): an odd value in [1, stop), ValueError
(None) when that range is empty.  The draw r selects among the
(stop / 2) odd values, all of which are reachable. -/
def randrange_odd (stop : Nat) (r : Nat) : Option Nat :=
  if stop ≤ 1 then none else some (1 + 2 * (r % (stop / 2)))

/-- The directions list of generate_solvable_maze: R, D, L, U. -/
def directions : List (Int × Int) := [(0, 1), (1, 0), (0, -1), (-1, 0)]

/-- biased_dirs: sorted(directions, key=random ...) is some permutation of
directions, and every permutation can occur; the draw selects one. -/
def biased_dirs (r : Nat) : List (Int × Int) :=
  (directions.permutations').getD (r % directions.permutations'.length) directions

/-- Inner for-loop of the carver: for each direction in the shuffled order,
if the two-step target is in bounds and still a wall, carve the
intermediate and target cells and push the target. -/
def carve_dirs (rows cols : Nat) :
    List (Int × Int) → Grid → List Pos → Pos → Grid × List Pos
  | [], g, stack, _ => (g, stack)
  | d :: ds, g, stack, rc =>
    let nr := rc.1 + d.1 * 2
    let nc := rc.2 + d.2 * 2
    if 0 ≤ nr ∧ nr < (rows : Int) ∧ 0 ≤ nc ∧ nc < (cols : Int) ∧
        cellAt g (nr, nc) = '#' then
      carve_dirs rows cols ds
        (setCell (setCell g (rc.1 + d.1, rc.2 + d.2) ' ') (nr, nc) ' ')
        (stack ++ [(nr, nc)]) rc
    else
      carve_dirs rows cols ds g stack rc

/-- The while-stack loop of generate_solvable_maze; stack.pop() takes the
last element.  Fuel-indexed; None marks fuel exhaustion (proved impossible
at the fuel used by generate_solvable_maze). -/
def carve_loop (rows cols : Nat) (s : Nat → Nat) :
    Nat → Nat → Grid → List Pos → Option Grid
  | 0, _, _, _ => none
  | fuel + 1, idx, g, stack =>
    match stack.getLast? with
    | none => some g
    | some rc =>
      let gs := carve_dirs rows cols (biased_dirs (s idx)) g stack.dropLast rc
      carve_loop rows cols s fuel (idx + 1) gs.1 gs.2

/-- Neighbor offsets used by find_farthest_point. -/
def ff_neighbors : List (Int × Int) := [(-1, 0), (1, 0), (0, -1), (0, 1)]

/-- Neighbor enqueueing of find_farthest_point: bounds are taken from
len(maze) and len(maze[0]) and only open (space) cells are enqueued. -/
def ff_enqueue (g : Grid) :
    List (Int × Int) → List (Pos × Nat) → Pos → Nat → List (Pos × Nat)
  | [], queue, _, _ => queue
  | d :: ds, queue, rc, dist =>
    let nr := rc.1 + d.1
    let nc := rc.2 + d.2
    if 0 ≤ nr ∧ nr < (g.length : Int) ∧ 0 ≤ nc ∧
        nc < ((g.getD 0 []).length : Int) ∧ cellAt g (nr, nc) = ' ' then
      ff_enqueue g ds (queue ++ [((nr, nc), dist + 1)]) rc dist
    else
      ff_enqueue g ds queue rc dist

/-- BFS loop of find_farthest_point: deque popleft, skip visited, track the
farthest cell (max_dist starts at -1, hence Int). -/
def ff_loop (g : Grid) : Nat → List (Pos × Nat) → List Pos → Pos → Int → Option Pos
  | 0, _, _, _, _ => none
  | fuel + 1, queue, visited, farthest, max_dist =>
    match queue with
    | [] => some farthest
    | (rc, dist) :: rest =>
      if rc ∈ visited then ff_loop g fuel rest visited farthest max_dist
      else
        let q2 := ff_enqueue g ff_neighbors rest rc dist
        if max_dist < (dist : Int) then
          ff_loop g fuel q2 (visited ++ [rc]) rc dist
        else
          ff_loop g fuel q2 (visited ++ [rc]) farthest max_dist

/-- Maze.find_farthest_point, fuel chosen large enough (proved sufficient
below). -/
def find_farthest_point (g : Grid) (start : Pos) : Option Pos :=
  ff_loop g (5 * g.length * (g.getD 0 []).length + 2) [(start, 0)] [] start (-1)

/-- Failure modes of maze construction: ValueError from randrange on an
empty range, and the fuel marker for divergence of the embedded loops. -/
inductive GenErr where
  | valueError
  | fuelOut
deriving DecidableEq, Repr

/-- Maze.generate_solvable_maze: or the dimensions with 1, build the all-wall
grid, pick a random odd start cell, mark S, run the carver, temporarily
clear S, place G at the farthest reachable point, restore S.  Returns the
grid, start, goal, and the (possibly updated) dimensions that the method
assigns back to self. -/
def generate_solvable_maze (rows0 cols0 : Nat) (s : Nat → Nat) :
    Except GenErr (Grid × Pos × Pos × Nat × Nat) :=
  let rows := rows0 ||| 1
  let cols := cols0 ||| 1
  match randrange_odd rows (s 0), randrange_odd cols (s 1) with
  | some start_row, some start_col =>
    let start : Pos := ((start_row : Int), (start_col : Int))
    let g1 := setCell (List.replicate rows (List.replicate cols '#')) start 'S'
    match carve_loop rows cols s (3 * rows * cols + 2) 2 g1 [start] with
    | none => .error .fuelOut
    | some g2 =>
      let g3 := setCell g2 start ' '
      match find_farthest_point g3 start with
      | none => .error .fuelOut
      | some goal =>
        .ok (setCell (setCell g3 goal 'G') start 'S', start, goal, rows, cols)
  | _, _ => .error .valueError

/-- Maze.__init__(rows, cols): bump even dimensions to the next odd value,
then generate; the stored dimensions are the ones generate_solvable_maze
assigns back. -/
def Maze.init (rows cols : Nat) (s : Nat → Nat) : Except GenErr Maze :=
  let rows1 := if rows % 2 = 1 then rows else rows + 1
  let cols1 := if cols % 2 = 1 then cols else cols + 1
  match generate_solvable_maze rows1 cols1 s with
  | .ok (g, start, goal, rows2, cols2) =>
    .ok { rows := rows2, cols := cols2, maze := g, start := start, goal := goal }
  | .error e => .error e

/-!  search.py : the shared search skeleton and its four instantiations  -/

/-- The operations that distinguish the four searches: the node type's state
projection and child constructor, and the frontier add/remove discipline. -/
structure SearchOps (ν : Type) where
  stateOf : ν → Pos
  mkChild : ν → String → Pos → ν
  fadd : ν → List ν → List ν
  fremove : List ν → Except SearchErr (ν × List ν)

/-- The local state of one search call: the maze object the call holds a
reference to, the frontier, the explored set and the explored list. -/
structure SearchState (ν : Type) where
  maze : Maze
  frontier : List ν
  explored_states : List Pos
  explored : List Pos

inductive Outcome (ν : Type) where
  | found (node : ν)
  | fail (e : SearchErr)

/-- One iteration of the search while-loop: empty check (No solution),
remove, goal test, mark explored, expand neighbors, adding each child whose
state is neither in the (current, already extended) frontier nor explored. -/
def search_step (ops : SearchOps ν) (st : SearchState ν) :
    Outcome ν ⊕ SearchState ν :=
  if st.frontier.length = 0 then .inl (.fail .noSolution)
  else
    match ops.fremove st.frontier with
    | .error e => .inl (.fail e)
    | .ok (node, rest) =>
      if ops.stateOf node = st.maze.get_goal then .inl (.found node)
      else
        let explored_states2 := st.explored_states ++ [ops.stateOf node]
        let frontier2 := (st.maze.next_moves (ops.stateOf node)).foldl
          (fun fr as =>
            if (¬ StackFrontier.contains_state ops.stateOf as.2 fr) ∧
                as.2 ∉ explored_states2 then
              ops.fadd (ops.mkChild node as.1 as.2) fr
            else fr)
          rest
        .inr { maze := st.maze, frontier := frontier2,
               explored_states := explored_states2,
               explored := st.explored ++ [ops.stateOf node] }

/-- The while True loop, fuel-indexed; the final SearchState is returned
alongside the outcome so that frame properties can be stated. -/
def search_loop (ops : SearchOps ν) : Nat → SearchState ν → Outcome ν × SearchState ν
  | 0, st => (.fail .fuelOut, st)
  | fuel + 1, st =>
    match search_step ops st with
    | .inl out => (out, st)
    | .inr st2 => search_loop ops fuel st2

/-- Shared wrapper: build the initial state, run the loop, and on success
return (path[:-1], explored[1:]) exactly as the Python functions do. -/
def run_search (ops : SearchOps ν) (pathOf : ν → List (String × Pos))
    (start0 : ν) (m : Maze) : Except SearchErr (List (String × Pos) × List Pos) :=
  let init : SearchState ν :=
    { maze := m, frontier := ops.fadd start0 [], explored_states := [], explored := [] }
  match search_loop ops (m.rows * m.cols + 3) init with
  | (.found node, st) => .ok ((pathOf node).dropLast, st.explored.drop 1)
  | (.fail e, _) => .error e

def bfs_ops : SearchOps Node where
  stateOf := Node.state
  mkChild := fun node action state => Node.mkChild state action node
  fadd := StackFrontier.add
  fremove := QueueFrontier.remove

def dfs_ops : SearchOps Node where
  stateOf := Node.state
  mkChild := fun node action state => Node.mkChild state action node
  fadd := StackFrontier.add
  fremove := StackFrontier.remove

def greedy_ops (goal : Pos) : SearchOps Node where
  stateOf := Node.state
  mkChild := fun node action state => Node.mkChild state action node
  fadd := PriorityQueueFrontier.add manhattan_distance goal
  fremove := QueueFrontier.remove

def astar_ops (goal : Pos) : SearchOps CostNode where
  stateOf := CostNode.state
  mkChild := fun node action state => CostNode.mkChild state action node (node.cost + 1)
  fadd := PriorityQueueFrontier.add cumulative_cost_function goal
  fremove := QueueFrontier.remove

/-- breadth_first_search from search.py. -/
def breadth_first_search (start : Pos) (m : Maze) :
    Except SearchErr (List (String × Pos) × List Pos) :=
  run_search bfs_ops Node.ancPath (Node.mkRoot start) m

/-- depth_first_search from search.py. -/
def depth_first_search (start : Pos) (m : Maze) :
    Except SearchErr (List (String × Pos) × List Pos) :=
  run_search dfs_ops Node.ancPath (Node.mkRoot start) m

/-- greedy_first_search from search.py (goal captured once, as in the
source). -/
def greedy_first_search (start : Pos) (m : Maze) :
    Except SearchErr (List (String × Pos) × List Pos) :=
  run_search (greedy_ops m.get_goal) Node.ancPath (Node.mkRoot start) m

/-- astar_first_search from search.py: CostNode root with cost 0. -/
def astar_first_search (start : Pos) (m : Maze) :
    Except SearchErr (List (String × Pos) × List Pos) :=
  run_search (astar_ops m.get_goal) CostNode.ancPath (CostNode.mkRoot start 0) m

/-!  Specification-side notions: walks and graph distance over the maze  -/

/-- Successor states the maze offers from p (the targets of get_next). -/
def nextStates (m : Maze) (p : Pos) : List Pos :=
  (m.next_moves p).map (fun ap => ap.2)

/-- States reachable in exactly n steps of 4-connected moves into in-bounds
non-wall cells (the moves get_next offers). -/
def reachIn (m : Maze) (src : Pos) : Nat → List Pos
  | 0 => [src]
  | n + 1 => ((reachIn m src n).map (nextStates m)).flatten

/-- Reachability from src. -/
def Reachable (m : Maze) (src tgt : Pos) : Prop :=
  ∃ n, tgt ∈ reachIn m src n

/-- d is the graph-theoretic shortest-path length from Start to Goal. -/
def IsShortestDist (m : Maze) (d : Nat) : Prop :=
  m.goal ∈ reachIn m m.start d ∧ ∀ k, m.goal ∈ reachIn m m.start k → d ≤ k

/-!  Claim C5 : characterization of Maze.get_next  -/

/-- Target of one move is in bounds and not a wall: the exact condition
get_next checks. -/
def inBoundsOpen (m : Maze) (p : Pos) : Prop :=
  0 ≤ p.1 ∧ p.1 < (m.rows : Int) ∧ 0 ≤ p.2 ∧ p.2 < (m.cols : Int) ∧
    cellAt m.maze p ≠ '#'

instance (m : Maze) (p : Pos) : Decidable (inBoundsOpen m p) := by
  unfold inBoundsOpen; infer_instance

/-- Claim C5: for a node with an in-bounds state, get_next returns exactly
the (action, coordinate) pairs, in the fixed order left, right, up, down,
whose target is in bounds and not a wall; a direction is included iff both
conditions hold. -/
theorem get_next_filter_spec (m : Maze) (node : Node)
    (h : 0 ≤ node.state.1 ∧ node.state.1 < (m.rows : Int) ∧
         0 ≤ node.state.2 ∧ node.state.2 < (m.cols : Int)) :
    m.get_next node =
      [("left", (node.state.1, node.state.2 - 1)),
       ("right", (node.state.1, node.state.2 + 1)),
       ("up", (node.state.1 - 1, node.state.2)),
       ("down", (node.state.1 + 1, node.state.2))].filter
        (fun ap => decide (inBoundsOpen m ap.2)) ∧
    ∀ a p, (a, p) ∈ m.get_next node ↔
      ((a, p) ∈ [("left", (node.state.1, node.state.2 - 1)),
                 ("right", (node.state.1, node.state.2 + 1)),
                 ("up", (node.state.1 - 1, node.state.2)),
                 ("down", (node.state.1 + 1, node.state.2))] ∧ inBoundsOpen m p) := by
  have key : m.get_next node =
      [("left", (node.state.1, node.state.2 - 1)),
       ("right", (node.state.1, node.state.2 + 1)),
       ("up", (node.state.1 - 1, node.state.2)),
       ("down", (node.state.1 + 1, node.state.2))].filter
        (fun ap => decide (inBoundsOpen m ap.2)) := by
    simp only [Maze.get_next, Maze.next_moves, Maze.moves, List.foldl,
      List.filter_cons, List.filter_nil, decide_eq_true_eq, inBoundsOpen,
      ← sub_eq_add_neg, add_zero, zero_add]
    split_ifs <;> simp_all
  refine ⟨key, fun a p => ?_⟩
  rw [key, List.mem_filter]
  simp only [decide_eq_true_eq]

/-- Witness for get_next_filter_spec at a concrete maze and node. -/
theorem get_next_filter_spec_witness :
    (0 ≤ (Node.mkRoot (1, 1)).state.1 ∧
      (Node.mkRoot (1, 1)).state.1 < ((5 : Nat) : Int) ∧
      0 ≤ (Node.mkRoot (1, 1)).state.2 ∧
      (Node.mkRoot (1, 1)).state.2 < ((5 : Nat) : Int)) ∧
    (∀ a p, (a, p) ∈ Maze.get_next
        { rows := 5, cols := 5,
          maze := [['#','#','#','#','#'],
                   ['#','S',' ','G','#'],
                   ['#','#','#','#','#'],
                   ['#','#','#','#','#'],
                   ['#','#','#','#','#']],
          start := (1, 1), goal := (1, 3) } (Node.mkRoot (1, 1)) ↔
      ((a, p) ∈ [("left", ((1 : Int), (1 : Int) - 1)),
                 ("right", ((1 : Int), (1 : Int) + 1)),
                 ("up", ((1 : Int) - 1, (1 : Int))),
                 ("down", ((1 : Int) + 1, (1 : Int)))] ∧
        inBoundsOpen
          { rows := 5, cols := 5,
            maze := [['#','#','#','#','#'],
                     ['#','S',' ','G','#'],
                     ['#','#','#','#','#'],
                     ['#','#','#','#','#'],
                     ['#','#','#','#','#']],
            start := (1, 1), goal := (1, 3) } p)) := by
  constructor
  · exact ⟨by decide, by decide, by decide, by decide⟩
  · exact (get_next_filter_spec _ (Node.mkRoot (1, 1))
      ⟨by decide, by decide, by decide, by decide⟩).2

/-!  Claim C4 : the 5x5 corridor maze  -/

/-- The directly constructed 5x5 corridor maze of the spec scenario: Start
at (1,1), Goal at (1,3), open cells forming a straight corridor. -/
def corridorMaze : Maze :=
  { rows := 5, cols := 5,
    maze := [['#','#','#','#','#'],
             ['#','S',' ','G','#'],
             ['#','#','#','#','#'],
             ['#','#','#','#','#'],
             ['#','#','#','#','#']],
    start := (1, 1), goal := (1, 3) }

/-- Claim C4 is false as stated: on the corridor maze no search returns the
2-step path [(right,(1,2)), (right,(1,3))]; the path component every search
actually returns is the single pair [(right,(1,2))], because the source
returns path[:-1]. -/
theorem corridor_two_step_path_false :
    (breadth_first_search corridorMaze.start corridorMaze).map Prod.fst ≠
      Except.ok [("right", ((1 : Int), (2 : Int))), ("right", ((1 : Int), (3 : Int)))] ∧
    (depth_first_search corridorMaze.start corridorMaze).map Prod.fst ≠
      Except.ok [("right", ((1 : Int), (2 : Int))), ("right", ((1 : Int), (3 : Int)))] ∧
    (greedy_first_search corridorMaze.start corridorMaze).map Prod.fst ≠
      Except.ok [("right", ((1 : Int), (2 : Int))), ("right", ((1 : Int), (3 : Int)))] ∧
    (astar_first_search corridorMaze.start corridorMaze).map Prod.fst ≠
      Except.ok [("right", ((1 : Int), (2 : Int))), ("right", ((1 : Int), (3 : Int)))] := by
  refine ⟨?_, ?_, ?_, ?_⟩ <;> decide

/-- Claim C4 (amended): on the corridor maze all four searches return the
one-step path [(right,(1,2))] (the goal pair (right,(1,3)) is dropped by
the path[:-1] convention) and explored list [(1,2)]. -/
theorem corridor_all_searches_agree :
    breadth_first_search corridorMaze.start corridorMaze =
      .ok ([("right", ((1 : Int), (2 : Int)))], [((1 : Int), (2 : Int))]) ∧
    depth_first_search corridorMaze.start corridorMaze =
      .ok ([("right", ((1 : Int), (2 : Int)))], [((1 : Int), (2 : Int))]) ∧
    greedy_first_search corridorMaze.start corridorMaze =
      .ok ([("right", ((1 : Int), (2 : Int)))], [((1 : Int), (2 : Int))]) ∧
    astar_first_search corridorMaze.start corridorMaze =
      .ok ([("right", ((1 : Int), (2 : Int)))], [((1 : Int), (2 : Int))]) := by
  refine ⟨?_, ?_, ?_, ?_⟩ <;> rfl

/-!  Claim C7 : construction at the degenerate sizes  -/

/-- Claim C7 is false as stated: Maze(1, 1) does not complete; it raises
ValueError from random.randrange(1, 1, 2), whose range is empty. -/
theorem maze_init_one_one_raises :
    Maze.init 1 1 (fun _ => 0) = .error .valueError := rfl

/-!  Claim C8 : dimension adjustment  -/

/-- Oring an odd number with 1 leaves it unchanged. -/
theorem odd_lor_one (n : Nat) (h : n % 2 = 1) : n ||| 1 = n := by
  apply Nat.eq_of_testBit_eq
  intro i
  rw [Nat.testBit_lor]
  cases i with
  | zero => simp [Nat.testBit_zero, h]
  | succ j => simp [Nat.testBit_succ]

/-- Every successful generate_solvable_maze reports back dimensions equal to
its inputs ored with 1. -/
theorem generate_dims (rows0 cols0 : Nat) (s : Nat → Nat) (g : Grid)
    (start goal : Pos) (rows2 cols2 : Nat)
    (h : generate_solvable_maze rows0 cols0 s = .ok (g, start, goal, rows2, cols2)) :
    rows2 = rows0 ||| 1 ∧ cols2 = cols0 ||| 1 := by
  unfold generate_solvable_maze at h
  dsimp only at h
  split at h
  case _ =>
    split at h
    case _ => simp_all
    case _ =>
      split at h
      case _ => simp_all
      case _ =>
        simp only [Except.ok.injEq, Prod.mk.injEq] at h
        exact ⟨h.2.2.2.1.symm, h.2.2.2.2.symm⟩
  case _ => simp_all

/-- Claim C8: for positive inputs, the stored dimensions equal the inputs
when odd and input + 1 when even (the or-with-1 inside generation is the
identity on the already-odd adjusted values, so no further change). -/
theorem maze_init_dims (rows cols : Nat) (s : Nat → Nat) (m : Maze)
    (hr : 0 < rows) (hc : 0 < cols) (h : Maze.init rows cols s = .ok m) :
    m.rows = (if rows % 2 = 1 then rows else rows + 1) ∧
    m.cols = (if cols % 2 = 1 then cols else cols + 1) := by
  unfold Maze.init at h
  dsimp only at h
  split at h
  case _ heq =>
    obtain ⟨h1, h2⟩ := generate_dims _ _ _ _ _ _ _ _ heq
    cases h
    refine ⟨?_, ?_⟩ <;> dsimp only
    · rw [h1]
      split
      case _ ho => exact odd_lor_one _ ho
      case _ he => exact odd_lor_one _ (by omega)
    · rw [h2]
      split
      case _ ho => exact odd_lor_one _ ho
      case _ he => exact odd_lor_one _ (by omega)
  case _ => exact absurd h (by simp)

/-!  Claim C6 : frontier ordering laws  -/

/-- A sequence of PriorityQueueFrontier.add operations starting from the
empty frontier. -/
def pq_add_all (func : α → Pos → Nat) (goal : Pos) (ns : List α) : List α :=
  ns.foldl (fun fr n => PriorityQueueFrontier.add func goal n fr) []

theorem pq_add_all_append (func : α → Pos → Nat) (goal : Pos) (ns : List α) (x : α) :
    pq_add_all func goal (ns ++ [x]) =
      PriorityQueueFrontier.add func goal x (pq_add_all func goal ns) := by
  simp [pq_add_all, List.foldl_append]

theorem pq_add_perm (func : α → Pos → Nat) (goal : Pos) (x : α) (fr : List α) :
    List.Perm (PriorityQueueFrontier.add func goal x fr) (fr ++ [x]) :=
  List.perm_insertionSort _ _

theorem pq_add_all_perm (func : α → Pos → Nat) (goal : Pos) (ns : List α) :
    List.Perm (pq_add_all func goal ns) ns := by
  induction ns using List.reverseRecOn with
  | nil => rfl
  | append_singleton ns x ih =>
    rw [pq_add_all_append]
    exact (pq_add_perm func goal x _).trans (ih.append (List.Perm.refl [x]))

theorem pq_add_all_sorted (func : α → Pos → Nat) (goal : Pos) (ns : List α) :
    (pq_add_all func goal ns).Pairwise (fun a b => func a goal ≤ func b goal) := by
  haveI : IsTotal α (fun a b => func a goal ≤ func b goal) := ⟨fun a b => Nat.le_total _ _⟩
  haveI : IsTrans α (fun a b => func a goal ≤ func b goal) := ⟨fun _ _ _ => Nat.le_trans⟩
  induction ns using List.reverseRecOn with
  | nil => exact List.Pairwise.nil
  | append_singleton ns x ih =>
    rw [pq_add_all_append]
    exact List.sorted_insertionSort _ _

theorem pq_add_all_stable (func : α → Pos → Nat) (goal : Pos) (ns : List α)
    (a b : α) (hsub : [a, b].Sublist ns) (hab : func a goal ≤ func b goal) :
    [a, b].Sublist (pq_add_all func goal ns) := by
  induction ns using List.reverseRecOn with
  | nil => simp at hsub
  | append_singleton ns x ih =>
    rw [pq_add_all_append]
    unfold PriorityQueueFrontier.add
    have hp : [a, b].Pairwise (fun u v => func u goal ≤ func v goal) :=
      List.pairwise_pair.mpr hab
    refine List.sublist_insertionSort hp ?_
    rcases List.sublist_append_iff.mp hsub with ⟨l1, l2, heq, h1, h2⟩
    cases l1 with
    | nil =>
      simp only [List.nil_append] at heq
      subst heq
      have := h2.length_le
      simp at this
    | cons c1 t1 =>
      cases t1 with
      | nil =>
        simp only [List.cons_append, List.nil_append, List.cons.injEq] at heq
        obtain ⟨rfl, heq2⟩ := heq
        cases l2 with
        | nil => simp at heq2
        | cons c2 t2 =>
          simp only [List.cons.injEq] at heq2
          obtain ⟨rfl, ht2⟩ := heq2
          subst ht2
          have hbx : b = x := List.singleton_sublist.mp h2 |> List.mem_singleton.mp
          have ha : a ∈ pq_add_all func goal ns :=
            (pq_add_all_perm func goal ns).mem_iff.mpr (List.singleton_sublist.mp h1)
          subst hbx
          exact List.Sublist.append (List.singleton_sublist.mpr ha) (List.Sublist.refl [b])
      | cons c2 t2 =>
        cases t2 with
        | nil =>
          simp only [List.cons_append, List.cons.injEq] at heq
          obtain ⟨rfl, rfl, heq3⟩ := heq
          have hl2 : l2 = [] := by
            cases l2 with
            | nil => rfl
            | cons _ _ => simp at heq3
          exact (ih h1).trans (List.sublist_append_left _ _)
        | cons c3 t3 => simp at heq

/-- Claim C6: stack removals are LIFO, queue removals are FIFO, and the
priority frontier always removes a minimum-priority node, preserving
insertion order among equal priorities (stable tie-break). -/
theorem frontier_discipline_laws :
    (∀ (n1 n2 n3 : Node),
      StackFrontier.remove
          (StackFrontier.add n3 (StackFrontier.add n2 (StackFrontier.add n1 ([] : List Node)))) =
        .ok (n3, [n1, n2]) ∧
      StackFrontier.remove [n1, n2] = .ok (n2, [n1]) ∧
      StackFrontier.remove [n1] = .ok (n1, ([] : List Node))) ∧
    (∀ (n1 n2 n3 : Node),
      QueueFrontier.remove
          (StackFrontier.add n3 (StackFrontier.add n2 (StackFrontier.add n1 ([] : List Node)))) =
        .ok (n1, [n2, n3]) ∧
      QueueFrontier.remove [n2, n3] = .ok (n2, [n3]) ∧
      QueueFrontier.remove [n3] = .ok (n3, ([] : List Node))) ∧
    (∀ (func : Node → Pos → Nat) (goal : Pos) (ns : List Node) (n : Node) (rest : List Node),
      QueueFrontier.remove (pq_add_all func goal ns) = .ok (n, rest) →
        ∀ x ∈ pq_add_all func goal ns, func n goal ≤ func x goal) ∧
    (∀ (func : Node → Pos → Nat) (goal : Pos) (ns : List Node) (a b : Node),
      [a, b].Sublist ns → func a goal = func b goal →
        [a, b].Sublist (pq_add_all func goal ns)) := by
  refine ⟨fun n1 n2 n3 => ⟨rfl, rfl, rfl⟩, fun n1 n2 n3 => ⟨rfl, rfl, rfl⟩, ?_, ?_⟩
  · intro func goal ns n rest h x hx
    have hs := pq_add_all_sorted func goal ns
    cases hpq : pq_add_all func goal ns with
    | nil => rw [hpq] at h; exact absurd h (by simp [QueueFrontier.remove])
    | cons y t =>
      rw [hpq] at h hs hx
      simp only [QueueFrontier.remove, Except.ok.injEq, Prod.mk.injEq] at h
      obtain ⟨rfl, rfl⟩ := h
      rcases List.mem_cons.mp hx with h1 | h2
      · exact le_of_eq (congrArg (fun z => func z goal) h1.symm)
      · exact (List.pairwise_cons.mp hs).1 x h2
  · intro func goal ns a b hsub heq
    exact pq_add_all_stable func goal ns a b hsub (le_of_eq heq)

/-- Witness for frontier_discipline_laws: concrete nodes, the spec scenario
priorities 5, 1, 3 for the minimum law, and an equal-priority pair for the
stable tie-break law. -/
theorem frontier_discipline_laws_witness :
    (StackFrontier.remove
        (StackFrontier.add (Node.mkRoot (0, 30)) (StackFrontier.add (Node.mkRoot (0, 20))
          (StackFrontier.add (Node.mkRoot (0, 10)) ([] : List Node)))) =
      .ok (Node.mkRoot (0, 30), [Node.mkRoot (0, 10), Node.mkRoot (0, 20)]) ∧
      StackFrontier.remove [Node.mkRoot (0, 10), Node.mkRoot (0, 20)] =
        .ok (Node.mkRoot (0, 20), [Node.mkRoot (0, 10)]) ∧
      StackFrontier.remove [Node.mkRoot (0, 10)] =
        .ok (Node.mkRoot (0, 10), ([] : List Node))) ∧
    (QueueFrontier.remove
        (StackFrontier.add (Node.mkRoot (0, 30)) (StackFrontier.add (Node.mkRoot (0, 20))
          (StackFrontier.add (Node.mkRoot (0, 10)) ([] : List Node)))) =
      .ok (Node.mkRoot (0, 10), [Node.mkRoot (0, 20), Node.mkRoot (0, 30)]) ∧
      QueueFrontier.remove [Node.mkRoot (0, 20), Node.mkRoot (0, 30)] =
        .ok (Node.mkRoot (0, 20), [Node.mkRoot (0, 30)]) ∧
      QueueFrontier.remove [Node.mkRoot (0, 30)] =
        .ok (Node.mkRoot (0, 30), ([] : List Node))) ∧
    (∀ x ∈ pq_add_all (fun n _ => n.state.2.natAbs) (0, 0)
        [Node.mkRoot (0, 5), Node.mkRoot (0, 1), Node.mkRoot (0, 3)],
      (fun (n : Node) (_ : Pos) => n.state.2.natAbs) (Node.mkRoot (0, 1)) (0, 0) ≤
        (fun (n : Node) (_ : Pos) => n.state.2.natAbs) x (0, 0)) ∧
    [Node.mkRoot (7, 1), Node.mkRoot (8, 1)].Sublist
      (pq_add_all (fun n _ => n.state.2.natAbs) (0, 0)
        [Node.mkRoot (0, 5), Node.mkRoot (7, 1), Node.mkRoot (8, 1)]) := by
  refine ⟨frontier_discipline_laws.1 _ _ _, frontier_discipline_laws.2.1 _ _ _, ?_, ?_⟩
  · exact frontier_discipline_laws.2.2.1 (fun n _ => n.state.2.natAbs) (0, 0)
      [Node.mkRoot (0, 5), Node.mkRoot (0, 1), Node.mkRoot (0, 3)]
      (Node.mkRoot (0, 1)) [Node.mkRoot (0, 3), Node.mkRoot (0, 5)] rfl
  · exact frontier_discipline_laws.2.2.2 (fun n _ => n.state.2.natAbs) (0, 0)
      [Node.mkRoot (0, 5), Node.mkRoot (7, 1), Node.mkRoot (8, 1)]
      (Node.mkRoot (7, 1)) (Node.mkRoot (8, 1)) (by decide) rfl

/-- The maze Maze(4, 6) constructs from the all-zero draw stream; used as the
concrete instance for maze_init_dims. -/
def mazeFourSix : Maze :=
  { rows := 5, cols := 7,
    maze := [['#', '#', '#', '#', '#', '#', '#'],
             ['#', 'S', ' ', ' ', '#', 'G', '#'],
             ['#', ' ', '#', '#', '#', ' ', '#'],
             ['#', ' ', ' ', ' ', ' ', ' ', '#'],
             ['#', '#', '#', '#', '#', '#', '#']],
    start := (1, 1), goal := (1, 5) }

/-- Witness for maze_init_dims: Maze(4, 6) stores dimensions 5 and 7. -/
theorem maze_init_dims_witness :
    (0 < 4 ∧ 0 < 6) ∧
    (mazeFourSix.rows = (if 4 % 2 = 1 then 4 else 4 + 1) ∧
     mazeFourSix.cols = (if 6 % 2 = 1 then 6 else 6 + 1)) :=
  ⟨⟨by decide, by decide⟩,
   maze_init_dims 4 6 (fun _ => 0) mazeFourSix (by decide) (by decide) rfl⟩

/-!  Basic lemmas about next_moves, contains_state, and the frontiers  -/

/-- The four candidate moves from p, in the fixed enumeration order. -/
def candMoves (p : Pos) : List (String × Pos) :=
  [("left", (p.1, p.2 - 1)), ("right", (p.1, p.2 + 1)),
   ("up", (p.1 - 1, p.2)), ("down", (p.1 + 1, p.2))]

theorem next_moves_eq_filter (m : Maze) (p : Pos) :
    m.next_moves p = (candMoves p).filter (fun ap => decide (inBoundsOpen m ap.2)) := by
  simp only [Maze.next_moves, Maze.moves, candMoves, List.foldl,
    List.filter_cons, List.filter_nil, decide_eq_true_eq, inBoundsOpen,
    ← sub_eq_add_neg, add_zero, zero_add]
  split_ifs <;> simp_all

theorem mem_nextStates (m : Maze) (p t : Pos) :
    t ∈ nextStates m p ↔
      (t ∈ [(p.1, p.2 - 1), (p.1, p.2 + 1), (p.1 - 1, p.2), (p.1 + 1, p.2)] ∧
        inBoundsOpen m t) := by
  constructor
  · intro h
    obtain ⟨ap, hap, hsnd⟩ := List.mem_map.mp h
    have h2 := List.mem_filter.mp (by rw [next_moves_eq_filter] at hap; exact hap)
    have hopen : inBoundsOpen m t := by
      rw [← hsnd]; exact of_decide_eq_true h2.2
    refine ⟨?_, hopen⟩
    have h1 := h2.1
    simp only [candMoves, List.mem_cons, List.not_mem_nil, or_false] at h1
    simp only [List.mem_cons, List.not_mem_nil, or_false]
    rw [← hsnd]
    rcases h1 with h | h | h | h
    · exact Or.inl (congrArg Prod.snd h)
    · exact Or.inr (Or.inl (congrArg Prod.snd h))
    · exact Or.inr (Or.inr (Or.inl (congrArg Prod.snd h)))
    · exact Or.inr (Or.inr (Or.inr (congrArg Prod.snd h)))
  · intro hh
    obtain ⟨hmem, hopen⟩ := hh
    apply List.mem_map.mpr
    simp only [List.mem_cons, List.not_mem_nil, or_false] at hmem
    have hdec : decide (inBoundsOpen m t) = true := decide_eq_true hopen
    rcases hmem with h | h | h | h
    · refine ⟨("left", t), ?_, rfl⟩
      rw [next_moves_eq_filter]
      exact List.mem_filter.mpr ⟨by simp [candMoves, h], hdec⟩
    · refine ⟨("right", t), ?_, rfl⟩
      rw [next_moves_eq_filter]
      exact List.mem_filter.mpr ⟨by simp [candMoves, h], hdec⟩
    · refine ⟨("up", t), ?_, rfl⟩
      rw [next_moves_eq_filter]
      exact List.mem_filter.mpr ⟨by simp [candMoves, h], hdec⟩
    · refine ⟨("down", t), ?_, rfl⟩
      rw [next_moves_eq_filter]
      exact List.mem_filter.mpr ⟨by simp [candMoves, h], hdec⟩

theorem nextStates_open (m : Maze) (p t : Pos) (h : t ∈ nextStates m p) :
    inBoundsOpen m t :=
  ((mem_nextStates m p t).mp h).2

theorem contains_state_iff (stateOf : α → Pos) (t : Pos) (fr : List α) :
    StackFrontier.contains_state stateOf t fr = true ↔ ∃ n ∈ fr, stateOf n = t := by
  simp [StackFrontier.contains_state, List.any_eq_true]

/-- The frontier algebra every one of the four instantiations satisfies:
add is a permutation-level push, a successful remove splits the frontier
into the removed node and the rest, and remove succeeds on any nonempty
frontier. -/
structure FrontierLaws (ops : SearchOps ν) : Prop where
  fadd_perm : ∀ x fr, List.Perm (ops.fadd x fr) (x :: fr)
  fremove_perm : ∀ fr n rest, ops.fremove fr = .ok (n, rest) → List.Perm fr (n :: rest)
  fremove_total : ∀ fr : List ν, fr ≠ [] → ∃ n rest, ops.fremove fr = .ok (n, rest)

theorem queue_remove_perm (fr : List ν) (n : ν) (rest : List ν)
    (h : QueueFrontier.remove fr = .ok (n, rest)) : List.Perm fr (n :: rest) := by
  cases fr with
  | nil => exact absurd h (by simp [QueueFrontier.remove])
  | cons a as =>
    simp only [QueueFrontier.remove, Except.ok.injEq, Prod.mk.injEq] at h
    obtain ⟨rfl, rfl⟩ := h
    exact List.Perm.refl _

theorem queue_remove_total (fr : List ν) (h : fr ≠ []) :
    ∃ n rest, QueueFrontier.remove fr = .ok (n, rest) := by
  cases fr with
  | nil => exact absurd rfl h
  | cons a as => exact ⟨a, as, rfl⟩

theorem stack_remove_perm (fr : List ν) (n : ν) (rest : List ν)
    (h : StackFrontier.remove fr = .ok (n, rest)) : List.Perm fr (n :: rest) := by
  unfold StackFrontier.remove at h
  cases hlast : fr.getLast? with
  | none => rw [hlast] at h; exact absurd h (by simp)
  | some x =>
    rw [hlast] at h
    simp only [Except.ok.injEq, Prod.mk.injEq] at h
    obtain ⟨rfl, rfl⟩ := h
    obtain ⟨l', rfl⟩ := List.getLast?_eq_some_iff.mp hlast
    rw [List.dropLast_concat]
    exact List.perm_append_singleton _ _

theorem stack_remove_total (fr : List ν) (h : fr ≠ []) :
    ∃ n rest, StackFrontier.remove fr = .ok (n, rest) := by
  unfold StackFrontier.remove
  cases hlast : fr.getLast? with
  | none => exact absurd (List.getLast?_eq_none_iff.mp hlast) h
  | some x => exact ⟨x, fr.dropLast, rfl⟩

theorem stack_add_perm (x : ν) (fr : List ν) :
    List.Perm (StackFrontier.add x fr) (x :: fr) :=
  List.perm_append_singleton _ _

theorem pq_add_perm_cons (func : ν → Pos → Nat) (goal : Pos) (x : ν) (fr : List ν) :
    List.Perm (PriorityQueueFrontier.add func goal x fr) (x :: fr) :=
  (pq_add_perm func goal x fr).trans (List.perm_append_singleton _ _)

theorem bfs_laws : FrontierLaws bfs_ops :=
  ⟨stack_add_perm, queue_remove_perm, queue_remove_total⟩

theorem dfs_laws : FrontierLaws dfs_ops :=
  ⟨stack_add_perm, stack_remove_perm, stack_remove_total⟩

theorem greedy_laws (goal : Pos) : FrontierLaws (greedy_ops goal) :=
  ⟨pq_add_perm_cons manhattan_distance goal, queue_remove_perm, queue_remove_total⟩

theorem astar_laws (goal : Pos) : FrontierLaws (astar_ops goal) :=
  ⟨pq_add_perm_cons cumulative_cost_function goal, queue_remove_perm, queue_remove_total⟩

/-!  Claim C9 : searches do not mutate the maze  -/

theorem search_step_maze_eq (ops : SearchOps ν) (st st2 : SearchState ν)
    (h : search_step ops st = .inr st2) : st2.maze = st.maze := by
  unfold search_step at h
  split at h
  · exact absurd h (by simp)
  · split at h
    · exact absurd h (by simp)
    · split at h
      · exact absurd h (by simp)
      · injection h with h2
        rw [← h2]

theorem search_loop_maze_eq (ops : SearchOps ν) (fuel : Nat) (st : SearchState ν) :
    (search_loop ops fuel st).2.maze = st.maze := by
  induction fuel generalizing st with
  | zero => rfl
  | succ k ih =>
    unfold search_loop
    cases hstep : search_step ops st with
    | inl out => rfl
    | inr st2 => rw [ih st2, search_step_maze_eq ops st st2 hstep]

/-- Claim C9: no search mutates the maze object: for every maze, start and
fuel, the maze component of the loop state after the loop ends (whether a
path was found, No solution was raised, or fuel ran out) is the maze that
was passed in, for all four searches; the grid, rows, cols, start and goal
are all fields of that record. -/
theorem searches_do_not_mutate_maze (m : Maze) (start : Pos) (fuel : Nat) :
    (search_loop bfs_ops fuel
      { maze := m, frontier := bfs_ops.fadd (Node.mkRoot start) [],
        explored_states := [], explored := [] }).2.maze = m ∧
    (search_loop dfs_ops fuel
      { maze := m, frontier := dfs_ops.fadd (Node.mkRoot start) [],
        explored_states := [], explored := [] }).2.maze = m ∧
    (search_loop (greedy_ops m.get_goal) fuel
      { maze := m, frontier := (greedy_ops m.get_goal).fadd (Node.mkRoot start) [],
        explored_states := [], explored := [] }).2.maze = m ∧
    (search_loop (astar_ops m.get_goal) fuel
      { maze := m, frontier := (astar_ops m.get_goal).fadd (CostNode.mkRoot start 0) [],
        explored_states := [], explored := [] }).2.maze = m :=
  ⟨search_loop_maze_eq _ _ _, search_loop_maze_eq _ _ _,
   search_loop_maze_eq _ _ _, search_loop_maze_eq _ _ _⟩

/-!  Claim C10 : the A* cost field equals search-tree depth  -/

/-- Iterate the search loop k steps (None when the loop has already
halted). -/
def search_steps (ops : SearchOps ν) : Nat → SearchState ν → Option (SearchState ν)
  | 0, st => some st
  | k + 1, st =>
    match search_step ops st with
    | .inl _ => none
    | .inr st2 => search_steps ops k st2

/-- Any predicate that holds of all frontier nodes and is preserved by
mkChild is preserved by the expansion fold of search_step. -/
theorem expand_foldl_preserve (ops : SearchOps ν)
    (hadd : ∀ (x : ν) (fr : List ν) (n : ν), n ∈ ops.fadd x fr → n ∈ fr ∨ n = x)
    (P : ν → Prop) (node : ν) (es : List Pos)
    (hchild : ∀ a t, P (ops.mkChild node a t)) :
    ∀ (children : List (String × Pos)) (fr : List ν), (∀ n ∈ fr, P n) →
      ∀ n ∈ children.foldl (fun fr as =>
          if (¬ StackFrontier.contains_state ops.stateOf as.2 fr) ∧ as.2 ∉ es then
            ops.fadd (ops.mkChild node as.1 as.2) fr
          else fr) fr, P n := by
  intro children
  induction children with
  | nil => intro fr h n hn; exact h n hn
  | cons c cs ih =>
    intro fr h
    simp only [List.foldl_cons]
    apply ih
    intro n hn
    by_cases hc : (¬ StackFrontier.contains_state ops.stateOf c.2 fr) ∧ c.2 ∉ es
    · rw [if_pos hc] at hn
      rcases hadd _ _ _ hn with h1 | rfl
      · exact h n h1
      · exact hchild c.1 c.2
    · rw [if_neg hc] at hn
      exact h n hn

/-- Inversion of a continuing search step: the removed node, the remaining
frontier, and the exact successor state. -/
theorem search_step_inr_inversion (ops : SearchOps ν) (st st2 : SearchState ν)
    (h : search_step ops st = .inr st2) :
    ∃ node rest, ops.fremove st.frontier = .ok (node, rest) ∧
      st.frontier.length ≠ 0 ∧ ops.stateOf node ≠ st.maze.get_goal ∧
      st2 = { maze := st.maze,
              frontier := (st.maze.next_moves (ops.stateOf node)).foldl
                (fun fr as =>
                  if (¬ StackFrontier.contains_state ops.stateOf as.2 fr) ∧
                      as.2 ∉ st.explored_states ++ [ops.stateOf node] then
                    ops.fadd (ops.mkChild node as.1 as.2) fr
                  else fr) rest,
              explored_states := st.explored_states ++ [ops.stateOf node],
              explored := st.explored ++ [ops.stateOf node] } := by
  unfold search_step at h
  split at h
  · exact absurd h (by simp)
  case _ hne =>
    split at h
    case _ e heq => exact absurd h (by simp)
    case _ node rest heq =>
      split at h
      case _ hg => exact absurd h (by simp)
      case _ hg =>
        injection h with h2
        exact ⟨node, rest, heq, hne, hg, h2.symm⟩

/-- One search step preserves any frontier-node predicate that is preserved
by mkChild. -/
theorem search_step_frontier_P (ops : SearchOps ν) (laws : FrontierLaws ops)
    (P : ν → Prop) (hchild : ∀ n a t, P n → P (ops.mkChild n a t))
    (st st2 : SearchState ν) (h : search_step ops st = .inr st2)
    (hfr : ∀ n ∈ st.frontier, P n) : ∀ n ∈ st2.frontier, P n := by
  obtain ⟨node, rest, hrem, hne, hg, rfl⟩ := search_step_inr_inversion ops st st2 h
  have hperm := laws.fremove_perm _ _ _ hrem
  have hnode : P node := hfr node (hperm.mem_iff.mpr (List.mem_cons_self _ _))
  have hrest : ∀ n ∈ rest, P n := fun n hn =>
    hfr n (hperm.mem_iff.mpr (List.mem_cons_of_mem _ hn))
  exact expand_foldl_preserve ops
    (fun x fr n hn => by
      rcases List.mem_cons.mp ((laws.fadd_perm x fr).mem_iff.mp hn) with h1 | h2
      · exact Or.inr h1
      · exact Or.inl h2)
    P node _ (fun a t => hchild node a t hnode) _ rest hrest

/-- Iterated version of search_step_frontier_P. -/
theorem search_steps_frontier_P (ops : SearchOps ν) (laws : FrontierLaws ops)
    (P : ν → Prop) (hchild : ∀ n a t, P n → P (ops.mkChild n a t)) :
    ∀ (k : Nat) (st st2 : SearchState ν), search_steps ops k st = some st2 →
      (∀ n ∈ st.frontier, P n) → ∀ n ∈ st2.frontier, P n := by
  intro k
  induction k with
  | zero =>
    intro st st2 h hfr
    simp only [search_steps, Option.some.injEq] at h
    exact h ▸ hfr
  | succ j ih =>
    intro st st2 h hfr
    unfold search_steps at h
    cases hstep : search_step ops st with
    | inl out => rw [hstep] at h; exact absurd h (by simp)
    | inr stm =>
      rw [hstep] at h
      exact ih stm st2 h (search_step_frontier_P ops laws P hchild st stm hstep hfr)

/-- Claim C10: at every point of the astar_first_search loop, the root
CostNode has cost 0, every child created during expansion has cost exactly
one more than its parent, and every CostNode on the frontier has cost equal
to its depth (the number of parent links back to the root). -/
theorem astar_cost_is_depth (m : Maze) (start : Pos) (k : Nat)
    (st2 : SearchState CostNode)
    (h : search_steps (astar_ops m.get_goal) k
        { maze := m,
          frontier := (astar_ops m.get_goal).fadd (CostNode.mkRoot start 0) [],
          explored_states := [], explored := [] } = some st2) :
    (CostNode.mkRoot start 0).cost = 0 ∧
    (∀ (n : CostNode) (a : String) (t : Pos),
      ((astar_ops m.get_goal).mkChild n a t).cost = n.cost + 1) ∧
    ∀ n ∈ st2.frontier, n.cost = n.depth := by
  refine ⟨rfl, fun n a t => rfl, ?_⟩
  have hchild : ∀ (n : CostNode) (a : String) (t : Pos), n.cost = n.depth →
      ((astar_ops m.get_goal).mkChild n a t).cost =
        ((astar_ops m.get_goal).mkChild n a t).depth := by
    intro n a t hP
    show n.cost + 1 = (CostNode.mkChild t a n (n.cost + 1)).depth
    simp only [CostNode.depth]
    rw [hP]
  have hinit : ∀ n ∈ (astar_ops m.get_goal).fadd (CostNode.mkRoot start 0) [],
      n.cost = n.depth := by
    intro n hn
    have h1 := ((astar_laws m.get_goal).fadd_perm (CostNode.mkRoot start 0) []).mem_iff.mp hn
    rw [List.mem_singleton] at h1
    rw [h1]; rfl
  exact search_steps_frontier_P _ (astar_laws m.get_goal) _ hchild k _ st2 h hinit

/-- Witness for astar_cost_is_depth: one loop step on the corridor maze. -/
theorem astar_cost_is_depth_witness :
    (CostNode.mkRoot ((1 : Int), (1 : Int)) 0).cost = 0 ∧
    (∀ (n : CostNode) (a : String) (t : Pos),
      ((astar_ops corridorMaze.get_goal).mkChild n a t).cost = n.cost + 1) ∧
    ∀ n ∈ (SearchState.frontier (ν := CostNode)
      { maze := corridorMaze,
        frontier := [CostNode.mkChild (1, 2) "right" (CostNode.mkRoot (1, 1) 0) 1],
        explored_states := [(1, 1)], explored := [(1, 1)] }), n.cost = n.depth := by
  have h := astar_cost_is_depth corridorMaze ((1 : Int), (1 : Int)) 1
    { maze := corridorMaze,
      frontier := [CostNode.mkChild (1, 2) "right" (CostNode.mkRoot (1, 1) 0) 1],
      explored_states := [(1, 1)], explored := [(1, 1)] } rfl
  exact h

/-!  Walk structure of parent chains  -/

/-- States along the parent chain, the node's own state first (the order in
which the Python path loop visits them before reversing). -/
def Node.rchain : Node → List Pos
  | .mkRoot s => [s]
  | .mkChild s _ p => s :: p.rchain

def CostNode.rchain : CostNode → List Pos
  | .mkRoot s _ => [s]
  | .mkChild s _ p _ => s :: p.rchain

theorem Node.rchain_head (n : Node) : n.rchain.head? = some n.state := by
  cases n <;> rfl

theorem CostNode.rchain_head_cost (n : CostNode) : n.rchain.head? = some n.state := by
  cases n <;> rfl

theorem Node.ancPath_length (n : Node) :
    n.ancPath.length + 1 = n.rchain.length := by
  induction n with
  | mkRoot s => rfl
  | mkChild s a p ih => simp [Node.ancPath, Node.rchain, ← ih]

theorem CostNode.ancPath_length_cost (n : CostNode) :
    n.ancPath.length + 1 = n.rchain.length := by
  induction n with
  | mkRoot s c => rfl
  | mkChild s a p c ih => simp [CostNode.ancPath, CostNode.rchain, ← ih]

/-- A walk through the maze written target-first: each element is a
get_next successor of the next one. -/
inductive RWalk (m : Maze) : List Pos → Prop where
  | single (p : Pos) : RWalk m [p]
  | cons {p q : Pos} {rest : List Pos} :
      p ∈ nextStates m q → RWalk m (q :: rest) → RWalk m (p :: q :: rest)

theorem reachIn_succ (m : Maze) (src q p : Pos) (n : Nat)
    (hq : q ∈ reachIn m src n) (hp : p ∈ nextStates m q) :
    p ∈ reachIn m src (n + 1) := by
  simp only [reachIn, List.mem_flatten, List.mem_map]
  exact ⟨nextStates m q, ⟨q, hq, rfl⟩, hp⟩

theorem rwalk_mem_reachIn (m : Maze) :
    ∀ (l : List Pos), RWalk m l → ∀ (src p : Pos),
      l.getLast? = some src → l.head? = some p →
      p ∈ reachIn m src (l.length - 1) := by
  intro l hw
  induction hw with
  | single x =>
    intro src p hlast hhead
    simp only [List.getLast?_singleton, Option.some.injEq] at hlast
    simp only [List.head?_cons, Option.some.injEq] at hhead
    subst hlast; subst hhead
    simp [reachIn]
  | @cons p q rest hstep hw2 ih =>
    intro src x hlast hhead
    simp only [List.head?_cons, Option.some.injEq] at hhead
    subst hhead
    rw [List.getLast?_cons_cons] at hlast
    have hq := ih src q hlast rfl
    have := reachIn_succ m src q p _ hq hstep
    simpa [Nat.succ_sub_one] using this

/-- The finite universe the search can ever touch: the in-bounds rectangle
plus the (possibly out-of-bounds) start cell. -/
def mazeCells (m : Maze) (src : Pos) : Finset Pos :=
  insert src
    ((Finset.Icc (0 : Int) ((m.rows : Int) - 1)) ×ˢ (Finset.Icc (0 : Int) ((m.cols : Int) - 1)))

theorem inBoundsOpen_mem_mazeCells (m : Maze) (src p : Pos)
    (h : inBoundsOpen m p) : p ∈ mazeCells m src := by
  obtain ⟨h1, h2, h3, h4, _⟩ := h
  apply Finset.mem_insert_of_mem
  rw [Finset.mem_product]
  constructor <;> rw [Finset.mem_Icc] <;> omega

theorem mazeCells_card (m : Maze) (src : Pos) :
    (mazeCells m src).card ≤ m.rows * m.cols + 1 := by
  refine le_trans (Finset.card_insert_le _ _) ?_
  rw [Nat.add_le_add_iff_right, Finset.card_product]
  rw [Int.card_Icc, Int.card_Icc]
  simp

/-!  The master search-loop invariant  -/

/-- Everything the proofs need about a mid-run search state: the maze is the
one passed in, frontier states are distinct and unexplored, every frontier
node's parent chain is a duplicate-free maze walk ending at the start,
ancestors of frontier nodes are explored, explored states never include the
goal and are successor-closed up to the frontier, the start is covered, and
every touched state lies in the finite cell universe. -/
structure SearchInv (ops : SearchOps ν) (rchainOf : ν → List Pos)
    (m : Maze) (src : Pos) (st : SearchState ν) : Prop where
  maze_eq : st.maze = m
  fr_nodup : (st.frontier.map ops.stateOf).Nodup
  fr_not_explored : ∀ n ∈ st.frontier, ops.stateOf n ∉ st.explored_states
  fr_walk : ∀ n ∈ st.frontier, RWalk m (rchainOf n)
  fr_last : ∀ n ∈ st.frontier, (rchainOf n).getLast? = some src
  fr_chain_nodup : ∀ n ∈ st.frontier, (rchainOf n).Nodup
  fr_anc_explored : ∀ n ∈ st.frontier, ∀ p ∈ (rchainOf n).tail, p ∈ st.explored_states
  ex_not_goal : ∀ p ∈ st.explored_states, p ≠ m.goal
  ex_closed : ∀ p ∈ st.explored_states, ∀ q ∈ nextStates m p,
      q ∈ st.explored_states ∨ q ∈ st.frontier.map ops.stateOf
  src_covered : src ∈ st.explored_states ∨ src ∈ st.frontier.map ops.stateOf
  ex_mem : ∀ p ∈ st.explored_states, p ∈ mazeCells m src
  fr_mem : ∀ n ∈ st.frontier, ops.stateOf n ∈ mazeCells m src

/-- Loop variant: uncovered cells plus frontier length; strictly decreasing
along continuing steps. -/
def searchMeasure (ops : SearchOps ν) (m : Maze) (src : Pos)
    (st : SearchState ν) : Nat :=
  ((mazeCells m src) \
      (st.explored_states.toFinset ∪ (st.frontier.map ops.stateOf).toFinset)).card
    + st.frontier.length

theorem searchInv_init (ops : SearchOps ν) (laws : FrontierLaws ops)
    (rchainOf : ν → List Pos) (m : Maze) (src : Pos) (root : ν)
    (hstate : ops.stateOf root = src) (hchain : rchainOf root = [src]) :
    SearchInv ops rchainOf m src
      { maze := m, frontier := ops.fadd root [],
        explored_states := [], explored := [] } := by
  have hperm : List.Perm (ops.fadd root []) [root] := laws.fadd_perm root []
  have hmem : ∀ n ∈ ops.fadd root [], n = root := by
    intro n hn
    simpa using hperm.mem_iff.mp hn
  constructor
  · rfl
  · exact ((hperm.map ops.stateOf).nodup_iff).mpr (by simp)
  · intro n _; simp
  · intro n hn; rw [hmem n hn, hchain]; exact RWalk.single src
  · intro n hn; rw [hmem n hn, hchain]; rfl
  · intro n hn; rw [hmem n hn, hchain]; simp
  · intro n hn; rw [hmem n hn, hchain]; simp
  · intro p hp; simp at hp
  · intro p hp; simp at hp
  · exact Or.inr (List.mem_map.mpr ⟨root, hperm.mem_iff.mpr (by simp), hstate⟩)
  · intro p hp; simp at hp
  · intro n hn; rw [hmem n hn, hstate]; exact Finset.mem_insert_self _ _

theorem searchMeasure_init (ops : SearchOps ν) (laws : FrontierLaws ops)
    (m : Maze) (src : Pos) (root : ν) :
    searchMeasure ops m src
      { maze := m, frontier := ops.fadd root [],
        explored_states := [], explored := [] } ≤ m.rows * m.cols + 2 := by
  unfold searchMeasure
  dsimp only
  have hlen : (ops.fadd root []).length = 1 := (laws.fadd_perm root []).length_eq
  rw [hlen]
  have hcard : ((mazeCells m src) \
      (List.toFinset [] ∪ ((ops.fadd root []).map ops.stateOf).toFinset)).card ≤
      m.rows * m.cols + 1 :=
    le_trans (Finset.card_le_card (Finset.sdiff_subset)) (mazeCells_card m src)
  omega

/-- The expansion fold of search_step under a name (definitionally equal to
the fold written out inside search_step). -/
def expandFold (ops : SearchOps ν) (es : List Pos) (node : ν)
    (children : List (String × Pos)) (fr : List ν) : List ν :=
  children.foldl
    (fun fr as =>
      if (¬ StackFrontier.contains_state ops.stateOf as.2 fr) ∧ as.2 ∉ es then
        ops.fadd (ops.mkChild node as.1 as.2) fr
      else fr) fr

/-- Full specification of the expansion fold: state distinctness, freshness
and any child-generated predicate are preserved, old nodes survive, every
processed target ends up explored-or-on-the-frontier, new states come from
the processed children, and uncovered-cells-plus-frontier-length is
constant. -/
theorem expandFold_spec (ops : SearchOps ν) (laws : FrontierLaws ops)
    (m : Maze) (src : Pos) (es : List Pos) (node : ν) (Q : ν → Prop)
    (hstc : ∀ (a : String) (t : Pos), ops.stateOf (ops.mkChild node a t) = t) :
    ∀ (children : List (String × Pos)) (fr : List ν),
      (∀ a t, (a, t) ∈ children → t ∉ es → Q (ops.mkChild node a t)) →
      (∀ a t, (a, t) ∈ children → t ∈ mazeCells m src) →
      (fr.map ops.stateOf).Nodup →
      (∀ n ∈ fr, ops.stateOf n ∉ es) →
      (∀ n ∈ fr, Q n) →
      (((expandFold ops es node children fr).map ops.stateOf).Nodup ∧
       (∀ n ∈ expandFold ops es node children fr, ops.stateOf n ∉ es) ∧
       (∀ n ∈ expandFold ops es node children fr, Q n) ∧
       (∀ n ∈ fr, n ∈ expandFold ops es node children fr) ∧
       (∀ a t, (a, t) ∈ children →
          t ∈ es ∨ t ∈ (expandFold ops es node children fr).map ops.stateOf) ∧
       (∀ t, t ∈ (expandFold ops es node children fr).map ops.stateOf →
          t ∈ fr.map ops.stateOf ∨ ∃ a, (a, t) ∈ children) ∧
       ((mazeCells m src \
           (es.toFinset ∪
             ((expandFold ops es node children fr).map ops.stateOf).toFinset)).card
          + (expandFold ops es node children fr).length
        = (mazeCells m src \ (es.toFinset ∪ (fr.map ops.stateOf).toFinset)).card
          + fr.length)) := by
  intro children
  induction children with
  | nil =>
    intro fr hQc hmc hnd hne hQ
    exact ⟨hnd, hne, hQ, fun n hn => hn, by simp, fun t ht => Or.inl ht, rfl⟩
  | cons c cs ih =>
    obtain ⟨a0, t0⟩ := c
    intro fr hQc hmc hnd hne hQ
    have hfold : expandFold ops es node ((a0, t0) :: cs) fr =
        expandFold ops es node cs
          (if (¬ StackFrontier.contains_state ops.stateOf t0 fr) ∧ t0 ∉ es then
            ops.fadd (ops.mkChild node a0 t0) fr else fr) := rfl
    by_cases hc : (¬ StackFrontier.contains_state ops.stateOf t0 fr) ∧ t0 ∉ es
    · rw [hfold, if_pos hc]
      have hpermfr : List.Perm (ops.fadd (ops.mkChild node a0 t0) fr)
          (ops.mkChild node a0 t0 :: fr) := laws.fadd_perm _ _
      have hspfr : List.Perm ((ops.fadd (ops.mkChild node a0 t0) fr).map ops.stateOf)
          (t0 :: fr.map ops.stateOf) := by
        have h1 := hpermfr.map ops.stateOf
        rw [List.map_cons, hstc] at h1
        exact h1
      have ht0fr : t0 ∉ fr.map ops.stateOf := by
        intro hmem
        obtain ⟨n, hn, hsn⟩ := List.mem_map.mp hmem
        exact hc.1 ((contains_state_iff ops.stateOf t0 fr).mpr ⟨n, hn, hsn⟩)
      have hnd2 : ((ops.fadd (ops.mkChild node a0 t0) fr).map ops.stateOf).Nodup :=
        hspfr.nodup_iff.mpr (List.nodup_cons.mpr ⟨ht0fr, hnd⟩)
      have hne2 : ∀ n ∈ ops.fadd (ops.mkChild node a0 t0) fr, ops.stateOf n ∉ es := by
        intro n hn
        rcases List.mem_cons.mp (hpermfr.mem_iff.mp hn) with rfl | h2
        · rw [hstc]; exact hc.2
        · exact hne n h2
      have hQ2 : ∀ n ∈ ops.fadd (ops.mkChild node a0 t0) fr, Q n := by
        intro n hn
        rcases List.mem_cons.mp (hpermfr.mem_iff.mp hn) with rfl | h2
        · exact hQc a0 t0 (List.mem_cons_self _ _) hc.2
        · exact hQ n h2
      obtain ⟨ind1, ind2, ind3, ind4, ind5, ind6, ind7⟩ :=
        ih (ops.fadd (ops.mkChild node a0 t0) fr)
          (fun a t ht => hQc a t (List.mem_cons_of_mem _ ht))
          (fun a t ht => hmc a t (List.mem_cons_of_mem _ ht)) hnd2 hne2 hQ2
      refine ⟨ind1, ind2, ind3, ?_, ?_, ?_, ?_⟩
      · intro n hn
        exact ind4 n (hpermfr.mem_iff.mpr (List.mem_cons_of_mem _ hn))
      · intro a t hmem
        rcases List.mem_cons.mp hmem with heq | h2
        · rw [Prod.mk.injEq] at heq
          right
          rw [heq.2]
          have hchild_mem : ops.mkChild node a0 t0 ∈ ops.fadd (ops.mkChild node a0 t0) fr :=
            hpermfr.mem_iff.mpr (List.mem_cons_self _ _)
          exact List.mem_map.mpr ⟨_, ind4 _ hchild_mem, hstc a0 t0⟩
        · exact ind5 a t h2
      · intro t ht
        rcases ind6 t ht with h1 | h2
        · rcases List.mem_cons.mp (hspfr.mem_iff.mp h1) with rfl | h3
          · exact Or.inr ⟨a0, List.mem_cons_self _ _⟩
          · exact Or.inl h3
        · obtain ⟨a, ha⟩ := h2
          exact Or.inr ⟨a, List.mem_cons_of_mem _ ha⟩
      · rw [ind7]
        have htF : ((ops.fadd (ops.mkChild node a0 t0) fr).map ops.stateOf).toFinset =
            insert t0 ((fr.map ops.stateOf).toFinset) := by
          rw [List.toFinset_eq_of_perm _ _ hspfr]
          simp
        have hlen2 : (ops.fadd (ops.mkChild node a0 t0) fr).length = fr.length + 1 := by
          rw [hpermfr.length_eq]; simp
        rw [htF, hlen2]
        have ht0A : t0 ∈ mazeCells m src := hmc a0 t0 (List.mem_cons_self _ _)
        have ht0E : t0 ∉ es.toFinset := by simpa using hc.2
        have ht0S : t0 ∉ (fr.map ops.stateOf).toFinset := by simpa using ht0fr
        have hins : es.toFinset ∪ insert t0 (fr.map ops.stateOf).toFinset =
            insert t0 (es.toFinset ∪ (fr.map ops.stateOf).toFinset) := by
          ext x
          simp only [Finset.mem_insert, Finset.mem_union]
          tauto
        rw [hins, Finset.sdiff_insert]
        have hmem0 : t0 ∈ mazeCells m src \ (es.toFinset ∪ (fr.map ops.stateOf).toFinset) := by
          rw [Finset.mem_sdiff, Finset.mem_union]
          exact ⟨ht0A, fun hx => hx.elim (fun hh => ht0E hh) (fun hh => ht0S hh)⟩
        rw [Finset.card_erase_of_mem hmem0]
        have hpos : 0 < (mazeCells m src \ (es.toFinset ∪ (fr.map ops.stateOf).toFinset)).card :=
          Finset.card_pos.mpr ⟨t0, hmem0⟩
        omega
    · rw [hfold, if_neg hc]
      obtain ⟨ind1, ind2, ind3, ind4, ind5, ind6, ind7⟩ :=
        ih fr (fun a t ht => hQc a t (List.mem_cons_of_mem _ ht))
          (fun a t ht => hmc a t (List.mem_cons_of_mem _ ht)) hnd hne hQ
      refine ⟨ind1, ind2, ind3, ind4, ?_, ?_, ind7⟩
      · intro a t hmem
        rcases List.mem_cons.mp hmem with heq | h2
        · rw [Prod.mk.injEq] at heq
          rw [heq.2]
          rcases Decidable.not_and_iff_or_not.mp hc with h1 | h2
          · right
            have h3 : StackFrontier.contains_state ops.stateOf t0 fr = true := by
              by_contra hcc
              exact h1 hcc
            obtain ⟨n, hn, hsn⟩ := (contains_state_iff ops.stateOf t0 fr).mp h3
            exact List.mem_map.mpr ⟨n, ind4 n hn, hsn⟩
          · left
            exact Decidable.not_not.mp h2
        · exact ind5 a t h2
      · intro t ht
        rcases ind6 t ht with h1 | h2
        · exact Or.inl h1
        · obtain ⟨a, ha⟩ := h2
          exact Or.inr ⟨a, List.mem_cons_of_mem _ ha⟩

/-- One continuing search step preserves the master invariant and strictly
decreases the measure. -/
theorem search_step_inv (ops : SearchOps ν) (laws : FrontierLaws ops)
    (rchainOf : ν → List Pos) (m : Maze) (src : Pos)
    (hstc : ∀ (n : ν) (a : String) (t : Pos), ops.stateOf (ops.mkChild n a t) = t)
    (hchc : ∀ (n : ν) (a : String) (t : Pos), rchainOf (ops.mkChild n a t) = t :: rchainOf n)
    (hhead : ∀ n : ν, (rchainOf n).head? = some (ops.stateOf n))
    (st st2 : SearchState ν) (h : search_step ops st = .inr st2)
    (hinv : SearchInv ops rchainOf m src st) :
    SearchInv ops rchainOf m src st2 ∧
      searchMeasure ops m src st2 < searchMeasure ops m src st := by
  obtain ⟨node, rest, hrem, hlen0, hg, rfl⟩ := search_step_inr_inversion ops st st2 h
  have hmz := hinv.maze_eq
  rw [hmz]
  have hfrperm : List.Perm st.frontier (node :: rest) := laws.fremove_perm _ _ _ hrem
  have hsperm : List.Perm (st.frontier.map ops.stateOf)
      (ops.stateOf node :: rest.map ops.stateOf) := by
    have h1 := hfrperm.map ops.stateOf
    rw [List.map_cons] at h1
    exact h1
  have hnodup2 : (ops.stateOf node :: rest.map ops.stateOf).Nodup :=
    hsperm.nodup_iff.mp hinv.fr_nodup
  have hs0new : ops.stateOf node ∉ rest.map ops.stateOf := (List.nodup_cons.mp hnodup2).1
  have hrestnd : (rest.map ops.stateOf).Nodup := (List.nodup_cons.mp hnodup2).2
  have hnodefr : node ∈ st.frontier := hfrperm.mem_iff.mpr (List.mem_cons_self _ _)
  have hrestfr : ∀ n ∈ rest, n ∈ st.frontier := fun n hn =>
    hfrperm.mem_iff.mpr (List.mem_cons_of_mem _ hn)
  have hs0es2 : ops.stateOf node ∈ st.explored_states ++ [ops.stateOf node] := by simp
  have holdes2 : ∀ p ∈ st.explored_states, p ∈ st.explored_states ++ [ops.stateOf node] := by
    intro p hp; simp [hp]
  have hchain_node : rchainOf node = ops.stateOf node :: (rchainOf node).tail := by
    cases hch : rchainOf node with
    | nil => have := hhead node; rw [hch] at this; simp at this
    | cons q l =>
      have := hhead node; rw [hch] at this
      simp only [List.head?_cons, Option.some.injEq] at this
      rw [this]
      rfl
  have hchain_sub : ∀ p ∈ rchainOf node, p ∈ st.explored_states ++ [ops.stateOf node] := by
    intro p hp
    rw [hchain_node] at hp
    rcases List.mem_cons.mp hp with rfl | h2
    · exact hs0es2
    · exact holdes2 p (hinv.fr_anc_explored node hnodefr p h2)
  -- the bundled chain predicate carried through the fold
  have hspec := expandFold_spec ops laws m src (st.explored_states ++ [ops.stateOf node]) node
    (fun n => RWalk m (rchainOf n) ∧ (rchainOf n).getLast? = some src ∧
      (rchainOf n).Nodup ∧
      ∀ p ∈ (rchainOf n).tail, p ∈ st.explored_states ++ [ops.stateOf node])
    (hstc node) (m.next_moves (ops.stateOf node)) rest
    (by
      intro a t hmem hnotes
      have hwn := hinv.fr_walk node hnodefr
      have htn : t ∈ nextStates m (ops.stateOf node) :=
        List.mem_map.mpr ⟨(a, t), hmem, rfl⟩
      have htnochain : t ∉ rchainOf node := fun hc => hnotes (hchain_sub t hc)
      refine ⟨?_, ?_, ?_, ?_⟩
      · rw [hchc]
        rw [hchain_node] at hwn ⊢
        exact RWalk.cons htn hwn
      · rw [hchc]
        rw [hchain_node]
        rw [List.getLast?_cons_cons]
        rw [← hchain_node]
        exact hinv.fr_last node hnodefr
      · rw [hchc]
        exact List.nodup_cons.mpr ⟨htnochain, hinv.fr_chain_nodup node hnodefr⟩
      · rw [hchc]
        intro p hp
        rw [List.tail_cons] at hp
        exact hchain_sub p hp)
    (by
      intro a t hmem
      exact inBoundsOpen_mem_mazeCells m src t
        (nextStates_open m _ t (List.mem_map.mpr ⟨(a, t), hmem, rfl⟩)))
    hrestnd
    (by
      intro n hn
      have h1 := hinv.fr_not_explored n (hrestfr n hn)
      have h2 : ops.stateOf n ≠ ops.stateOf node := by
        intro he
        exact hs0new (he ▸ List.mem_map.mpr ⟨n, hn, rfl⟩)
      simp only [List.mem_append, List.mem_singleton]
      rintro (hx | hx)
      · exact h1 hx
      · exact h2 hx)
    (by
      intro n hn
      have hfn := hrestfr n hn
      exact ⟨hinv.fr_walk n hfn, hinv.fr_last n hfn, hinv.fr_chain_nodup n hfn,
        fun p hp => holdes2 p (hinv.fr_anc_explored n hfn p hp)⟩)
  obtain ⟨ind1, ind2, ind3, ind4, ind5, ind6, ind7⟩ := hspec
  constructor
  · constructor
    · rfl
    · exact ind1
    · exact ind2
    · exact fun n hn => (ind3 n hn).1
    · exact fun n hn => (ind3 n hn).2.1
    · exact fun n hn => (ind3 n hn).2.2.1
    · exact fun n hn => (ind3 n hn).2.2.2
    · intro p hp
      rcases List.mem_append.mp hp with h1 | h1
      · exact hinv.ex_not_goal p h1
      · rw [List.mem_singleton] at h1
        subst h1
        intro hpg
        exact hg (by rw [hmz]; exact hpg)
    · intro p hp q hq
      rcases List.mem_append.mp hp with h1 | h1
      · rcases hinv.ex_closed p h1 q hq with h2 | h2
        · exact Or.inl (holdes2 q h2)
        · rcases List.mem_cons.mp (hsperm.mem_iff.mp h2) with h3 | h3
          · exact Or.inl (by simp [h3])
          · obtain ⟨n, hn, hsn⟩ := List.mem_map.mp h3
            exact Or.inr (List.mem_map.mpr ⟨n, ind4 n hn, hsn⟩)
      · rw [List.mem_singleton] at h1
        subst h1
        obtain ⟨ap, hap, hsnd⟩ := List.mem_map.mp hq
        rcases ind5 ap.1 ap.2 (by rw [← hmz] at hap ⊢; exact hap) with h2 | h2
        · exact Or.inl (hsnd ▸ h2)
        · exact Or.inr (hsnd ▸ h2)
    · rcases hinv.src_covered with h1 | h1
      · exact Or.inl (holdes2 src h1)
      · rcases List.mem_cons.mp (hsperm.mem_iff.mp h1) with h3 | h3
        · exact Or.inl (by simp [h3])
        · obtain ⟨n, hn, hsn⟩ := List.mem_map.mp h3
          exact Or.inr (List.mem_map.mpr ⟨n, ind4 n hn, hsn⟩)
    · intro p hp
      rcases List.mem_append.mp hp with h1 | h1
      · exact hinv.ex_mem p h1
      · rw [List.mem_singleton] at h1
        subst h1
        exact hinv.fr_mem node hnodefr
    · intro n hn
      have hsn : ops.stateOf n ∈
          (expandFold ops (st.explored_states ++ [ops.stateOf node]) node
            (m.next_moves (ops.stateOf node)) rest).map ops.stateOf :=
        List.mem_map.mpr ⟨n, hn, rfl⟩
      rcases ind6 (ops.stateOf n) hsn with h1 | h1
      · obtain ⟨n2, hn2, hsn2⟩ := List.mem_map.mp h1
        exact hsn2 ▸ hinv.fr_mem n2 (hrestfr n2 hn2)
      · obtain ⟨a, ha⟩ := h1
        exact inBoundsOpen_mem_mazeCells m src _
          (nextStates_open m _ _ (List.mem_map.mpr ⟨(a, ops.stateOf n), ha, rfl⟩))
  · unfold searchMeasure
    dsimp only
    show (mazeCells m src \
        ((st.explored_states ++ [ops.stateOf node]).toFinset ∪
          ((expandFold ops (st.explored_states ++ [ops.stateOf node]) node
            (m.next_moves (ops.stateOf node)) rest).map ops.stateOf).toFinset)).card
        + (expandFold ops (st.explored_states ++ [ops.stateOf node]) node
            (m.next_moves (ops.stateOf node)) rest).length
      < (mazeCells m src \
          (st.explored_states.toFinset ∪
            (st.frontier.map ops.stateOf).toFinset)).card + st.frontier.length
    rw [ind7]
    have hF : (st.explored_states ++ [ops.stateOf node]).toFinset ∪
        (rest.map ops.stateOf).toFinset =
        st.explored_states.toFinset ∪ (st.frontier.map ops.stateOf).toFinset := by
      rw [List.toFinset_eq_of_perm _ _ hsperm]
      ext x
      simp only [Finset.mem_union, List.mem_toFinset, List.mem_append,
        List.mem_singleton, List.mem_cons]
      tauto
    rw [hF]
    have hlen : st.frontier.length = rest.length + 1 := by
      rw [hfrperm.length_eq]; rfl
    omega

/-- Inversion of a halting search step: either the frontier was empty and
No solution is raised, or the removed node is the goal. -/
theorem search_step_inl_cases (ops : SearchOps ν) (laws : FrontierLaws ops)
    (st : SearchState ν) (out : Outcome ν) (h : search_step ops st = .inl out) :
    (out = .fail .noSolution ∧ st.frontier = []) ∨
    (∃ node rest, ops.fremove st.frontier = .ok (node, rest) ∧
      ops.stateOf node = st.maze.get_goal ∧ node ∈ st.frontier ∧ out = .found node) := by
  unfold search_step at h
  split at h
  case _ hlen =>
    injection h with h2
    exact Or.inl ⟨h2.symm, List.length_eq_zero.mp hlen⟩
  case _ hlen =>
    split at h
    case _ e heq =>
      exfalso
      obtain ⟨n, rest, hok⟩ := laws.fremove_total st.frontier
        (fun hnil => hlen (by rw [hnil]; rfl))
      rw [heq] at hok
      exact absurd hok (by simp)
    case _ node rest heq =>
      split at h
      case _ hg =>
        injection h with h2
        exact Or.inr ⟨node, rest, heq, hg,
          (laws.fremove_perm _ _ _ heq).mem_iff.mpr (List.mem_cons_self _ _), h2.symm⟩
      case _ hg => exact absurd h (by simp)

/-- With enough fuel, the search loop ends in one of exactly two ways: a
goal node is found (and its parent chain is a walk to the goal), or the
frontier empties and No solution is raised. -/
theorem search_loop_outcome (ops : SearchOps ν) (laws : FrontierLaws ops)
    (rchainOf : ν → List Pos) (m : Maze) (src : Pos)
    (hstc : ∀ (n : ν) (a : String) (t : Pos), ops.stateOf (ops.mkChild n a t) = t)
    (hchc : ∀ (n : ν) (a : String) (t : Pos), rchainOf (ops.mkChild n a t) = t :: rchainOf n)
    (hhead : ∀ n : ν, (rchainOf n).head? = some (ops.stateOf n)) :
    ∀ (fuel : Nat) (st : SearchState ν), SearchInv ops rchainOf m src st →
      searchMeasure ops m src st < fuel →
      ((∃ node st', search_loop ops fuel st = (.found node, st') ∧
        SearchInv ops rchainOf m src st' ∧ node ∈ st'.frontier ∧
        ops.stateOf node = m.goal) ∨
      (∃ st', search_loop ops fuel st = (.fail .noSolution, st') ∧
        SearchInv ops rchainOf m src st' ∧ st'.frontier = [])) := by
  intro fuel
  induction fuel with
  | zero => intro st hinv hm; omega
  | succ k ih =>
    intro st hinv hm
    unfold search_loop
    cases hstep : search_step ops st with
    | inl out =>
      rcases search_step_inl_cases ops laws st out hstep with ⟨h1, h2⟩ |
        ⟨node, rest, hok, hg, hmem, h1⟩
      · exact Or.inr ⟨st, by rw [h1], hinv, h2⟩
      · refine Or.inl ⟨node, st, by rw [h1], hinv, hmem, ?_⟩
        rw [hinv.maze_eq] at hg
        exact hg
    | inr st2 =>
      obtain ⟨hinv2, hdec⟩ :=
        search_step_inv ops laws rchainOf m src hstc hchc hhead st st2 hstep hinv
      exact ih st2 hinv2 (by omega)

/-- If every cell of C is successor-closed and contains src, it contains
everything reachable from src. -/
theorem reachIn_subset_closed (m : Maze) (src : Pos) (C : List Pos)
    (hsrc : src ∈ C) (hclosed : ∀ p ∈ C, ∀ q ∈ nextStates m p, q ∈ C) :
    ∀ n, ∀ x ∈ reachIn m src n, x ∈ C := by
  intro n
  induction n with
  | zero =>
    intro x hx
    simp only [reachIn, List.mem_singleton] at hx
    exact hx ▸ hsrc
  | succ k ih =>
    intro x hx
    simp only [reachIn, List.mem_flatten, List.mem_map] at hx
    obtain ⟨l, ⟨p, hp, rfl⟩, hxl⟩ := hx
    exact hclosed p (ih p hp) x hxl

/-- Generic completeness in the negative direction: when the goal is not
reachable from the start, run_search returns the No solution error (and in
particular terminates without the empty-frontier error ever escaping). -/
theorem run_search_unreachable (ops : SearchOps ν) (laws : FrontierLaws ops)
    (rchainOf : ν → List Pos)
    (hstc : ∀ (n : ν) (a : String) (t : Pos), ops.stateOf (ops.mkChild n a t) = t)
    (hchc : ∀ (n : ν) (a : String) (t : Pos), rchainOf (ops.mkChild n a t) = t :: rchainOf n)
    (hhead : ∀ n : ν, (rchainOf n).head? = some (ops.stateOf n))
    (pathOf : ν → List (String × Pos)) (root : ν) (m : Maze) (start : Pos)
    (hroot_state : ops.stateOf root = start) (hroot_chain : rchainOf root = [start])
    (hunreach : ¬ Reachable m start m.goal) :
    run_search ops pathOf root m = .error .noSolution := by
  unfold run_search
  dsimp only
  have hinv := searchInv_init ops laws rchainOf m start root hroot_state hroot_chain
  have hm := searchMeasure_init ops laws m start root
  rcases search_loop_outcome ops laws rchainOf m start hstc hchc hhead
      (m.rows * m.cols + 3) _ hinv (by omega) with
    ⟨node, st', heq, hinv', hmem, hgoal⟩ | ⟨st', heq, hinv', hfr⟩
  · exfalso
    apply hunreach
    have hw := hinv'.fr_walk node hmem
    have hl := hinv'.fr_last node hmem
    have hh : (rchainOf node).head? = some m.goal := by rw [hhead node, hgoal]
    exact ⟨_, rwalk_mem_reachIn m _ hw start m.goal hl hh⟩
  · rw [heq]

/-- Claim C3: on any maze whose goal is not reachable from the given start
through in-bounds non-wall cells, all four searches terminate and raise the
No solution error; the distinct empty-frontier error is never observable
(the result is noSolution, not emptyFrontier), because the loop checks
emptiness before every remove. -/
theorem searches_raise_no_solution (m : Maze) (start : Pos)
    (h : ¬ Reachable m start m.goal) :
    breadth_first_search start m = .error .noSolution ∧
    depth_first_search start m = .error .noSolution ∧
    greedy_first_search start m = .error .noSolution ∧
    astar_first_search start m = .error .noSolution := by
  refine ⟨?_, ?_, ?_, ?_⟩
  · exact run_search_unreachable bfs_ops bfs_laws Node.rchain
      (fun n a t => rfl) (fun n a t => rfl) Node.rchain_head
      Node.ancPath (Node.mkRoot start) m start rfl rfl h
  · exact run_search_unreachable dfs_ops dfs_laws Node.rchain
      (fun n a t => rfl) (fun n a t => rfl) Node.rchain_head
      Node.ancPath (Node.mkRoot start) m start rfl rfl h
  · exact run_search_unreachable (greedy_ops m.get_goal) (greedy_laws m.get_goal)
      Node.rchain (fun n a t => rfl) (fun n a t => rfl) Node.rchain_head
      Node.ancPath (Node.mkRoot start) m start rfl rfl h
  · exact run_search_unreachable (astar_ops m.get_goal) (astar_laws m.get_goal)
      CostNode.rchain (fun n a t => rfl) (fun n a t => rfl) CostNode.rchain_head_cost
      CostNode.ancPath (CostNode.mkRoot start 0) m start rfl rfl h

/-- A 5x5 maze whose goal cell (3,3) is walled off from the start. -/
def disconnectedMaze : Maze :=
  { rows := 5, cols := 5,
    maze := [['#','#','#','#','#'],
             ['#','S',' ','#','#'],
             ['#','#','#','#','#'],
             ['#','#','#','G','#'],
             ['#','#','#','#','#']],
    start := (1, 1), goal := (3, 3) }

/-- Witness for searches_raise_no_solution on the disconnected maze. -/
theorem searches_raise_no_solution_witness :
    breadth_first_search (1, 1) disconnectedMaze = .error .noSolution ∧
    depth_first_search (1, 1) disconnectedMaze = .error .noSolution ∧
    greedy_first_search (1, 1) disconnectedMaze = .error .noSolution ∧
    astar_first_search (1, 1) disconnectedMaze = .error .noSolution := by
  have hC : ∀ p ∈ [((1 : Int), (1 : Int)), ((1 : Int), (2 : Int))],
      ∀ q ∈ nextStates disconnectedMaze p, q ∈ [((1 : Int), (1 : Int)), ((1 : Int), (2 : Int))] := by
    decide
  have hunreach : ¬ Reachable disconnectedMaze (1, 1) disconnectedMaze.goal := by
    rintro ⟨n, hn⟩
    have := reachIn_subset_closed disconnectedMaze (1, 1)
      [((1 : Int), (1 : Int)), ((1 : Int), (2 : Int))] (by decide) hC n _ hn
    revert this
    decide
  exact searches_raise_no_solution disconnectedMaze (1, 1) hunreach

/-!  Grid read/write lemmas for the generation proofs  -/

/-- In-bounds for a rows x cols rectangle. -/
def inRect (rows cols : Nat) (p : Pos) : Prop :=
  0 ≤ p.1 ∧ p.1 < (rows : Int) ∧ 0 ≤ p.2 ∧ p.2 < (cols : Int)

instance (rows cols : Nat) (p : Pos) : Decidable (inRect rows cols p) := by
  unfold inRect; infer_instance

theorem getD_set_self (l : List α) (i : Nat) (a d : α) (h : i < l.length) :
    (l.set i a).getD i d = a := by
  rw [List.getD_eq_getElem?_getD, List.getElem?_set_self']
  simp [List.getElem?_eq_getElem h]

theorem getD_set_ne (l : List α) (i j : Nat) (a d : α) (h : i ≠ j) :
    (l.set i a).getD j d = l.getD j d := by
  rw [List.getD_eq_getElem?_getD, List.getD_eq_getElem?_getD, List.getElem?_set_ne h]

theorem getD_lt (l : List α) (i : Nat) (d : α) (h : i < l.length) :
    l.getD i d = l[i] := by
  rw [List.getD_eq_getElem?_getD, List.getElem?_eq_getElem h]
  rfl

theorem cellAt_setCell_self (g : Grid) (rows cols : Nat) (p : Pos) (ch : Char)
    (hwf : WFGrid g rows cols) (hp : inRect rows cols p) :
    cellAt (setCell g p ch) p = ch := by
  obtain ⟨h1, h2, h3, h4⟩ := hp
  have hi : p.1.toNat < g.length := by rw [hwf.1]; omega
  have hrow : (g.getD p.1.toNat []).length = cols := by
    rw [getD_lt g _ _ hi]
    exact hwf.2 _ (List.getElem_mem _)
  have hj : p.2.toNat < (g.getD p.1.toNat []).length := by rw [hrow]; omega
  unfold cellAt setCell
  rw [getD_set_self _ _ _ _ hi, getD_set_self _ _ _ _ hj]

theorem cellAt_setCell_ne (g : Grid) (rows cols : Nat) (p q : Pos) (ch : Char)
    (hwf : WFGrid g rows cols) (hp : inRect rows cols p)
    (hq1 : 0 ≤ q.1) (hq2 : 0 ≤ q.2) (hne : q ≠ p) :
    cellAt (setCell g p ch) q = cellAt g q := by
  obtain ⟨h1, h2, h3, h4⟩ := hp
  have hi : p.1.toNat < g.length := by rw [hwf.1]; omega
  unfold cellAt setCell
  by_cases hr : q.1.toNat = p.1.toNat
  · have hq1p : q.1 = p.1 := by omega
    have hq2p : q.2 ≠ p.2 := by
      intro hc
      exact hne (Prod.ext hq1p hc)
    have hj : q.2.toNat ≠ p.2.toNat := by omega
    rw [hr, getD_set_self _ _ _ _ hi, getD_set_ne _ _ _ _ _ (Ne.symm hj)]
  · rw [getD_set_ne _ _ _ _ _ (fun hc => hr hc.symm)]

theorem WFGrid_setCell (g : Grid) (rows cols : Nat) (p : Pos) (ch : Char)
    (hwf : WFGrid g rows cols) (hp : inRect rows cols p) :
    WFGrid (setCell g p ch) rows cols := by
  obtain ⟨h1, h2, h3, h4⟩ := hp
  have hi : p.1.toNat < g.length := by rw [hwf.1]; omega
  constructor
  · rw [setCell, List.length_set, hwf.1]
  · intro row hrow
    rcases List.mem_or_eq_of_mem_set hrow with hmem | heq
    · exact hwf.2 row hmem
    · rw [heq, List.length_set, getD_lt g _ _ hi]
      exact hwf.2 _ (List.getElem_mem _)

theorem getD_replicate (n : Nat) (a d : α) (i : Nat) :
    (List.replicate n a).getD i d = if i < n then a else d := by
  split
  case _ h =>
    rw [getD_lt _ _ _ (by simpa using h)]
    exact List.getElem_replicate _ _
  case _ h =>
    rw [List.getD_eq_getElem?_getD, List.getElem?_eq_none (by simpa using h)]
    rfl

theorem cellAt_replicate (rows cols : Nat) (p : Pos) :
    cellAt (List.replicate rows (List.replicate cols '#')) p = '#' := by
  unfold cellAt
  rw [getD_replicate]
  split
  · rw [getD_replicate]
    split <;> rfl
  · rfl

theorem WFGrid_replicate (rows cols : Nat) :
    WFGrid (List.replicate rows (List.replicate cols '#')) rows cols := by
  constructor
  · exact List.length_replicate _ _
  · intro row hrow
    rw [List.eq_of_mem_replicate hrow]
    exact List.length_replicate _ _

/-- Cell adjacency: one cardinal step apart. -/
def adjCell (p q : Pos) : Prop :=
  (p.1 = q.1 ∧ (p.2 = q.2 + 1 ∨ q.2 = p.2 + 1)) ∨
  (p.2 = q.2 ∧ (p.1 = q.1 + 1 ∨ q.1 = p.1 + 1))

theorem adjCell_symm (p q : Pos) (h : adjCell p q) : adjCell q p := by
  unfold adjCell at *
  tauto

theorem mem_cand_iff_adj (p t : Pos) :
    t ∈ [(p.1, p.2 - 1), (p.1, p.2 + 1), (p.1 - 1, p.2), (p.1 + 1, p.2)] ↔
      adjCell t p := by
  simp only [List.mem_cons, List.not_mem_nil, or_false, adjCell, Prod.ext_iff]
  omega

/-- get_next successors are exactly the adjacent in-bounds non-wall cells. -/
theorem mem_nextStates_adj (m : Maze) (p t : Pos) :
    t ∈ nextStates m p ↔ (adjCell t p ∧ inBoundsOpen m t) := by
  rw [mem_nextStates, mem_cand_iff_adj]

theorem inBoundsOpen_iff (m : Maze) (p : Pos) :
    inBoundsOpen m p ↔ (inRect m.rows m.cols p ∧ cellAt m.maze p ≠ '#') := by
  unfold inBoundsOpen inRect
  tauto

/-!  The carve invariant for generate_solvable_maze  -/

/-- Invariant of the DFS carver: grid shape, cell-value discipline, the
even-even-cells-are-walls and corridor-endpoints geometry, a potential φ
grading every open cell by its carve distance from the start (adjacent open
cells differ by exactly one, and every open cell except the start has a
unique lower neighbor), and the stack discipline. -/
structure CarveInv (rows cols : Nat) (start : Pos) (g : Grid)
    (stack : List Pos) (φ : Pos → Nat) : Prop where
  wf : WFGrid g rows cols
  start_in : inRect rows cols start
  start_odd : start.1 % 2 = 1 ∧ start.2 % 2 = 1
  start_cell : cellAt g start = 'S'
  phi_start : φ start = 0
  s_only : ∀ p, inRect rows cols p → cellAt g p = 'S' → p = start
  even_wall : ∀ p, inRect rows cols p → p.1 % 2 = 0 → p.2 % 2 = 0 → cellAt g p = '#'
  corridor_v : ∀ p, inRect rows cols p → cellAt g p ≠ '#' → p.1 % 2 = 0 →
      inRect rows cols (p.1 - 1, p.2) ∧ inRect rows cols (p.1 + 1, p.2) ∧
      cellAt g (p.1 - 1, p.2) ≠ '#' ∧ cellAt g (p.1 + 1, p.2) ≠ '#'
  corridor_h : ∀ p, inRect rows cols p → cellAt g p ≠ '#' → p.2 % 2 = 0 →
      inRect rows cols (p.1, p.2 - 1) ∧ inRect rows cols (p.1, p.2 + 1) ∧
      cellAt g (p.1, p.2 - 1) ≠ '#' ∧ cellAt g (p.1, p.2 + 1) ≠ '#'
  adj_phi : ∀ p q, inRect rows cols p → inRect rows cols q →
      cellAt g p ≠ '#' → cellAt g q ≠ '#' → adjCell p q →
      φ p = φ q + 1 ∨ φ q = φ p + 1
  lower_uniq : ∀ p, inRect rows cols p → cellAt g p ≠ '#' → p ≠ start →
      1 ≤ φ p ∧ ∃ q, inRect rows cols q ∧ cellAt g q ≠ '#' ∧ adjCell q p ∧
        φ q + 1 = φ p ∧
        ∀ r, inRect rows cols r → cellAt g r ≠ '#' → adjCell r p →
          φ r + 1 = φ p → r = q
  phi_zero : ∀ p, inRect rows cols p → cellAt g p ≠ '#' → φ p = 0 → p = start
  stack_ok : ∀ p ∈ stack, inRect rows cols p ∧ cellAt g p ≠ '#' ∧
      p.1 % 2 = 1 ∧ p.2 % 2 = 1

/-- The four unit directions, as linear facts usable by omega. -/
theorem dir_cases (d : Int × Int) (hd : d ∈ directions) :
    (d.1 = 0 ∧ (d.2 = 1 ∨ d.2 = -1)) ∨ (d.2 = 0 ∧ (d.1 = 1 ∨ d.1 = -1)) := by
  simp only [directions, List.mem_cons, List.not_mem_nil, or_false] at hd
  rcases hd with h | h | h | h <;> rw [h] <;> simp

/-- A neighbor of the mid cell A+d is A, the target A+2d, or even-even. -/
theorem mid_nbr_cases (A : Pos) (d : Int × Int)
    (hd4 : (d.1 = 0 ∧ (d.2 = 1 ∨ d.2 = -1)) ∨ (d.2 = 0 ∧ (d.1 = 1 ∨ d.1 = -1)))
    (hodd : A.1 % 2 = 1 ∧ A.2 % 2 = 1) (X : Pos)
    (h : adjCell X (A.1 + d.1, A.2 + d.2)) :
    (X.1 = A.1 ∧ X.2 = A.2) ∨ (X.1 = A.1 + d.1 * 2 ∧ X.2 = A.2 + d.2 * 2) ∨
    (X.1 % 2 = 0 ∧ X.2 % 2 = 0) := by
  unfold adjCell at h
  dsimp only at h
  omega

/-- A neighbor of an odd-odd cell is a corridor cell having it as an axis
endpoint. -/
theorem oddodd_nbr_cases (T X : Pos) (h1 : T.1 % 2 = 1) (h2 : T.2 % 2 = 1)
    (h : adjCell X T) :
    (X.1 % 2 = 0 ∧ X.2 % 2 = 1 ∧ T.2 = X.2 ∧ (T.1 = X.1 - 1 ∨ T.1 = X.1 + 1)) ∨
    (X.1 % 2 = 1 ∧ X.2 % 2 = 0 ∧ X.1 = T.1 ∧ (T.2 = X.2 - 1 ∨ T.2 = X.2 + 1)) := by
  unfold adjCell at h
  omega

theorem mid_parity (A : Pos) (d : Int × Int)
    (hd4 : (d.1 = 0 ∧ (d.2 = 1 ∨ d.2 = -1)) ∨ (d.2 = 0 ∧ (d.1 = 1 ∨ d.1 = -1)))
    (hodd : A.1 % 2 = 1 ∧ A.2 % 2 = 1) :
    ((A.1 + d.1) % 2 = 0 ∧ (A.2 + d.2) % 2 = 1 ∧ d.2 = 0) ∨
    ((A.1 + d.1) % 2 = 1 ∧ (A.2 + d.2) % 2 = 0 ∧ d.1 = 0) := by
  omega

/-- In-bounds odd-odd wall cells: the carve-loop variant counts these. -/
def woddCount (rows cols : Nat) (g : Grid) : Nat :=
  (((Finset.Icc (0 : Int) ((rows : Int) - 1)) ×ˢ
      (Finset.Icc (0 : Int) ((cols : Int) - 1))).filter
    (fun p => p.1 % 2 = 1 ∧ p.2 % 2 = 1 ∧ cellAt g p = '#')).card

theorem mem_rectFinset (rows cols : Nat) (p : Pos) :
    p ∈ ((Finset.Icc (0 : Int) ((rows : Int) - 1)) ×ˢ
      (Finset.Icc (0 : Int) ((cols : Int) - 1))) ↔ inRect rows cols p := by
  rw [Finset.mem_product, Finset.mem_Icc, Finset.mem_Icc]
  unfold inRect
  omega

theorem woddCount_le (rows cols : Nat) (g : Grid) :
    woddCount rows cols g ≤ rows * cols := by
  refine le_trans (Finset.card_filter_le _ _) ?_
  rw [Finset.card_product, Int.card_Icc, Int.card_Icc]
  simp

/-- Effect of one successful carve from cell A in direction d: the invariant
is preserved with the potential extended to the two fresh cells, openness
is monotone, the potential is unchanged on previously open cells, and the
odd-odd wall count drops by exactly one. -/
theorem carve_one (rows cols : Nat) (start : Pos) (g : Grid) (stack : List Pos)
    (φ : Pos → Nat) (A : Pos) (d : Int × Int) (hd : d ∈ directions)
    (hInv : CarveInv rows cols start g stack φ)
    (hAin : inRect rows cols A) (hAopen : cellAt g A ≠ '#')
    (hAodd : A.1 % 2 = 1 ∧ A.2 % 2 = 1)
    (hTin : inRect rows cols (A.1 + d.1 * 2, A.2 + d.2 * 2))
    (hTw : cellAt g (A.1 + d.1 * 2, A.2 + d.2 * 2) = '#') :
    ∃ φ2, CarveInv rows cols start
        (setCell (setCell g (A.1 + d.1, A.2 + d.2) ' ')
          (A.1 + d.1 * 2, A.2 + d.2 * 2) ' ')
        (stack ++ [(A.1 + d.1 * 2, A.2 + d.2 * 2)]) φ2 ∧
      (∀ p, inRect rows cols p → cellAt g p ≠ '#' →
        cellAt (setCell (setCell g (A.1 + d.1, A.2 + d.2) ' ')
          (A.1 + d.1 * 2, A.2 + d.2 * 2) ' ') p ≠ '#') ∧
      (∀ p, inRect rows cols p → cellAt g p ≠ '#' → (fun q =>
        if q = (A.1 + d.1, A.2 + d.2) then φ A + 1
        else if q = (A.1 + d.1 * 2, A.2 + d.2 * 2) then φ A + 2
        else φ q) p = φ p) ∧
      woddCount rows cols
        (setCell (setCell g (A.1 + d.1, A.2 + d.2) ' ')
          (A.1 + d.1 * 2, A.2 + d.2 * 2) ' ') + 1 = woddCount rows cols g := by
  have hd4 := dir_cases d hd
  set M : Pos := (A.1 + d.1, A.2 + d.2) with hMdef
  set T : Pos := (A.1 + d.1 * 2, A.2 + d.2 * 2) with hTdef
  have hM1 : M.1 = A.1 + d.1 := rfl
  have hM2 : M.2 = A.2 + d.2 := rfl
  have hT1 : T.1 = A.1 + d.1 * 2 := rfl
  have hT2c : T.2 = A.2 + d.2 * 2 := rfl
  have hMparity := mid_parity A d hd4 hAodd
  rw [← hM1, ← hM2] at hMparity
  have hTodd : T.1 % 2 = 1 ∧ T.2 % 2 = 1 := by
    rw [hT1, hT2c]; omega
  have hMin : inRect rows cols M := by
    unfold inRect at *
    rw [hM1, hM2]
    omega
  have hMneA : M ≠ A := by
    intro hc
    have h1 := congrArg Prod.fst hc
    have h2 := congrArg Prod.snd hc
    rw [hM1] at h1; rw [hM2] at h2
    omega
  have hMneT : M ≠ T := by
    intro hc
    have h1 := congrArg Prod.fst hc
    have h2 := congrArg Prod.snd hc
    rw [hM1, hT1] at h1; rw [hM2, hT2c] at h2
    omega
  have hTneA : T ≠ A := by
    intro hc
    have h1 := congrArg Prod.fst hc
    have h2 := congrArg Prod.snd hc
    rw [hT1] at h1; rw [hT2c] at h2
    omega
  have hTneSt : T ≠ start := by
    intro hc
    rw [hc] at hTw
    rw [hInv.start_cell] at hTw
    exact absurd hTw (by decide)
  have hadjAM : adjCell A M := by
    unfold adjCell
    rw [hM1, hM2]
    omega
  have hadjMT : adjCell M T := by
    unfold adjCell
    rw [hM1, hM2, hT1, hT2c]
    omega
  have hTnbr_closed : ∀ X, inRect rows cols X → adjCell X T →
      cellAt g X ≠ '#' → False := by
    intro X hXin hadj hXopen
    rcases oddodd_nbr_cases T X hTodd.1 hTodd.2 hadj with
      ⟨he1, he2, he3, he4⟩ | ⟨he1, he2, he3, he4⟩
    · obtain ⟨hi1, hi2, ho1, ho2⟩ := hInv.corridor_v X hXin hXopen he1
      rcases he4 with h5 | h5
      · have hTeq : T = (X.1 - 1, X.2) := Prod.ext h5 he3
        rw [hTeq] at hTw
        exact ho1 hTw
      · have hTeq : T = (X.1 + 1, X.2) := Prod.ext h5 he3
        rw [hTeq] at hTw
        exact ho2 hTw
    · obtain ⟨hi1, hi2, ho1, ho2⟩ := hInv.corridor_h X hXin hXopen he2
      rcases he4 with h5 | h5
      · have hTeq : T = (X.1, X.2 - 1) := Prod.ext he3.symm h5
        rw [hTeq] at hTw
        exact ho1 hTw
      · have hTeq : T = (X.1, X.2 + 1) := Prod.ext he3.symm h5
        rw [hTeq] at hTw
        exact ho2 hTw
  have hMclosed : cellAt g M = '#' := by
    by_contra hMopen
    rcases hMparity with ⟨hp1, hp2, hp3⟩ | ⟨hp1, hp2, hp3⟩
    · obtain ⟨hi1, hi2, ho1, ho2⟩ := hInv.corridor_v M hMin hMopen hp1
      rcases (by omega : d.1 = 1 ∨ d.1 = -1) with h5 | h5
      · have hTeq : T = (M.1 + 1, M.2) := by
          refine Prod.ext ?_ ?_
          · rw [hT1, hM1]; omega
          · rw [hT2c, hM2]; omega
        rw [hTeq] at hTw
        exact ho2 hTw
      · have hTeq : T = (M.1 - 1, M.2) := by
          refine Prod.ext ?_ ?_
          · rw [hT1, hM1]; omega
          · rw [hT2c, hM2]; omega
        rw [hTeq] at hTw
        exact ho1 hTw
    · obtain ⟨hi1, hi2, ho1, ho2⟩ := hInv.corridor_h M hMin hMopen hp2
      rcases (by omega : d.2 = 1 ∨ d.2 = -1) with h5 | h5
      · have hTeq : T = (M.1, M.2 + 1) := by
          refine Prod.ext ?_ ?_
          · rw [hT1, hM1]; omega
          · rw [hT2c, hM2]; omega
        rw [hTeq] at hTw
        exact ho2 hTw
      · have hTeq : T = (M.1, M.2 - 1) := by
          refine Prod.ext ?_ ?_
          · rw [hT1, hM1]; omega
          · rw [hT2c, hM2]; omega
        rw [hTeq] at hTw
        exact ho1 hTw
  have hMneSt : M ≠ start := by
    intro hc
    rw [hc, hInv.start_cell] at hMclosed
    exact absurd hMclosed (by decide)
  have hwfM := WFGrid_setCell g rows cols M ' ' hInv.wf hMin
  have hwf2 := WFGrid_setCell _ rows cols T ' ' hwfM hTin
  have hcell : ∀ q, inRect rows cols q →
      cellAt (setCell (setCell g M ' ') T ' ') q =
        if q = T then ' ' else if q = M then ' ' else cellAt g q := by
    intro q hq
    by_cases hqT : q = T
    · rw [if_pos hqT, hqT]
      exact cellAt_setCell_self _ rows cols T ' ' hwfM hTin
    · rw [if_neg hqT, cellAt_setCell_ne _ rows cols T q ' ' hwfM hTin hq.1 hq.2.2.1 hqT]
      by_cases hqM : q = M
      · rw [if_pos hqM, hqM]
        exact cellAt_setCell_self g rows cols M ' ' hInv.wf hMin
      · rw [if_neg hqM, cellAt_setCell_ne g rows cols M q ' ' hInv.wf hMin hq.1 hq.2.2.1 hqM]
  have hopen2 : ∀ q, inRect rows cols q →
      (cellAt (setCell (setCell g M ' ') T ' ') q ≠ '#' ↔
        (q = T ∨ q = M ∨ cellAt g q ≠ '#')) := by
    intro q hq
    rw [hcell q hq]
    by_cases hqT : q = T
    · simp [hqT]
    · by_cases hqM : q = M
      · simp [hqT, hqM]
      · simp [hqT, hqM]
  have hmono : ∀ p, inRect rows cols p → cellAt g p ≠ '#' →
      cellAt (setCell (setCell g M ' ') T ' ') p ≠ '#' := by
    intro p hp hop
    rw [hopen2 p hp]
    exact Or.inr (Or.inr hop)
  have hTopen2 : cellAt (setCell (setCell g M ' ') T ' ') T ≠ '#' := by
    rw [hopen2 T hTin]; exact Or.inl rfl
  have hMopen2 : cellAt (setCell (setCell g M ' ') T ' ') M ≠ '#' := by
    rw [hopen2 M hMin]; exact Or.inr (Or.inl rfl)
  have hMdisagree : ∀ x : Pos, x.1 % 2 = 1 → x.2 % 2 = 1 → x ≠ M := by
    intro x hx1 hx2 hc
    have h1 := congrArg Prod.fst hc
    have h2 := congrArg Prod.snd hc
    rcases hMparity with ⟨e1, e2, e3⟩ | ⟨e1, e2, e3⟩ <;> omega
  have hφold : ∀ r : Pos, cellAt g r ≠ '#' →
      (if r = M then φ A + 1 else if r = T then φ A + 2 else φ r) = φ r := by
    intro r hr
    have h1 : r ≠ M := fun hc => (hc ▸ hr) hMclosed
    have h2 : r ≠ T := fun hc => (hc ▸ hr) hTw
    rw [if_neg h1, if_neg h2]
  refine ⟨fun q => if q = M then φ A + 1 else if q = T then φ A + 2 else φ q,
    ?_, hmono, ?_, ?_⟩
  case _ =>
    constructor
    · exact hwf2
    · exact hInv.start_in
    · exact hInv.start_odd
    · rw [hcell start hInv.start_in, if_neg (Ne.symm hTneSt), if_neg (Ne.symm hMneSt)]
      exact hInv.start_cell
    · show (if start = M then φ A + 1 else if start = T then φ A + 2 else φ start) = 0
      rw [if_neg (Ne.symm hMneSt), if_neg (Ne.symm hTneSt)]
      exact hInv.phi_start
    · intro p hp hS
      rw [hcell p hp] at hS
      split_ifs at hS with h1 h2
      · exact absurd hS (by decide)
      · exact absurd hS (by decide)
      · exact hInv.s_only p hp hS
    · intro p hp he1 he2
      rw [hcell p hp]
      have hpT : p ≠ T := by
        intro hc
        rw [hc] at he1
        omega
      have hpM : p ≠ M := by
        intro hc
        have h1 := congrArg Prod.fst hc
        have h2 := congrArg Prod.snd hc
        rcases hMparity with ⟨e1, e2, e3⟩ | ⟨e1, e2, e3⟩ <;> omega
      rw [if_neg hpT, if_neg hpM]
      exact hInv.even_wall p hp he1 he2
    · intro p hp hop hpe
      rcases (hopen2 p hp).mp hop with rfl | rfl | hold
      · exfalso
        omega
      · rcases hMparity with ⟨hp1, hp2, hp3⟩ | ⟨hp1, hp2, hp3⟩
        · rcases (by omega : d.1 = 1 ∨ d.1 = -1) with h5 | h5
          · have hAeq : (M.1 - 1, M.2) = A :=
              Prod.ext (by rw [hM1]; omega) (by rw [hM2]; omega)
            have hTeq : (M.1 + 1, M.2) = T :=
              Prod.ext (by rw [hM1, hT1]; omega) (by rw [hM2, hT2c]; omega)
            rw [hAeq, hTeq]
            exact ⟨hAin, hTin, hmono A hAin hAopen, hTopen2⟩
          · have hTeq : (M.1 - 1, M.2) = T :=
              Prod.ext (by rw [hM1, hT1]; omega) (by rw [hM2, hT2c]; omega)
            have hAeq : (M.1 + 1, M.2) = A :=
              Prod.ext (by rw [hM1]; omega) (by rw [hM2]; omega)
            rw [hAeq, hTeq]
            exact ⟨hTin, hAin, hTopen2, hmono A hAin hAopen⟩
        · exfalso
          omega
      · obtain ⟨hi1, hi2, ho1, ho2⟩ := hInv.corridor_v p hp hold hpe
        exact ⟨hi1, hi2, hmono _ hi1 ho1, hmono _ hi2 ho2⟩
    · intro p hp hop hpe
      rcases (hopen2 p hp).mp hop with rfl | rfl | hold
      · exfalso
        omega
      · rcases hMparity with ⟨hp1, hp2, hp3⟩ | ⟨hp1, hp2, hp3⟩
        · exfalso
          omega
        · rcases (by omega : d.2 = 1 ∨ d.2 = -1) with h5 | h5
          · have hAeq : (M.1, M.2 - 1) = A :=
              Prod.ext (by rw [hM1]; omega) (by rw [hM2]; omega)
            have hTeq : (M.1, M.2 + 1) = T :=
              Prod.ext (by rw [hM1, hT1]; omega) (by rw [hM2, hT2c]; omega)
            rw [hAeq, hTeq]
            exact ⟨hAin, hTin, hmono A hAin hAopen, hTopen2⟩
          · have hTeq : (M.1, M.2 - 1) = T :=
              Prod.ext (by rw [hM1, hT1]; omega) (by rw [hM2, hT2c]; omega)
            have hAeq : (M.1, M.2 + 1) = A :=
              Prod.ext (by rw [hM1]; omega) (by rw [hM2]; omega)
            rw [hAeq, hTeq]
            exact ⟨hTin, hAin, hTopen2, hmono A hAin hAopen⟩
      · obtain ⟨hi1, hi2, ho1, ho2⟩ := hInv.corridor_h p hp hold hpe
        exact ⟨hi1, hi2, hmono _ hi1 ho1, hmono _ hi2 ho2⟩
    · intro p q hpin hqin hpo hqo hadj
      dsimp only
      rcases (hopen2 p hpin).mp hpo with rfl | rfl | hpold <;>
        rcases (hopen2 q hqin).mp hqo with rfl | rfl | hqold
      · exfalso
        unfold adjCell at hadj
        omega
      · left
        rw [if_neg (Ne.symm hMneT), if_pos rfl, if_pos rfl]
      · exact absurd (hTnbr_closed q hqin (adjCell_symm _ _ hadj) hqold) (fun hx => hx)
      · right
        rw [if_pos rfl, if_neg (Ne.symm hMneT), if_pos rfl]
      · exfalso
        unfold adjCell at hadj
        omega
      · rcases mid_nbr_cases A d hd4 hAodd q (adjCell_symm _ _ hadj) with
          ⟨e1, e2⟩ | ⟨e1, e2⟩ | ⟨e1, e2⟩
        · have hqA : q = A := Prod.ext e1 e2
          left
          rw [if_pos rfl, hqA, hφold A hAopen]
        · have hqT : q = T := Prod.ext (by rw [hT1]; omega) (by rw [hT2c]; omega)
          rw [hqT] at hqold
          exact absurd hTw (fun hx => hqold hx)
        · exact absurd (hInv.even_wall q hqin e1 e2) (fun hx => hqold hx)
      · exact absurd (hTnbr_closed p hpin hadj hpold) (fun hx => hx)
      · rcases mid_nbr_cases A d hd4 hAodd p hadj with
          ⟨e1, e2⟩ | ⟨e1, e2⟩ | ⟨e1, e2⟩
        · have hpA : p = A := Prod.ext e1 e2
          right
          rw [if_pos rfl, hpA, hφold A hAopen]
        · have hpT : p = T := Prod.ext (by rw [hT1]; omega) (by rw [hT2c]; omega)
          rw [hpT] at hpold
          exact absurd hTw (fun hx => hpold hx)
        · exact absurd (hInv.even_wall p hpin e1 e2) (fun hx => hpold hx)
      · rw [hφold p hpold, hφold q hqold]
        exact hInv.adj_phi p q hpin hqin hpold hqold hadj
    · intro p hpin hpo hpne
      dsimp only
      rcases (hopen2 p hpin).mp hpo with rfl | rfl | hpold
      · rw [if_neg (Ne.symm hMneT), if_pos rfl]
        refine ⟨by omega, M, hMin, hMopen2, hadjMT, ?_, ?_⟩
        · rw [if_pos rfl]
        · intro r hrin hro hradj hrphi
          rcases (hopen2 r hrin).mp hro with rfl | rfl | hrold
          · exfalso
            unfold adjCell at hradj
            omega
          · rfl
          · exact absurd (hTnbr_closed r hrin hradj hrold) (fun hx => hx)
      · rw [if_pos rfl]
        refine ⟨by omega, A, hAin, hmono A hAin hAopen, hadjAM, ?_, ?_⟩
        · rw [hφold A hAopen]
        · intro r hrin hro hradj hrphi
          rcases (hopen2 r hrin).mp hro with rfl | rfl | hrold
          · exfalso
            rw [if_neg (Ne.symm hMneT), if_pos rfl] at hrphi
            omega
          · exfalso
            rw [if_pos rfl] at hrphi
            omega
          · rcases mid_nbr_cases A d hd4 hAodd r hradj with
              ⟨e1, e2⟩ | ⟨e1, e2⟩ | ⟨e1, e2⟩
            · exact Prod.ext e1 e2
            · exfalso
              have hrT : r = T := Prod.ext (by rw [hT1]; omega) (by rw [hT2c]; omega)
              rw [hrT] at hrold
              exact hrold hTw
            · exact absurd (hInv.even_wall r hrin e1 e2) (fun hx => hrold hx)
      · obtain ⟨hge1, q, hqin, hqo, hqadj, hqphi, huniq⟩ :=
          hInv.lower_uniq p hpin hpold hpne
        rw [hφold p hpold]
        refine ⟨hge1, q, hqin, hmono q hqin hqo, hqadj, ?_, ?_⟩
        · rw [hφold q hqo]
          exact hqphi
        · intro r hrin hro hradj hrphi
          rcases (hopen2 r hrin).mp hro with rfl | rfl | hrold
          · exact absurd (hTnbr_closed p hpin (adjCell_symm _ _ hradj) hpold)
              (fun hx => hx)
          · exfalso
            rcases mid_nbr_cases A d hd4 hAodd p (adjCell_symm _ _ hradj) with
              ⟨e1, e2⟩ | ⟨e1, e2⟩ | ⟨e1, e2⟩
            · have hpA : p = A := Prod.ext e1 e2
              rw [if_pos rfl, hpA] at hrphi
              omega
            · have hpT : p = T := Prod.ext (by rw [hT1]; omega) (by rw [hT2c]; omega)
              rw [hpT] at hpold
              exact hpold hTw
            · exact absurd (hInv.even_wall p hpin e1 e2) (fun hx => hpold hx)
          · rw [hφold r hrold] at hrphi
            exact huniq r hrin hrold hradj hrphi
    · intro p hpin hpo hz
      rcases (hopen2 p hpin).mp hpo with rfl | rfl | hpold
      · rw [if_neg (Ne.symm hMneT), if_pos rfl] at hz
        exact absurd hz (by omega)
      · rw [if_pos rfl] at hz
        exact absurd hz (by omega)
      · rw [hφold p hpold] at hz
        exact hInv.phi_zero p hpin hpold hz
    · intro p hp
      rcases List.mem_append.mp hp with h1 | h1
      · obtain ⟨hin, hop, ho1, ho2⟩ := hInv.stack_ok p h1
        exact ⟨hin, hmono p hin hop, ho1, ho2⟩
      · rw [List.mem_singleton] at h1
        subst h1
        exact ⟨hTin, hTopen2, hTodd.1, hTodd.2⟩
  case _ =>
    intro p hp hop
    have hpM : p ≠ M := fun hc => (hc ▸ hop) hMclosed
    have hpT : p ≠ T := fun hc => (hc ▸ hop) hTw
    simp [hpM, hpT]
  case _ =>
    unfold woddCount
    have hTmem : T ∈ (((Finset.Icc (0 : Int) ((rows : Int) - 1)) ×ˢ
        (Finset.Icc (0 : Int) ((cols : Int) - 1))).filter
        (fun p => p.1 % 2 = 1 ∧ p.2 % 2 = 1 ∧ cellAt g p = '#')) :=
      Finset.mem_filter.mpr ⟨(mem_rectFinset rows cols T).mpr hTin,
        hTodd.1, hTodd.2, hTw⟩
    have hset : (((Finset.Icc (0 : Int) ((rows : Int) - 1)) ×ˢ
        (Finset.Icc (0 : Int) ((cols : Int) - 1))).filter
        (fun p => p.1 % 2 = 1 ∧ p.2 % 2 = 1 ∧
          cellAt (setCell (setCell g M ' ') T ' ') p = '#')) =
        (((Finset.Icc (0 : Int) ((rows : Int) - 1)) ×ˢ
        (Finset.Icc (0 : Int) ((cols : Int) - 1))).filter
        (fun p => p.1 % 2 = 1 ∧ p.2 % 2 = 1 ∧ cellAt g p = '#')).erase T := by
      ext x
      rw [Finset.mem_erase, Finset.mem_filter, Finset.mem_filter]
      constructor
      · rintro ⟨hxr, hx1, hx2, hx3⟩
        have hxin := (mem_rectFinset rows cols x).mp hxr
        have hxT : x ≠ T := by
          intro hc
          rw [hcell x hxin, if_pos hc] at hx3
          exact absurd hx3 (by decide)
        have hxM : x ≠ M := hMdisagree x hx1 hx2
        rw [hcell x hxin, if_neg hxT, if_neg hxM] at hx3
        exact ⟨hxT, hxr, hx1, hx2, hx3⟩
      · rintro ⟨hxT, hxr, hx1, hx2, hx3⟩
        have hxin := (mem_rectFinset rows cols x).mp hxr
        have hxM : x ≠ M := hMdisagree x hx1 hx2
        refine ⟨hxr, hx1, hx2, ?_⟩
        rw [hcell x hxin, if_neg hxT, if_neg hxM]
        exact hx3
    rw [hset, Finset.card_erase_of_mem hTmem]
    have hpos := Finset.card_pos.mpr ⟨T, hTmem⟩
    omega

/-- Restricting the stack preserves the carve invariant. -/
theorem CarveInv.restack {rows cols : Nat} {start : Pos} {g : Grid}
    {stack : List Pos} {φ : Pos → Nat} (h : CarveInv rows cols start g stack φ)
    (stack2 : List Pos) (hsub : ∀ p ∈ stack2, p ∈ stack) :
    CarveInv rows cols start g stack2 φ :=
  ⟨h.wf, h.start_in, h.start_odd, h.start_cell, h.phi_start, h.s_only, h.even_wall,
   h.corridor_v, h.corridor_h, h.adj_phi, h.lower_uniq, h.phi_zero,
   fun p hp => h.stack_ok p (hsub p hp)⟩

/-- The carve invariant is preserved through the direction fold of one pop;
openness is monotone and the loop variant does not grow. -/
theorem carve_dirs_inv (rows cols : Nat) (start : Pos) :
    ∀ (ds : List (Int × Int)) (g : Grid) (stack : List Pos) (A : Pos)
      (φ : Pos → Nat),
      (∀ d ∈ ds, d ∈ directions) →
      CarveInv rows cols start g stack φ →
      inRect rows cols A → cellAt g A ≠ '#' → A.1 % 2 = 1 → A.2 % 2 = 1 →
      ∃ φ2, CarveInv rows cols start (carve_dirs rows cols ds g stack A).1
          (carve_dirs rows cols ds g stack A).2 φ2 ∧
        (∀ p, inRect rows cols p → cellAt g p ≠ '#' →
          cellAt (carve_dirs rows cols ds g stack A).1 p ≠ '#') ∧
        2 * woddCount rows cols (carve_dirs rows cols ds g stack A).1 +
            (carve_dirs rows cols ds g stack A).2.length ≤
          2 * woddCount rows cols g + stack.length := by
  intro ds
  induction ds with
  | nil =>
    intro g stack A φ hds hInv hAin hAopen hAo1 hAo2
    exact ⟨φ, hInv, fun p hp hop => hop, le_refl _⟩
  | cons d ds ih =>
    intro g stack A φ hds hInv hAin hAopen hAo1 hAo2
    have hstep : carve_dirs rows cols (d :: ds) g stack A =
        if 0 ≤ A.1 + d.1 * 2 ∧ A.1 + d.1 * 2 < (rows : Int) ∧ 0 ≤ A.2 + d.2 * 2 ∧
            A.2 + d.2 * 2 < (cols : Int) ∧
            cellAt g (A.1 + d.1 * 2, A.2 + d.2 * 2) = '#' then
          carve_dirs rows cols ds
            (setCell (setCell g (A.1 + d.1, A.2 + d.2) ' ')
              (A.1 + d.1 * 2, A.2 + d.2 * 2) ' ')
            (stack ++ [(A.1 + d.1 * 2, A.2 + d.2 * 2)]) A
        else carve_dirs rows cols ds g stack A := rfl
    by_cases hc : 0 ≤ A.1 + d.1 * 2 ∧ A.1 + d.1 * 2 < (rows : Int) ∧
        0 ≤ A.2 + d.2 * 2 ∧ A.2 + d.2 * 2 < (cols : Int) ∧
        cellAt g (A.1 + d.1 * 2, A.2 + d.2 * 2) = '#'
    · rw [hstep, if_pos hc]
      have hTin : inRect rows cols (A.1 + d.1 * 2, A.2 + d.2 * 2) :=
        ⟨hc.1, hc.2.1, hc.2.2.1, hc.2.2.2.1⟩
      obtain ⟨φs, hInv2, hmono2, hφpres, hwodd⟩ :=
        carve_one rows cols start g stack φ A d (hds d (List.mem_cons_self _ _))
          hInv hAin hAopen ⟨hAo1, hAo2⟩ hTin hc.2.2.2.2
      obtain ⟨φ3, hInv3, hmono3, hb3⟩ :=
        ih _ _ A φs (fun d2 hd2 => hds d2 (List.mem_cons_of_mem _ hd2)) hInv2
          hAin (hmono2 A hAin hAopen) hAo1 hAo2
      refine ⟨φ3, hInv3, ?_, ?_⟩
      · intro p hp hop
        exact hmono3 p hp (hmono2 p hp hop)
      · have hl : (stack ++ [(A.1 + d.1 * 2, A.2 + d.2 * 2)]).length =
            stack.length + 1 := by simp
        omega
    · rw [hstep, if_neg hc]
      exact ih g stack A φ (fun d2 hd2 => hds d2 (List.mem_cons_of_mem _ hd2))
        hInv hAin hAopen hAo1 hAo2

/-- Every direction produced by the biased shuffle is one of the four
cardinal directions. -/
theorem biased_dirs_perm (r : Nat) : List.Perm (biased_dirs r) directions := by
  unfold biased_dirs
  rw [List.getD_eq_getElem?_getD]
  cases hge : (directions.permutations')[r % (directions.permutations').length]? with
  | none => exact List.Perm.refl _
  | some P =>
    have hmem : P ∈ directions.permutations' := List.getElem?_mem hge
    exact List.mem_permutations'.mp hmem

theorem biased_dirs_subset (r : Nat) : ∀ d ∈ biased_dirs r, d ∈ directions :=
  fun d hd => (biased_dirs_perm r).subset hd

/-- The carve loop terminates within its fuel and delivers the invariant
with an empty stack; openness is monotone. -/
theorem carve_loop_inv (rows cols : Nat) (start : Pos) (s : Nat → Nat) :
    ∀ (fuel : Nat) (idx : Nat) (g : Grid) (stack : List Pos) (φ : Pos → Nat),
      CarveInv rows cols start g stack φ →
      2 * woddCount rows cols g + stack.length < fuel →
      ∃ g2 φ2, carve_loop rows cols s fuel idx g stack = some g2 ∧
        CarveInv rows cols start g2 [] φ2 ∧
        (∀ p, inRect rows cols p → cellAt g p ≠ '#' → cellAt g2 p ≠ '#') := by
  intro fuel
  induction fuel with
  | zero => intro idx g stack φ hInv hflt; omega
  | succ k ih =>
    intro idx g stack φ hInv hflt
    unfold carve_loop
    cases hlast : stack.getLast? with
    | none =>
      have hnil : stack = [] := List.getLast?_eq_none_iff.mp hlast
      subst hnil
      exact ⟨g, φ, rfl, hInv, fun p hp hop => hop⟩
    | some rc =>
      obtain ⟨stack0, hstack⟩ := List.getLast?_eq_some_iff.mp hlast
      have hrcmem : rc ∈ stack := by rw [hstack]; simp
      obtain ⟨hrcin, hrcopen, hrco1, hrco2⟩ := hInv.stack_ok rc hrcmem
      have hdrop : stack.dropLast = stack0 := by rw [hstack, List.dropLast_concat]
      have hInvd : CarveInv rows cols start g stack.dropLast φ :=
        hInv.restack _ (fun p hp => (List.dropLast_sublist stack).subset hp)
      obtain ⟨φ2, hInv2, hmono2, hb2⟩ :=
        carve_dirs_inv rows cols start (biased_dirs (s idx)) g stack.dropLast rc φ
          (biased_dirs_subset (s idx)) hInvd hrcin hrcopen hrco1 hrco2
      have hlend : stack.dropLast.length + 1 = stack.length := by
        rw [hstack]; simp
      obtain ⟨g3, φ3, heq3, hInv3, hmono3⟩ :=
        ih (idx + 1) _ _ φ2 hInv2 (by omega)
      refine ⟨g3, φ3, heq3, hInv3, ?_⟩
      intro p hp hop
      exact hmono3 p hp (hmono2 p hp hop)

/-- The initial carve state satisfies the invariant with φ = 0. -/
theorem carveInv_init (rows cols : Nat) (start : Pos)
    (hin : inRect rows cols start)
    (hsodd : start.1 % 2 = 1 ∧ start.2 % 2 = 1) :
    CarveInv rows cols start
      (setCell (List.replicate rows (List.replicate cols '#')) start 'S')
      [start] (fun _ => 0) := by
  have hwf0 := WFGrid_replicate rows cols
  have hwf1 := WFGrid_setCell _ rows cols start 'S' hwf0 hin
  have hc0 : ∀ q, inRect rows cols q →
      cellAt (setCell (List.replicate rows (List.replicate cols '#')) start 'S') q =
        if q = start then 'S' else '#' := by
    intro q hq
    by_cases hqs : q = start
    · rw [if_pos hqs, hqs]
      exact cellAt_setCell_self _ rows cols start 'S' hwf0 hin
    · rw [if_neg hqs, cellAt_setCell_ne _ rows cols start q 'S' hwf0 hin hq.1 hq.2.2.1 hqs]
      exact cellAt_replicate rows cols q
  have hopen0 : ∀ q, inRect rows cols q →
      cellAt (setCell (List.replicate rows (List.replicate cols '#')) start 'S') q ≠ '#' →
      q = start := by
    intro q hq hop
    by_contra hne
    rw [hc0 q hq, if_neg hne] at hop
    exact hop rfl
  constructor
  · exact hwf1
  · exact hin
  · exact hsodd
  · rw [hc0 start hin, if_pos rfl]
  · rfl
  · intro p hp hS
    exact hopen0 p hp (by rw [hS]; decide)
  · intro p hp he1 he2
    rw [hc0 p hp]
    have : p ≠ start := by
      intro hcp
      rw [hcp] at he1
      omega
    rw [if_neg this]
  · intro p hp hop hpe
    exfalso
    have := hopen0 p hp hop
    rw [this] at hpe
    omega
  · intro p hp hop hpe
    exfalso
    have := hopen0 p hp hop
    rw [this] at hpe
    omega
  · intro p q hpin hqin hpo hqo hadj
    exfalso
    rw [hopen0 p hpin hpo, hopen0 q hqin hqo] at hadj
    unfold adjCell at hadj
    omega
  · intro p hpin hpo hpne
    exact absurd (hopen0 p hpin hpo) hpne
  · intro p hpin hpo _
    exact hopen0 p hpin hpo
  · intro p hp
    rw [List.mem_singleton] at hp
    subst hp
    refine ⟨hin, ?_, hsodd.1, hsodd.2⟩
    rw [hc0 p hin, if_pos rfl]
    decide

/-!  Cell-value discipline through the generator  -/

/-- Writing a cell leaves every position holding the written character or
its previous one (no well-formedness needed). -/
theorem cellAt_setCell_cases (g : Grid) (p q : Pos) (ch : Char) :
    cellAt (setCell g q ch) p = ch ∨ cellAt (setCell g q ch) p = cellAt g p := by
  unfold cellAt setCell
  by_cases hr : p.1.toNat = q.1.toNat
  · rw [hr]
    by_cases hrl : q.1.toNat < g.length
    · rw [getD_set_self _ _ _ _ hrl]
      by_cases hc : p.2.toNat = q.2.toNat
      · rw [hc]
        by_cases hcl : q.2.toNat < (g.getD q.1.toNat []).length
        · rw [getD_set_self _ _ _ _ hcl]
          exact Or.inl rfl
        · rw [List.set_eq_of_length_le (by omega)]
          exact Or.inr rfl
      · rw [getD_set_ne _ _ _ _ _ (fun h => hc h.symm)]
        exact Or.inr rfl
    · rw [List.set_eq_of_length_le (by omega)]
      exact Or.inr rfl
  · rw [getD_set_ne _ _ _ _ _ (fun h => hr h.symm)]
    exact Or.inr rfl

/-- The carver only ever holds walls, the start mark and spaces. -/
def valsOK (g : Grid) : Prop :=
  ∀ p : Pos, cellAt g p = '#' ∨ cellAt g p = 'S' ∨ cellAt g p = ' '

theorem valsOK_setCell (g : Grid) (q : Pos) (ch : Char)
    (hv : valsOK g) (hch : ch = '#' ∨ ch = 'S' ∨ ch = ' ') :
    valsOK (setCell g q ch) := by
  intro p
  rcases cellAt_setCell_cases g p q ch with h | h
  · rw [h]; exact hch
  · rw [h]; exact hv p

theorem valsOK_init (rows cols : Nat) (start : Pos) :
    valsOK (setCell (List.replicate rows (List.replicate cols '#')) start 'S') := by
  apply valsOK_setCell
  · intro p
    exact Or.inl (cellAt_replicate rows cols p)
  · exact Or.inr (Or.inl rfl)

theorem carve_dirs_vals (rows cols : Nat) :
    ∀ (ds : List (Int × Int)) (g : Grid) (stack : List Pos) (A : Pos),
      valsOK g → valsOK (carve_dirs rows cols ds g stack A).1 := by
  intro ds
  induction ds with
  | nil => intro g stack A hv; exact hv
  | cons d ds ih =>
    intro g stack A hv
    show valsOK (carve_dirs rows cols (d :: ds) g stack A).1
    rw [show carve_dirs rows cols (d :: ds) g stack A =
        if 0 ≤ A.1 + d.1 * 2 ∧ A.1 + d.1 * 2 < (rows : Int) ∧ 0 ≤ A.2 + d.2 * 2 ∧
            A.2 + d.2 * 2 < (cols : Int) ∧
            cellAt g (A.1 + d.1 * 2, A.2 + d.2 * 2) = '#' then
          carve_dirs rows cols ds
            (setCell (setCell g (A.1 + d.1, A.2 + d.2) ' ')
              (A.1 + d.1 * 2, A.2 + d.2 * 2) ' ')
            (stack ++ [(A.1 + d.1 * 2, A.2 + d.2 * 2)]) A
        else carve_dirs rows cols ds g stack A from rfl]
    split
    · exact ih _ _ A (valsOK_setCell _ _ _
        (valsOK_setCell _ _ _ hv (Or.inr (Or.inr rfl))) (Or.inr (Or.inr rfl)))
    · exact ih g stack A hv

theorem carve_loop_vals (rows cols : Nat) (s : Nat → Nat) :
    ∀ (fuel : Nat) (idx : Nat) (g : Grid) (stack : List Pos) (g2 : Grid),
      valsOK g → carve_loop rows cols s fuel idx g stack = some g2 → valsOK g2 := by
  intro fuel
  induction fuel with
  | zero => intro idx g stack g2 hv h; exact absurd h (by simp [carve_loop])
  | succ k ih =>
    intro idx g stack g2 hv h
    unfold carve_loop at h
    cases hlast : stack.getLast? with
    | none =>
      rw [hlast] at h
      injection h with h2
      exact h2 ▸ hv
    | some rc =>
      rw [hlast] at h
      exact ih _ _ _ _ (carve_dirs_vals rows cols _ g stack.dropLast rc hv) h

/-!  The first pop of the carver opens a neighbor of the start whenever the
maze is bigger than 3x3  -/

/-- In a rectangle with an odd side of length at least 5, every odd-odd cell
has a two-step neighbor inside the rectangle. -/
theorem dims51 (rows cols : Nat) (A : Pos)
    (hin : inRect rows cols A) (hodd : A.1 % 2 = 1 ∧ A.2 % 2 = 1)
    (hro : rows % 2 = 1) (hco : cols % 2 = 1)
    (hbig : 5 ≤ rows ∨ 5 ≤ cols) :
    ∃ d ∈ directions, inRect rows cols (A.1 + d.1 * 2, A.2 + d.2 * 2) := by
  obtain ⟨h1, h2, h3, h4⟩ := hin
  rcases hbig with hb | hb
  · by_cases hd : A.1 + 2 < (rows : Int)
    · exact ⟨(1, 0), by decide, by unfold inRect; dsimp only; omega⟩
    · exact ⟨(-1, 0), by decide, by unfold inRect; dsimp only; omega⟩
  · by_cases hd : A.2 + 2 < (cols : Int)
    · exact ⟨(0, 1), by decide, by unfold inRect; dsimp only; omega⟩
    · exact ⟨(0, -1), by decide, by unfold inRect; dsimp only; omega⟩

/-- If some direction in the list can be carved from A, the fold opens at
least one neighbor of A (distinct from A). -/
theorem carve_dirs_opens (rows cols : Nat) (start : Pos) :
    ∀ (ds : List (Int × Int)) (g : Grid) (stack : List Pos) (A : Pos)
      (φ : Pos → Nat),
      (∀ d ∈ ds, d ∈ directions) →
      CarveInv rows cols start g stack φ →
      inRect rows cols A → cellAt g A ≠ '#' → A.1 % 2 = 1 → A.2 % 2 = 1 →
      (∃ d ∈ ds, inRect rows cols (A.1 + d.1 * 2, A.2 + d.2 * 2) ∧
        cellAt g (A.1 + d.1 * 2, A.2 + d.2 * 2) = '#') →
      ∃ M, adjCell M A ∧ M ≠ A ∧ inRect rows cols M ∧
        cellAt (carve_dirs rows cols ds g stack A).1 M ≠ '#' := by
  intro ds
  induction ds with
  | nil =>
    intro g stack A φ hds hInv hAin hAopen hAo1 hAo2 hex
    obtain ⟨d, hd, _⟩ := hex
    exact absurd hd (by simp)
  | cons d ds ih =>
    intro g stack A φ hds hInv hAin hAopen hAo1 hAo2 hex
    have hstep : carve_dirs rows cols (d :: ds) g stack A =
        if 0 ≤ A.1 + d.1 * 2 ∧ A.1 + d.1 * 2 < (rows : Int) ∧ 0 ≤ A.2 + d.2 * 2 ∧
            A.2 + d.2 * 2 < (cols : Int) ∧
            cellAt g (A.1 + d.1 * 2, A.2 + d.2 * 2) = '#' then
          carve_dirs rows cols ds
            (setCell (setCell g (A.1 + d.1, A.2 + d.2) ' ')
              (A.1 + d.1 * 2, A.2 + d.2 * 2) ' ')
            (stack ++ [(A.1 + d.1 * 2, A.2 + d.2 * 2)]) A
        else carve_dirs rows cols ds g stack A := rfl
    by_cases hc : 0 ≤ A.1 + d.1 * 2 ∧ A.1 + d.1 * 2 < (rows : Int) ∧
        0 ≤ A.2 + d.2 * 2 ∧ A.2 + d.2 * 2 < (cols : Int) ∧
        cellAt g (A.1 + d.1 * 2, A.2 + d.2 * 2) = '#'
    · -- the head direction carves: the mid cell A + d becomes (and stays) open
      rw [hstep, if_pos hc]
      have hdmem : d ∈ directions := hds d (List.mem_cons_self _ _)
      have hd4 := dir_cases d hdmem
      have hTin : inRect rows cols (A.1 + d.1 * 2, A.2 + d.2 * 2) :=
        ⟨hc.1, hc.2.1, hc.2.2.1, hc.2.2.2.1⟩
      obtain ⟨φs, hInv2, hmono2, hφpres, hwodd⟩ :=
        carve_one rows cols start g stack φ A d hdmem
          hInv hAin hAopen ⟨hAo1, hAo2⟩ hTin hc.2.2.2.2
      have hMin : inRect rows cols (A.1 + d.1, A.2 + d.2) := by
        obtain ⟨g1, g2, g3, g4⟩ := hAin
        unfold inRect
        dsimp only
        omega
      have hMopen2 : cellAt (setCell (setCell g (A.1 + d.1, A.2 + d.2) ' ')
          (A.1 + d.1 * 2, A.2 + d.2 * 2) ' ') (A.1 + d.1, A.2 + d.2) ≠ '#' := by
        have hMneT : ((A.1 + d.1, A.2 + d.2) : Pos) ≠ (A.1 + d.1 * 2, A.2 + d.2 * 2) := by
          intro hcon
          rw [Prod.ext_iff] at hcon
          dsimp only at hcon
          omega
        have hwfM := WFGrid_setCell g rows cols (A.1 + d.1, A.2 + d.2) ' ' hInv.wf hMin
        rw [cellAt_setCell_ne _ rows cols _ _ ' ' hwfM hTin hMin.1 hMin.2.2.1 hMneT,
          cellAt_setCell_self g rows cols _ ' ' hInv.wf hMin]
        decide
      obtain ⟨φ3, hInv3, hmono3, hb3⟩ :=
        carve_dirs_inv rows cols start ds _ _ A φs
          (fun d2 hd2 => hds d2 (List.mem_cons_of_mem _ hd2)) hInv2
          hAin (hmono2 A hAin hAopen) hAo1 hAo2
      refine ⟨(A.1 + d.1, A.2 + d.2), ?_, ?_, hMin, hmono3 _ hMin hMopen2⟩
      · unfold adjCell
        dsimp only
        omega
      · intro hcon
        rw [Prod.ext_iff] at hcon
        dsimp only at hcon
        omega
    · rw [hstep, if_neg hc]
      have hex2 : ∃ d2 ∈ ds, inRect rows cols (A.1 + d2.1 * 2, A.2 + d2.2 * 2) ∧
          cellAt g (A.1 + d2.1 * 2, A.2 + d2.2 * 2) = '#' := by
        obtain ⟨d2, hd2, hd2in, hd2w⟩ := hex
        rcases List.mem_cons.mp hd2 with rfl | hmem
        · exact absurd ⟨hd2in.1, hd2in.2.1, hd2in.2.2.1, hd2in.2.2.2, hd2w⟩ hc
        · exact ⟨d2, hmem, hd2in, hd2w⟩
      exact ih g stack A φ (fun d2 hd2 => hds d2 (List.mem_cons_of_mem _ hd2))
        hInv hAin hAopen hAo1 hAo2 hex2

/-!  The distance grading carried by generated mazes  -/

/-- A grading of a maze's open cells: the start has grade 0 and is the only
grade-0 cell, adjacent open cells differ by exactly one, and every open cell
other than the start has a unique lower neighbor.  The carver's invariant
delivers such a grading for every generated maze; it makes the open cells a
subdivided tree rooted at the start. -/
structure Graded (m : Maze) (φ : Pos → Nat) : Prop where
  start_open : inBoundsOpen m m.start
  phi_start : φ m.start = 0
  adj_phi : ∀ p q, inBoundsOpen m p → inBoundsOpen m q → adjCell p q →
      φ p = φ q + 1 ∨ φ q = φ p + 1
  lower_uniq : ∀ p, inBoundsOpen m p → p ≠ m.start →
      1 ≤ φ p ∧ ∃ q, inBoundsOpen m q ∧ adjCell q p ∧ φ q + 1 = φ p ∧
        ∀ r, inBoundsOpen m r → adjCell r p → φ r + 1 = φ p → r = q
  phi_zero : ∀ p, inBoundsOpen m p → φ p = 0 → p = m.start

/-- Descent along the grading: every open cell is reached in exactly its
grade many steps. -/
theorem graded_descent (m : Maze) (φ : Pos → Nat) (hg : Graded m φ) :
    ∀ (k : Nat) (p : Pos), inBoundsOpen m p → φ p = k →
      p ∈ reachIn m m.start k := by
  intro k
  induction k with
  | zero =>
    intro p hp hphi
    have := hg.phi_zero p hp hphi
    subst this
    simp [reachIn]
  | succ n ih =>
    intro p hp hphi
    have hpne : p ≠ m.start := by
      intro hcon
      rw [hcon, hg.phi_start] at hphi
      exact absurd hphi (by omega)
    obtain ⟨_, q, hqopen, hqadj, hqphi, _⟩ := hg.lower_uniq p hp hpne
    have hq := ih q hqopen (by omega)
    refine reachIn_succ m m.start q p n hq ?_
    rw [mem_nextStates_adj]
    exact ⟨adjCell_symm q p hqadj, hp⟩

/-- Every cell reachable from the start is open or the start itself. -/
theorem reachIn_open (m : Maze) (src : Pos) :
    ∀ (n : Nat) (p : Pos), p ∈ reachIn m src n → p = src ∨ inBoundsOpen m p := by
  intro n
  induction n with
  | zero =>
    intro p hp
    simp only [reachIn, List.mem_singleton] at hp
    exact Or.inl hp
  | succ k ih =>
    intro p hp
    simp only [reachIn, List.mem_flatten, List.mem_map] at hp
    obtain ⟨l, ⟨q, hq, rfl⟩, hpl⟩ := hp
    exact Or.inr (nextStates_open m q p hpl)

/-- The grading lower-bounds the step count of every walk from the start. -/
theorem reachIn_phi_le (m : Maze) (φ : Pos → Nat) (hg : Graded m φ) :
    ∀ (n : Nat) (p : Pos), p ∈ reachIn m m.start n → φ p ≤ n := by
  intro n
  induction n with
  | zero =>
    intro p hp
    simp only [reachIn, List.mem_singleton] at hp
    rw [hp, hg.phi_start]
  | succ k ih =>
    intro p hp
    simp only [reachIn, List.mem_flatten, List.mem_map] at hp
    obtain ⟨l, ⟨q, hq, rfl⟩, hpl⟩ := hp
    have hqphi := ih q hq
    have hpopen := nextStates_open m q p hpl
    have hqopen : inBoundsOpen m q := by
      rcases reachIn_open m m.start k q hq with rfl | h
      · exact hg.start_open
      · exact h
    have hadj : adjCell p q := ((mem_nextStates_adj m q p).mp hpl).1
    rcases hg.adj_phi p q hpopen hqopen hadj with h | h <;> omega

/-- Every element of a walk whose final element is open is itself open. -/
theorem rwalk_all_open (m : Maze) :
    ∀ (l : List Pos), RWalk m l → ∀ (s : Pos), l.getLast? = some s →
      inBoundsOpen m s → ∀ p ∈ l, inBoundsOpen m p := by
  intro l hw
  induction hw with
  | single x =>
    intro s hlast hs p hp
    simp only [List.getLast?_singleton, Option.some.injEq] at hlast
    rw [List.mem_singleton] at hp
    rw [hp, hlast]
    exact hs
  | @cons p q rest hstep hw2 ih =>
    intro s hlast hs x hx
    rw [List.getLast?_cons_cons] at hlast
    rcases List.mem_cons.mp hx with rfl | hx2
    · exact nextStates_open m q x hstep
    · exact ih s hlast hs x hx2

/-- Rigidity: over a graded maze, every duplicate-free walk from the start
has length exactly one more than the grade of its endpoint.  (Uniqueness of
the lower neighbor forbids any detour.) -/
theorem graded_walk_phi (m : Maze) (φ : Pos → Nat) (hg : Graded m φ) :
    ∀ (n : Nat) (l : List Pos), l.length ≤ n → RWalk m l → l.Nodup →
      l.getLast? = some m.start → ∀ p, l.head? = some p → φ p + 1 = l.length := by
  intro n
  induction n with
  | zero =>
    intro l hlen hw hnd hlast p hhead
    cases hw <;> simp at hlen
  | succ k ih =>
    intro l hlen hw hnd hlast p hhead
    cases hw with
    | single x =>
      simp only [List.getLast?_singleton, Option.some.injEq] at hlast
      simp only [List.head?_cons, Option.some.injEq] at hhead
      subst hhead
      rw [hlast, hg.phi_start]
      rfl
    | @cons x y rest hstep hw2 =>
      simp only [List.head?_cons, Option.some.injEq] at hhead
      subst hhead
      rw [List.getLast?_cons_cons] at hlast
      have hnd2 : (y :: rest).Nodup := hnd.of_cons
      have hiy : φ y + 1 = (y :: rest).length :=
        ih (y :: rest) (by simpa using hlen) hw2 hnd2 hlast y rfl
      have hxopen : inBoundsOpen m x := nextStates_open m y x hstep
      have hyopen : inBoundsOpen m y :=
        rwalk_all_open m (y :: rest) hw2 m.start hlast hg.start_open y
          (List.mem_cons_self _ _)
      have hadj : adjCell x y := ((mem_nextStates_adj m y x).mp hstep).1
      rcases hg.adj_phi x y hxopen hyopen hadj with hup | hdown
      · simp only [List.length_cons] at *
        omega
      · -- a descending first step is impossible on a duplicate-free walk
        exfalso
        cases hw2 with
        | single s =>
          simp only [List.getLast?_singleton, Option.some.injEq] at hlast
          rw [hlast, hg.phi_start] at hdown
          omega
        | @cons y2 z rest2 hstep2 hw3 =>
          rw [List.getLast?_cons_cons] at hlast
          have hyne : y ≠ m.start := by
            intro hcon
            have hsm : m.start ∈ z :: rest2 :=
              List.mem_of_getLast?_eq_some hlast
            rw [← hcon] at hsm
            exact (List.nodup_cons.mp hnd2).1 hsm
          obtain ⟨_, qh, hqopen, hqadj, hqphi, huniq⟩ := hg.lower_uniq y hyopen hyne
          have hiz : φ z + 1 = (z :: rest2).length :=
            ih (z :: rest2) (by simp at hlen ⊢; omega) hw3 hnd2.of_cons hlast z rfl
          have hzopen : inBoundsOpen m z :=
            rwalk_all_open m (z :: rest2) hw3 m.start hlast hg.start_open z
              (List.mem_cons_self _ _)
          have hzadj : adjCell z y := adjCell_symm y z ((mem_nextStates_adj m z y).mp hstep2).1
          have hzphi : φ z + 1 = φ y := by
            simp only [List.length_cons] at hiy hiz
            omega
          have hxq : x = qh := huniq x hxopen hadj (by omega)
          have hzq : z = qh := huniq z hzopen hzadj hzphi
          have hxz : x ≠ z := by
            intro hcon
            have : x ∈ y :: z :: rest2 := by
              rw [hcon]
              exact List.mem_cons_of_mem _ (List.mem_cons_self _ _)
            exact (List.nodup_cons.mp hnd).1 this
          exact hxz (hxq.trans hzq.symm)

/-- In a graded maze the grade of the goal is the shortest distance. -/
theorem graded_shortest (m : Maze) (φ : Pos → Nat) (hg : Graded m φ)
    (hgoal : inBoundsOpen m m.goal) : IsShortestDist m (φ m.goal) := by
  constructor
  · exact graded_descent m φ hg (φ m.goal) m.goal hgoal rfl
  · intro k hk
    exact reachIn_phi_le m φ hg k m.goal hk

/-!  Positive completeness of the search skeleton  -/

/-- When the goal is reachable, run_search succeeds and returns the all-but-
last prefix of a duplicate-free walk from the start to the goal. -/
theorem run_search_found (ops : SearchOps ν) (laws : FrontierLaws ops)
    (rchainOf : ν → List Pos)
    (hstc : ∀ (n : ν) (a : String) (t : Pos), ops.stateOf (ops.mkChild n a t) = t)
    (hchc : ∀ (n : ν) (a : String) (t : Pos), rchainOf (ops.mkChild n a t) = t :: rchainOf n)
    (hhead : ∀ n : ν, (rchainOf n).head? = some (ops.stateOf n))
    (pathOf : ν → List (String × Pos)) (root : ν) (m : Maze) (start : Pos)
    (hroot_state : ops.stateOf root = start) (hroot_chain : rchainOf root = [start])
    (hreach : Reachable m start m.goal) :
    ∃ node expl, run_search ops pathOf root m = .ok ((pathOf node).dropLast, expl) ∧
      RWalk m (rchainOf node) ∧ (rchainOf node).Nodup ∧
      (rchainOf node).getLast? = some start ∧
      (rchainOf node).head? = some m.goal := by
  unfold run_search
  dsimp only
  have hinv := searchInv_init ops laws rchainOf m start root hroot_state hroot_chain
  have hm := searchMeasure_init ops laws m start root
  rcases search_loop_outcome ops laws rchainOf m start hstc hchc hhead
      (m.rows * m.cols + 3) _ hinv (by omega) with
    ⟨node, st', heq, hinv', hmem, hgoal⟩ | ⟨st', heq, hinv', hfr⟩
  · refine ⟨node, st'.explored.drop 1, ?_, hinv'.fr_walk node hmem,
      hinv'.fr_chain_nodup node hmem, hinv'.fr_last node hmem, ?_⟩
    · rw [heq]
    · rw [hhead node, hgoal]
  · exfalso
    obtain ⟨n, hn⟩ := hreach
    have hsrc : start ∈ st'.explored_states := by
      rcases hinv'.src_covered with h | h
      · exact h
      · rw [hfr] at h
        simp at h
    have hclosed : ∀ p ∈ st'.explored_states, ∀ q ∈ nextStates m p,
        q ∈ st'.explored_states := by
      intro p hp q hq
      rcases hinv'.ex_closed p hp q hq with h | h
      · exact h
      · rw [hfr] at h
        simp at h
    have hgoalin := reachIn_subset_closed m start st'.explored_states hsrc hclosed n _ hn
    exact hinv'.ex_not_goal m.goal hgoalin rfl

/-!  Analysis of find_farthest_point  -/

/-- A position find_farthest_point's BFS may hold: in bounds of the grid it
was handed, on a space cell. -/
def ffOK (g : Grid) (p : Pos) : Prop :=
  0 ≤ p.1 ∧ p.1 < (g.length : Int) ∧ 0 ≤ p.2 ∧
    p.2 < ((g.getD 0 []).length : Int) ∧ cellAt g p = ' '

/-- The neighbor-enqueue fold appends entries: each is a space cell in
bounds at distance dist+1, at most one per direction, and every direction
whose target qualifies is enqueued. -/
theorem ff_enqueue_spec (g : Grid) :
    ∀ (ds : List (Int × Int)) (queue : List (Pos × Nat)) (rc : Pos) (dist : Nat),
      ∃ extra, ff_enqueue g ds queue rc dist = queue ++ extra ∧
        extra.length ≤ ds.length ∧
        (∀ e ∈ extra, e.2 = dist + 1 ∧ ffOK g e.1) ∧
        (∀ d ∈ ds, ffOK g (rc.1 + d.1, rc.2 + d.2) →
          ((rc.1 + d.1, rc.2 + d.2), dist + 1) ∈ ff_enqueue g ds queue rc dist) := by
  intro ds
  induction ds with
  | nil =>
    intro queue rc dist
    exact ⟨[], by simp [ff_enqueue], by simp, by simp, by simp⟩
  | cons d ds ih =>
    intro queue rc dist
    have hstep : ff_enqueue g (d :: ds) queue rc dist =
        if 0 ≤ rc.1 + d.1 ∧ rc.1 + d.1 < (g.length : Int) ∧ 0 ≤ rc.2 + d.2 ∧
            rc.2 + d.2 < ((g.getD 0 []).length : Int) ∧
            cellAt g (rc.1 + d.1, rc.2 + d.2) = ' ' then
          ff_enqueue g ds (queue ++ [((rc.1 + d.1, rc.2 + d.2), dist + 1)]) rc dist
        else ff_enqueue g ds queue rc dist := rfl
    by_cases hc : 0 ≤ rc.1 + d.1 ∧ rc.1 + d.1 < (g.length : Int) ∧ 0 ≤ rc.2 + d.2 ∧
        rc.2 + d.2 < ((g.getD 0 []).length : Int) ∧
        cellAt g (rc.1 + d.1, rc.2 + d.2) = ' '
    · obtain ⟨extra, heq, hlen, hprops, hmem⟩ :=
        ih (queue ++ [((rc.1 + d.1, rc.2 + d.2), dist + 1)]) rc dist
      refine ⟨((rc.1 + d.1, rc.2 + d.2), dist + 1) :: extra, ?_, ?_, ?_, ?_⟩
      · rw [hstep, if_pos hc, heq]
        simp
      · simp only [List.length_cons]
        omega
      · intro e he
        rcases List.mem_cons.mp he with rfl | he2
        · exact ⟨rfl, hc⟩
        · exact hprops e he2
      · intro d2 hd2 hok
        rw [hstep, if_pos hc]
        rcases List.mem_cons.mp hd2 with rfl | hd2m
        · rw [heq]
          exact List.mem_append_left _ (List.mem_append_right _ (List.mem_singleton.mpr rfl))
        · exact hmem d2 hd2m hok
    · obtain ⟨extra, heq, hlen, hprops, hmem⟩ := ih queue rc dist
      refine ⟨extra, ?_, by simp only [List.length_cons]; omega, hprops, ?_⟩
      · rw [hstep, if_neg hc, heq]
      · intro d2 hd2 hok
        rw [hstep, if_neg hc]
        rcases List.mem_cons.mp hd2 with rfl | hd2m
        · exact absurd hok hc
        · exact hmem d2 hd2m hok

/-- Every cell the BFS of find_farthest_point can return is an in-bounds
space cell, provided the queue and current candidate are. -/
theorem ff_loop_props (g : Grid) :
    ∀ (fuel : Nat) (queue : List (Pos × Nat)) (visited : List Pos)
      (farthest : Pos) (md : Int) (far : Pos),
      (∀ e ∈ queue, ffOK g e.1) → ffOK g farthest →
      ff_loop g fuel queue visited farthest md = some far → ffOK g far := by
  intro fuel
  induction fuel with
  | zero => intro queue visited farthest md far hq hf h; exact absurd h (by simp [ff_loop])
  | succ k ih =>
    intro queue visited farthest md far hq hf h
    unfold ff_loop at h
    match hqe : queue, h with
    | [], h =>
      injection h with h2
      exact h2 ▸ hf
    | (rc, dist) :: rest, h =>
      have hrest : ∀ e ∈ rest, ffOK g e.1 :=
        fun e he => hq e (List.mem_cons_of_mem _ he)
      have hrc : ffOK g rc := hq (rc, dist) (List.mem_cons_self _ _)
      dsimp only at h
      split at h
      · exact ih rest visited farthest md far hrest hf h
      · obtain ⟨extra, heq, _, hprops, _⟩ := ff_enqueue_spec g ff_neighbors rest rc dist
        have hq2 : ∀ e ∈ ff_enqueue g ff_neighbors rest rc dist, ffOK g e.1 := by
          intro e he
          rw [heq] at he
          rcases List.mem_append.mp he with h1 | h2
          · exact hrest e h1
          · exact (hprops e h2).2
        split at h
        · exact ih _ _ _ _ far hq2 hrc h
        · exact ih _ _ _ _ far hq2 hf h

/-- Termination of the BFS of find_farthest_point: five units of fuel per
unvisited cell plus one per queue entry suffice. -/
theorem ff_loop_total (g : Grid) (rows cols : Nat)
    (hL : g.length = rows) (hL0 : (g.getD 0 []).length = cols) :
    ∀ (fuel : Nat) (queue : List (Pos × Nat)) (visited : List Pos)
      (farthest : Pos) (md : Int),
      (∀ e ∈ queue, inRect rows cols e.1) →
      5 * (((Finset.Icc (0 : Int) ((rows : Int) - 1)) ×ˢ
          (Finset.Icc (0 : Int) ((cols : Int) - 1))).filter
          (fun p => p ∉ visited)).card + queue.length < fuel →
      ∃ far, ff_loop g fuel queue visited farthest md = some far := by
  intro fuel
  induction fuel with
  | zero => intro queue visited farthest md hq hb; omega
  | succ k ih =>
    intro queue visited farthest md hq hb
    unfold ff_loop
    match hqe : queue, hq, hb with
    | [], hq, hb => exact ⟨farthest, rfl⟩
    | (rc, dist) :: rest, hq, hb =>
      have hrest : ∀ e ∈ rest, inRect rows cols e.1 :=
        fun e he => hq e (List.mem_cons_of_mem _ he)
      have hrc : inRect rows cols rc := hq (rc, dist) (List.mem_cons_self _ _)
      dsimp only
      split
      case _ hvis =>
        refine ih rest visited farthest md hrest ?_
        simp only [List.length_cons] at hb
        omega
      case _ hvis =>
        obtain ⟨extra, heq, hlen, hprops, _⟩ := ff_enqueue_spec g ff_neighbors rest rc dist
        have hq2 : ∀ e ∈ ff_enqueue g ff_neighbors rest rc dist, inRect rows cols e.1 := by
          intro e he
          rw [heq] at he
          rcases List.mem_append.mp he with h1 | h2
          · exact hrest e h1
          · obtain ⟨_, hb1, hb2, hb3, hb4, _⟩ := hprops e h2
            rw [hL] at hb2
            rw [hL0] at hb4
            exact ⟨hb1, hb2, hb3, hb4⟩
        have hcard : (((Finset.Icc (0 : Int) ((rows : Int) - 1)) ×ˢ
            (Finset.Icc (0 : Int) ((cols : Int) - 1))).filter
            (fun p => p ∉ visited ++ [rc])).card + 1 =
            (((Finset.Icc (0 : Int) ((rows : Int) - 1)) ×ˢ
            (Finset.Icc (0 : Int) ((cols : Int) - 1))).filter
            (fun p => p ∉ visited)).card := by
          have hset : ((Finset.Icc (0 : Int) ((rows : Int) - 1)) ×ˢ
              (Finset.Icc (0 : Int) ((cols : Int) - 1))).filter
              (fun p => p ∉ visited ++ [rc]) =
              (((Finset.Icc (0 : Int) ((rows : Int) - 1)) ×ˢ
              (Finset.Icc (0 : Int) ((cols : Int) - 1))).filter
              (fun p => p ∉ visited)).erase rc := by
            ext p
            simp only [Finset.mem_erase, Finset.mem_filter, List.mem_append,
              List.mem_singleton]
            tauto
          have hrcmem : rc ∈ ((Finset.Icc (0 : Int) ((rows : Int) - 1)) ×ˢ
              (Finset.Icc (0 : Int) ((cols : Int) - 1))).filter
              (fun p => p ∉ visited) := by
            rw [Finset.mem_filter, mem_rectFinset]
            exact ⟨hrc, hvis⟩
          rw [hset, Finset.card_erase_of_mem hrcmem]
          have := Finset.card_pos.mpr ⟨rc, hrcmem⟩
          omega
        have hq2len : (ff_enqueue g ff_neighbors rest rc dist).length ≤
            rest.length + 4 := by
          rw [heq, List.length_append]
          have : (ff_neighbors).length = 4 := rfl
          omega
        simp only [List.length_cons] at hb
        split
        · exact ih _ _ _ _ hq2 (by omega)
        · exact ih _ _ _ _ hq2 (by omega)

/-- Once the start is marked visited, every queue entry has positive
distance, and a strictly positive best distance (or a pending unvisited
entry) exists, the BFS returns a cell other than the start. -/
theorem ff_loop_ne_start (g : Grid) (start : Pos) :
    ∀ (fuel : Nat) (queue : List (Pos × Nat)) (visited : List Pos)
      (farthest : Pos) (md : Int) (far : Pos),
      start ∈ visited →
      (∀ e ∈ queue, 1 ≤ e.2) →
      ((farthest ≠ start ∧ 1 ≤ md) ∨ (md ≤ 0 ∧ ∃ e ∈ queue, e.1 ∉ visited)) →
      ff_loop g fuel queue visited farthest md = some far →
      far ≠ start := by
  intro fuel
  induction fuel with
  | zero => intro queue visited farthest md far hs hq hAB h; exact absurd h (by simp [ff_loop])
  | succ k ih =>
    intro queue visited farthest md far hs hq hAB h
    unfold ff_loop at h
    match hqe : queue, hq, hAB, h with
    | [], hq, hAB, h =>
      injection h with h2
      rcases hAB with ⟨hne, _⟩ | ⟨_, e, he, _⟩
      · exact h2 ▸ hne
      · exact absurd he (by simp)
    | (rc, dist) :: rest, hq, hAB, h =>
      have hdist : 1 ≤ dist := hq (rc, dist) (List.mem_cons_self _ _)
      have hrest : ∀ e ∈ rest, 1 ≤ e.2 :=
        fun e he => hq e (List.mem_cons_of_mem _ he)
      dsimp only at h
      split at h
      case _ hvis =>
        refine ih rest visited farthest md far hs hrest ?_ h
        rcases hAB with hA | ⟨hmd, e, he, hev⟩
        · exact Or.inl hA
        · rcases List.mem_cons.mp he with rfl | he2
          · exact absurd hvis hev
          · exact Or.inr ⟨hmd, e, he2, hev⟩
      case _ hvis =>
        obtain ⟨extra, heq, _, hprops, _⟩ := ff_enqueue_spec g ff_neighbors rest rc dist
        have hq2 : ∀ e ∈ ff_enqueue g ff_neighbors rest rc dist, 1 ≤ e.2 := by
          intro e he
          rw [heq] at he
          rcases List.mem_append.mp he with h1 | h2
          · exact hrest e h1
          · rw [(hprops e h2).1]
            omega
        have hs2 : start ∈ visited ++ [rc] := List.mem_append_left _ hs
        have hrcne : rc ≠ start := fun hcon => hvis (hcon ▸ hs)
        split at h
        case _ hlt =>
          exact ih _ _ _ _ far hs2 hq2 (Or.inl ⟨hrcne, by omega⟩) h
        case _ hlt =>
          rcases hAB with ⟨hne, hmd⟩ | ⟨hmd, _⟩
          · exact ih _ _ _ _ far hs2 hq2 (Or.inl ⟨hne, hmd⟩) h
          · omega

/-!  Assembly: what a successful generation guarantees  -/

/-- The grid-level grading the carver leaves behind (the φ fields of
CarveInv, with the stack discipline gone). -/
structure GradedG (rows cols : Nat) (start : Pos) (g : Grid) (φ : Pos → Nat) :
    Prop where
  phi_start : φ start = 0
  adj_phi : ∀ p q, inRect rows cols p → inRect rows cols q →
      cellAt g p ≠ '#' → cellAt g q ≠ '#' → adjCell p q →
      φ p = φ q + 1 ∨ φ q = φ p + 1
  lower_uniq : ∀ p, inRect rows cols p → cellAt g p ≠ '#' → p ≠ start →
      1 ≤ φ p ∧ ∃ q, inRect rows cols q ∧ cellAt g q ≠ '#' ∧ adjCell q p ∧
        φ q + 1 = φ p ∧
        ∀ r, inRect rows cols r → cellAt g r ≠ '#' → adjCell r p →
          φ r + 1 = φ p → r = q
  phi_zero : ∀ p, inRect rows cols p → cellAt g p ≠ '#' → φ p = 0 → p = start

theorem gradedG_of_carveInv {rows cols : Nat} {start : Pos} {g : Grid}
    {stack : List Pos} {φ : Pos → Nat} (h : CarveInv rows cols start g stack φ) :
    GradedG rows cols start g φ :=
  ⟨h.phi_start, h.adj_phi, h.lower_uniq, h.phi_zero⟩

/-- The grading only mentions openness, so it survives any rewrite of the
grid that preserves which in-bounds cells are walls. -/
theorem gradedG_congr {rows cols : Nat} {start : Pos} {g g' : Grid}
    {φ : Pos → Nat} (hg : GradedG rows cols start g φ)
    (heq : ∀ p, inRect rows cols p → (cellAt g' p = '#' ↔ cellAt g p = '#')) :
    GradedG rows cols start g' φ := by
  constructor
  · exact hg.phi_start
  · intro p q hp hq hpo hqo hadj
    exact hg.adj_phi p q hp hq (fun hc => hpo ((heq p hp).mpr hc))
      (fun hc => hqo ((heq q hq).mpr hc)) hadj
  · intro p hp hpo hpne
    obtain ⟨h1, q, hqin, hqo, hqadj, hqphi, huniq⟩ :=
      hg.lower_uniq p hp (fun hc => hpo ((heq p hp).mpr hc)) hpne
    refine ⟨h1, q, hqin, fun hc => hqo ((heq q hqin).mp hc), hqadj, hqphi, ?_⟩
    intro r hrin hro hradj hrphi
    exact huniq r hrin (fun hc => hro ((heq r hrin).mpr hc)) hradj hrphi
  · intro p hp hpo hphi
    exact hg.phi_zero p hp (fun hc => hpo ((heq p hp).mpr hc)) hphi

/-- Lifting a grid grading to the maze object built from it. -/
theorem graded_of_gradedG (m : Maze) (φ : Pos → Nat)
    (hg : GradedG m.rows m.cols m.start m.maze φ)
    (hso : inBoundsOpen m m.start) : Graded m φ := by
  constructor
  · exact hso
  · exact hg.phi_start
  · intro p q hp hq hadj
    rw [inBoundsOpen_iff] at hp hq
    exact hg.adj_phi p q hp.1 hq.1 hp.2 hq.2 hadj
  · intro p hp hpne
    rw [inBoundsOpen_iff] at hp
    obtain ⟨h1, q, hqin, hqo, hqadj, hqphi, huniq⟩ :=
      hg.lower_uniq p hp.1 hp.2 hpne
    refine ⟨h1, q, (inBoundsOpen_iff m q).mpr ⟨hqin, hqo⟩, hqadj, hqphi, ?_⟩
    intro r hr hradj hrphi
    rw [inBoundsOpen_iff] at hr
    exact huniq r hr.1 hr.2 hradj hrphi
  · intro p hp hphi
    rw [inBoundsOpen_iff] at hp
    exact hg.phi_zero p hp.1 hp.2 hphi

theorem lor_one_odd (n : Nat) : (n ||| 1) % 2 = 1 := by
  have h : Nat.testBit (n ||| 1) 0 = true := by
    rw [Nat.testBit_lor]
    simp
  simpa [Nat.testBit_zero] using h

theorem randrange_odd_spec (stop r v : Nat) (h : randrange_odd stop r = some v) :
    v % 2 = 1 ∧ 1 ≤ v ∧ v < stop := by
  unfold randrange_odd at h
  split at h
  · exact absurd h (by simp)
  case _ hstop =>
    injection h with h2
    subst h2
    have hmod : r % (stop / 2) < stop / 2 := Nat.mod_lt _ (by omega)
    omega

/-- Master analysis of a successful generation run: shape, the unique start
mark, the goal cell, the carve grading, and (beyond 3x3) a goal distinct
from the start marking the unique 'G' cell. -/
theorem generate_master (rows0 cols0 : Nat) (s : Nat → Nat)
    (g : Grid) (start goal : Pos) (rows2 cols2 : Nat)
    (h : generate_solvable_maze rows0 cols0 s = .ok (g, start, goal, rows2, cols2)) :
    rows2 = rows0 ||| 1 ∧ cols2 = cols0 ||| 1 ∧
    WFGrid g rows2 cols2 ∧
    inRect rows2 cols2 start ∧ start.1 % 2 = 1 ∧ start.2 % 2 = 1 ∧
    cellAt g start = 'S' ∧
    (∀ p, inRect rows2 cols2 p → (cellAt g p = 'S' ↔ p = start)) ∧
    inRect rows2 cols2 goal ∧ cellAt g goal ≠ '#' ∧
    (∃ φ, GradedG rows2 cols2 start g φ) ∧
    ((5 ≤ rows2 ∨ 5 ≤ cols2) → goal ≠ start ∧
      (∀ p, inRect rows2 cols2 p → (cellAt g p = 'G' ↔ p = goal))) := by
  unfold generate_solvable_maze at h
  dsimp only at h
  set R := rows0 ||| 1 with hRdef
  set C := cols0 ||| 1 with hCdef
  have hrodd : R % 2 = 1 := by rw [hRdef]; exact lor_one_odd rows0
  have hcodd : C % 2 = 1 := by rw [hCdef]; exact lor_one_odd cols0
  split at h
  case _ sr sc heq1 heq2 =>
    obtain ⟨hsrodd, hsrlo, hsrhi⟩ := randrange_odd_spec R (s 0) sr heq1
    obtain ⟨hscodd, hsclo, hschi⟩ := randrange_odd_spec C (s 1) sc heq2
    set st : Pos := ((sr : Int), (sc : Int)) with hstdef
    have hstin : inRect R C st := by
      unfold inRect
      rw [hstdef]
      dsimp only
      omega
    have hstodd : st.1 % 2 = 1 ∧ st.2 % 2 = 1 := by
      rw [hstdef]
      dsimp only
      omega
    set g1 := setCell (List.replicate R (List.replicate C '#')) st 'S' with hg1def
    have hInv0 : CarveInv R C st g1 [st] (fun _ => 0) := by
      rw [hg1def]
      exact carveInv_init R C st hstin hstodd
    split at h
    case _ heqc => exact absurd h (by simp)
    case _ g2 heqc =>
      have hwodd1 := woddCount_le R C g1
      obtain ⟨g2', φ0, heqc', hInv2, hmono12⟩ :=
        carve_loop_inv R C st s (3 * R * C + 2) 2 g1 [st] _ hInv0
          (by have h3 : 3 * R * C = 3 * (R * C) := by ring
              simp only [List.length_singleton]
              omega)
      rw [heqc] at heqc'
      injection heqc' with hg2
      subst hg2
      have hvals2 : valsOK g2 :=
        carve_loop_vals R C s _ _ _ _ _ (by rw [hg1def]; exact valsOK_init R C st) heqc
      set g3 := setCell g2 st ' ' with hg3def
      have hwf2 := hInv2.wf
      have hwf3 : WFGrid g3 R C := WFGrid_setCell g2 R C st ' ' hwf2 hstin
      have hg3st : cellAt g3 st = ' ' := cellAt_setCell_self g2 R C st ' ' hwf2 hstin
      have hg3ne : ∀ p, inRect R C p → p ≠ st → cellAt g3 p = cellAt g2 p :=
        fun p hp hne => cellAt_setCell_ne g2 R C st p ' ' hwf2 hstin hp.1 hp.2.2.1 hne
      have hopen32 : ∀ p, inRect R C p → (cellAt g3 p = '#' ↔ cellAt g2 p = '#') := by
        intro p hp
        by_cases hpe : p = st
        · rw [hpe, hg3st, hInv2.start_cell]
          constructor <;> intro hcc <;> exact absurd hcc (by decide)
        · rw [hg3ne p hp hpe]
      have hg3vals : ∀ p, inRect R C p → cellAt g3 p = '#' ∨ cellAt g3 p = ' ' := by
        intro p hp
        by_cases hpe : p = st
        · rw [hpe]
          exact Or.inr hg3st
        · rw [hg3ne p hp hpe]
          rcases hvals2 p with hv | hv | hv
          · exact Or.inl hv
          · exact absurd (hInv2.s_only p hp hv) hpe
          · exact Or.inr hv
      have hL : g3.length = R := hwf3.1
      have hRpos : 0 < R := by omega
      have hL0 : (g3.getD 0 []).length = C := by
        rw [getD_lt g3 0 [] (by omega)]
        exact hwf3.2 _ (List.getElem_mem _)
      have hffst : ffOK g3 st := by
        refine ⟨hstin.1, ?_, hstin.2.2.1, ?_, hg3st⟩
        · rw [hL]; exact hstin.2.1
        · rw [hL0]; exact hstin.2.2.2
      split at h
      case _ heqf => exact absurd h (by simp)
      case _ gl heqf =>
        unfold find_farthest_point at heqf
        have hffgl : ffOK g3 gl := by
          refine ff_loop_props g3 _ [(st, 0)] [] st (-1) gl ?_ hffst heqf
          intro e he
          rw [List.mem_singleton] at he
          rw [he]
          exact hffst
        have hglin : inRect R C gl := by
          obtain ⟨hb1, hb2, hb3, hb4, _⟩ := hffgl
          rw [hL] at hb2
          rw [hL0] at hb4
          exact ⟨hb1, hb2, hb3, hb4⟩
        have hg3gl : cellAt g3 gl = ' ' := hffgl.2.2.2.2
        set g4 := setCell g3 gl 'G' with hg4def
        set g5 := setCell g4 st 'S' with hg5def
        have hwf4 : WFGrid g4 R C := WFGrid_setCell g3 R C gl 'G' hwf3 hglin
        have hwf5 : WFGrid g5 R C := WFGrid_setCell g4 R C st 'S' hwf4 hstin
        have hg5st : cellAt g5 st = 'S' := cellAt_setCell_self g4 R C st 'S' hwf4 hstin
        have hg5ne : ∀ p, inRect R C p → p ≠ st → cellAt g5 p = cellAt g4 p :=
          fun p hp hne => cellAt_setCell_ne g4 R C st p 'S' hwf4 hstin hp.1 hp.2.2.1 hne
        have hg4gl : cellAt g4 gl = 'G' := cellAt_setCell_self g3 R C gl 'G' hwf3 hglin
        have hg4ne : ∀ p, inRect R C p → p ≠ gl → cellAt g4 p = cellAt g3 p :=
          fun p hp hne => cellAt_setCell_ne g3 R C gl p 'G' hwf3 hglin hp.1 hp.2.2.1 hne
        have hopen53 : ∀ p, inRect R C p → (cellAt g5 p = '#' ↔ cellAt g3 p = '#') := by
          intro p hp
          by_cases hpe : p = st
          · rw [hpe, hg5st, hg3st]
            constructor <;> intro hcc <;> exact absurd hcc (by decide)
          · rw [hg5ne p hp hpe]
            by_cases hpg : p = gl
            · rw [hpg, hg4gl, hg3gl]
              constructor <;> intro hcc <;> exact absurd hcc (by decide)
            · rw [hg4ne p hp hpg]
        have hopeneq : ∀ p, inRect R C p → (cellAt g5 p = '#' ↔ cellAt g2 p = '#') :=
          fun p hp => (hopen53 p hp).trans (hopen32 p hp)
        have hSiff : ∀ p, inRect R C p → (cellAt g5 p = 'S' ↔ p = st) := by
          intro p hp
          constructor
          · intro hS
            by_contra hne
            rw [hg5ne p hp hne] at hS
            by_cases hpg : p = gl
            · rw [hpg, hg4gl] at hS
              exact absurd hS (by decide)
            · rw [hg4ne p hp hpg] at hS
              rcases hg3vals p hp with hv | hv <;> rw [hS] at hv <;>
                exact absurd hv (by decide)
          · intro hpe
            rw [hpe]
            exact hg5st
        have hglopen : cellAt g5 gl ≠ '#' := by
          by_cases hge : gl = st
          · rw [hge, hg5st]; decide
          · rw [hg5ne gl hglin hge, hg4gl]; decide
        simp only [Except.ok.injEq, Prod.mk.injEq] at h
        obtain ⟨hgeq, hsteq, hgleq, hreq, hceq⟩ := h
        subst hgeq
        subst hsteq
        subst hgleq
        subst hreq
        subst hceq
        refine ⟨hRdef, hCdef, hwf5, hstin, hstodd.1, hstodd.2, hg5st, hSiff,
          hglin, hglopen, ⟨φ0, gradedG_congr (gradedG_of_carveInv hInv2) hopeneq⟩, ?_⟩
        intro hbig
        -- beyond 3x3 the first pop of the carver opens a neighbor of the
        -- start, so the farthest point of the flood fill cannot be the start
        obtain ⟨d, hdmem, hdTin⟩ := dims51 R C st hstin hstodd hrodd hcodd hbig
        have hd4 := dir_cases d hdmem
        have hTnest : ((st.1 + d.1 * 2, st.2 + d.2 * 2) : Pos) ≠ st := by
          intro hcon
          rw [Prod.ext_iff] at hcon
          dsimp only at hcon
          omega
        have hdT_wall : cellAt g1 (st.1 + d.1 * 2, st.2 + d.2 * 2) = '#' := by
          rw [hg1def,
            cellAt_setCell_ne _ R C st _ 'S' (WFGrid_replicate R C) hstin
              hdTin.1 hdTin.2.2.1 hTnest]
          exact cellAt_replicate R C _
        have hg1st : cellAt g1 st ≠ '#' := by
          rw [hInv0.start_cell]
          decide
        have hInv0' : CarveInv R C st g1 [] (fun _ => 0) :=
          hInv0.restack [] (by simp)
        obtain ⟨φd, hInvd, hmonod, hbd⟩ :=
          carve_dirs_inv R C st (biased_dirs (s 2)) g1 [] st _
            (biased_dirs_subset _) hInv0' hstin hg1st hstodd.1 hstodd.2
        have hexd : ∃ d' ∈ biased_dirs (s 2),
            inRect R C (st.1 + d'.1 * 2, st.2 + d'.2 * 2) ∧
            cellAt g1 (st.1 + d'.1 * 2, st.2 + d'.2 * 2) = '#' :=
          ⟨d, (biased_dirs_perm (s 2)).mem_iff.mpr hdmem, hdTin, hdT_wall⟩
        obtain ⟨M, hMadj, hMneSt, hMin, hMopen_gs⟩ :=
          carve_dirs_opens R C st (biased_dirs (s 2)) g1 [] st _
            (biased_dirs_subset _) hInv0' hstin hg1st hstodd.1 hstodd.2 hexd
        have hfsplit : 3 * R * C + 2 = (3 * R * C + 1) + 1 := rfl
        rw [hfsplit] at heqc
        have hunf : carve_loop R C s ((3 * R * C + 1) + 1) 2 g1 [st] =
            carve_loop R C s (3 * R * C + 1) 3
              (carve_dirs R C (biased_dirs (s 2)) g1 [] st).1
              (carve_dirs R C (biased_dirs (s 2)) g1 [] st).2 := rfl
        rw [hunf] at heqc
        obtain ⟨g2'', φ'', heqc'', hInv'', hmono''⟩ :=
          carve_loop_inv R C st s (3 * R * C + 1) 3
            (carve_dirs R C (biased_dirs (s 2)) g1 [] st).1
            (carve_dirs R C (biased_dirs (s 2)) g1 [] st).2 φd hInvd
            (by have h3 : 3 * R * C = 3 * (R * C) := by ring
                simp only [List.length_nil, Nat.add_zero] at hbd
                omega)
        rw [heqc] at heqc''
        injection heqc'' with hq
        subst hq
        have hMopeng2 : cellAt g2 M ≠ '#' := hmono'' M hMin hMopen_gs
        have hg3M : cellAt g3 M = ' ' := by
          rw [hg3ne M hMin hMneSt]
          rcases hvals2 M with hv | hv | hv
          · exact absurd hv hMopeng2
          · exact absurd (hInv2.s_only M hMin hv) hMneSt
          · exact hv
        have hffM : ffOK g3 M := by
          refine ⟨hMin.1, ?_, hMin.2.2.1, ?_, hg3M⟩
          · rw [hL]; exact hMin.2.1
          · rw [hL0]; exact hMin.2.2.2
        rw [hL, hL0] at heqf
        have hfsplit2 : 5 * R * C + 2 = (5 * R * C + 1) + 1 := rfl
        rw [hfsplit2] at heqf
        have hunf2 : ff_loop g3 ((5 * R * C + 1) + 1) [(st, 0)] [] st (-1) =
            ff_loop g3 (5 * R * C + 1) (ff_enqueue g3 ff_neighbors [] st 0)
              [st] st 0 := rfl
        rw [hunf2] at heqf
        obtain ⟨extra, henq, hexlen, hprops, hmemq⟩ :=
          ff_enqueue_spec g3 ff_neighbors [] st 0
        have hMd : ∃ d' ∈ ff_neighbors, M = (st.1 + d'.1, st.2 + d'.2) := by
          unfold adjCell at hMadj
          clear_value st
          rcases hMadj with ⟨h1, h2 | h2⟩ | ⟨h1, h2 | h2⟩
          · exact ⟨(0, 1), by decide, by rw [Prod.ext_iff]; constructor <;> dsimp only <;> omega⟩
          · exact ⟨(0, -1), by decide, by rw [Prod.ext_iff]; constructor <;> dsimp only <;> omega⟩
          · exact ⟨(1, 0), by decide, by rw [Prod.ext_iff]; constructor <;> dsimp only <;> omega⟩
          · exact ⟨(-1, 0), by decide, by rw [Prod.ext_iff]; constructor <;> dsimp only <;> omega⟩
        obtain ⟨d', hd'mem, hMeq⟩ := hMd
        have hMq : (M, 1) ∈ ff_enqueue g3 ff_neighbors [] st 0 := by
          have := hmemq d' hd'mem (by rw [← hMeq]; exact hffM)
          rw [← hMeq] at this
          exact this
        have hq2dist : ∀ e ∈ ff_enqueue g3 ff_neighbors [] st 0, 1 ≤ e.2 := by
          intro e he
          rw [henq] at he
          rcases List.mem_append.mp he with h1 | h2
          · exact absurd h1 (by simp)
          · rw [(hprops e h2).1]
        have hglne : gl ≠ st := by
          refine ff_loop_ne_start g3 st (5 * R * C + 1) _ [st] st 0 gl
            (by simp) hq2dist (Or.inr ⟨le_refl _, (M, 1), hMq, ?_⟩) heqf
          rw [List.mem_singleton]
          exact hMneSt
        refine ⟨hglne, ?_⟩
        intro p hp
        constructor
        · intro hG
          by_contra hne
          by_cases hpe : p = st
          · rw [hpe, hg5st] at hG
            exact absurd hG (by decide)
          · rw [hg5ne p hp hpe, hg4ne p hp hne] at hG
            rcases hg3vals p hp with hv | hv <;> rw [hG] at hv <;>
              exact absurd hv (by decide)
        · intro hpe
          rw [hpe, hg5ne gl hglin hglne]
          exact hg4gl
  case _ => exact absurd h (by simp)

/-- Maze-level master theorem: any maze Maze.__init__ returns is well-formed,
carries the unique start mark at its start field, its goal cell is open, its
open cells are graded, and beyond 3x3 its goal is a distinct cell carrying
the unique 'G' mark. -/
theorem maze_init_master (rows cols : Nat) (s : Nat → Nat) (m : Maze)
    (h : Maze.init rows cols s = .ok m) :
    WFGrid m.maze m.rows m.cols ∧
    inRect m.rows m.cols m.start ∧
    cellAt m.maze m.start = 'S' ∧
    (∀ p, inRect m.rows m.cols p → (cellAt m.maze p = 'S' ↔ p = m.start)) ∧
    inRect m.rows m.cols m.goal ∧ cellAt m.maze m.goal ≠ '#' ∧
    (∃ φ, Graded m φ) ∧
    ((3 < rows ∨ 3 < cols) → m.goal ≠ m.start ∧
      (∀ p, inRect m.rows m.cols p → (cellAt m.maze p = 'G' ↔ p = m.goal))) := by
  unfold Maze.init at h
  dsimp only at h
  split at h
  case _ g start goal rows2 cols2 heq =>
    injection h with hm
    subst hm
    obtain ⟨hR2, hC2, hwf, hstin, ho1, ho2, hScell, hSiff, hglin, hglopen,
      ⟨φ, hGG⟩, hbigpart⟩ := generate_master _ _ s g start goal rows2 cols2 heq
    refine ⟨hwf, hstin, hScell, hSiff, hglin, hglopen,
      ⟨φ, graded_of_gradedG _ φ hGG ?_⟩, ?_⟩
    · rw [inBoundsOpen_iff]
      refine ⟨hstin, ?_⟩
      rw [hScell]
      decide
    · intro hbig
      apply hbigpart
      have h5r : 3 < rows → 5 ≤ rows2 := by
        intro hlt
        rw [hR2]
        split
        case _ hp => rw [odd_lor_one _ hp]; omega
        case _ hp => rw [odd_lor_one _ (by omega)]; omega
      have h5c : 3 < cols → 5 ≤ cols2 := by
        intro hlt
        rw [hC2]
        split
        case _ hp => rw [odd_lor_one _ hp]; omega
        case _ hp => rw [odd_lor_one _ (by omega)]; omega
      rcases hbig with hb | hb
      · exact Or.inl (h5r hb)
      · exact Or.inr (h5c hb)
  case _ => exact absurd h (by simp)

/-- Claim C1 (amended): on every generated maze, BFS and A* both succeed and
return paths of equal length, and that common length is one less than the
graph-theoretic shortest-path length from Start to Goal (the goal-action
pair is dropped because each search returns path[:-1]). -/
theorem bfs_astar_shortest (rows cols : Nat) (s : Nat → Nat) (m : Maze)
    (h : Maze.init rows cols s = .ok m) :
    ∃ pb eb pa ea d,
      breadth_first_search m.start m = .ok (pb, eb) ∧
      astar_first_search m.start m = .ok (pa, ea) ∧
      IsShortestDist m d ∧ pb.length = pa.length ∧ pb.length = d - 1 := by
  obtain ⟨hwf, hstin, hScell, hSiff, hglin, hglopen, ⟨φ, hG⟩, _⟩ :=
    maze_init_master rows cols s m h
  have hgoalopen : inBoundsOpen m m.goal :=
    (inBoundsOpen_iff m m.goal).mpr ⟨hglin, hglopen⟩
  have hreach : Reachable m m.start m.goal :=
    ⟨φ m.goal, graded_descent m φ hG _ _ hgoalopen rfl⟩
  obtain ⟨nb, eb, hbeq, hbwalk, hbnd, hblast, hbhead⟩ :=
    run_search_found bfs_ops bfs_laws Node.rchain (fun n a t => rfl)
      (fun n a t => rfl) Node.rchain_head Node.ancPath (Node.mkRoot m.start)
      m m.start rfl rfl hreach
  obtain ⟨na, ea, haeq, hawalk, hand, halast, hahead⟩ :=
    run_search_found (astar_ops m.get_goal) (astar_laws m.get_goal)
      CostNode.rchain (fun n a t => rfl) (fun n a t => rfl)
      CostNode.rchain_head_cost CostNode.ancPath (CostNode.mkRoot m.start 0)
      m m.start rfl rfl hreach
  have hblen : φ m.goal + 1 = (Node.rchain nb).length :=
    graded_walk_phi m φ hG (Node.rchain nb).length _ (le_refl _) hbwalk hbnd
      hblast m.goal hbhead
  have halen : φ m.goal + 1 = (CostNode.rchain na).length :=
    graded_walk_phi m φ hG (CostNode.rchain na).length _ (le_refl _) hawalk hand
      halast m.goal hahead
  have hbeq' : breadth_first_search m.start m =
      .ok ((Node.ancPath nb).dropLast, eb) := hbeq
  have haeq' : astar_first_search m.start m =
      .ok ((CostNode.ancPath na).dropLast, ea) := haeq
  have hbl := Node.ancPath_length nb
  have hal := CostNode.ancPath_length_cost na
  refine ⟨(Node.ancPath nb).dropLast, eb, (CostNode.ancPath na).dropLast, ea,
    φ m.goal, hbeq', haeq', graded_shortest m φ hG hgoalopen, ?_, ?_⟩
  · rw [List.length_dropLast, List.length_dropLast]
    omega
  · rw [List.length_dropLast]
    omega

/-- Claim C2 (amended): every generated maze carries exactly one 'S' (at its
start field) and every in-bounds non-wall cell is reachable from the start;
whenever rows > 3 or cols > 3 the goal is a cell distinct from the start
carrying the unique 'G' mark.  (At 3x3 the 'G' is overwritten by 'S'.) -/
theorem generated_maze_invariants (rows cols : Nat) (s : Nat → Nat) (m : Maze)
    (h : Maze.init rows cols s = .ok m) :
    (∀ p, inRect m.rows m.cols p → (cellAt m.maze p = 'S' ↔ p = m.start)) ∧
    (∀ p, inRect m.rows m.cols p → cellAt m.maze p ≠ '#' →
      Reachable m m.start p) ∧
    ((3 < rows ∨ 3 < cols) → m.goal ≠ m.start ∧
      (∀ p, inRect m.rows m.cols p → (cellAt m.maze p = 'G' ↔ p = m.goal))) := by
  obtain ⟨hwf, hstin, hScell, hSiff, hglin, hglopen, ⟨φ, hG⟩, hbig⟩ :=
    maze_init_master rows cols s m h
  refine ⟨hSiff, ?_, hbig⟩
  intro p hp hop
  exact ⟨φ p, graded_descent m φ hG (φ p) p
    ((inBoundsOpen_iff m p).mpr ⟨hp, hop⟩) rfl⟩

/-- Totality of generation for usable dimensions. -/
theorem generate_total (rows0 cols0 : Nat) (s : Nat → Nat)
    (hr : 2 ≤ rows0 ||| 1) (hc : 2 ≤ cols0 ||| 1) :
    ∃ out, generate_solvable_maze rows0 cols0 s = .ok out := by
  unfold generate_solvable_maze
  dsimp only
  set R := rows0 ||| 1 with hRdef
  set C := cols0 ||| 1 with hCdef
  have hrodd : R % 2 = 1 := by rw [hRdef]; exact lor_one_odd rows0
  have hcodd : C % 2 = 1 := by rw [hCdef]; exact lor_one_odd cols0
  have hr1 : randrange_odd R (s 0) = some (1 + 2 * (s 0 % (R / 2))) := by
    unfold randrange_odd
    rw [if_neg (by omega)]
  have hc1 : randrange_odd C (s 1) = some (1 + 2 * (s 1 % (C / 2))) := by
    unfold randrange_odd
    rw [if_neg (by omega)]
  rw [hr1, hc1]
  dsimp only
  set sr := 1 + 2 * (s 0 % (R / 2)) with hsrdef
  set sc := 1 + 2 * (s 1 % (C / 2)) with hscdef
  have hmr : s 0 % (R / 2) < R / 2 := Nat.mod_lt _ (by omega)
  have hmc : s 1 % (C / 2) < C / 2 := Nat.mod_lt _ (by omega)
  set st : Pos := ((sr : Int), (sc : Int)) with hstdef
  have hstin : inRect R C st := by
    unfold inRect
    rw [hstdef]
    dsimp only
    omega
  have hstodd : st.1 % 2 = 1 ∧ st.2 % 2 = 1 := by
    rw [hstdef]
    dsimp only
    omega
  set g1 := setCell (List.replicate R (List.replicate C '#')) st 'S' with hg1def
  have hInv0 : CarveInv R C st g1 [st] (fun _ => 0) := by
    rw [hg1def]
    exact carveInv_init R C st hstin hstodd
  have hwodd1 := woddCount_le R C g1
  obtain ⟨g2, φ2, hceq, hInv2, _⟩ :=
    carve_loop_inv R C st s (3 * R * C + 2) 2 g1 [st] _ hInv0
      (by have h3 : 3 * R * C = 3 * (R * C) := by ring
          simp only [List.length_singleton]
          omega)
  rw [hceq]
  dsimp only
  set g3 := setCell g2 st ' ' with hg3def
  have hwf3 : WFGrid g3 R C := WFGrid_setCell g2 R C st ' ' hInv2.wf hstin
  have hL : g3.length = R := hwf3.1
  have hL0 : (g3.getD 0 []).length = C := by
    rw [getD_lt g3 0 [] (by omega)]
    exact hwf3.2 _ (List.getElem_mem _)
  unfold find_farthest_point
  rw [hL, hL0]
  have hful : (((Finset.Icc (0 : Int) ((R : Int) - 1)) ×ˢ
      (Finset.Icc (0 : Int) ((C : Int) - 1))).filter
      (fun p => p ∉ ([] : List Pos))).card = R * C := by
    rw [Finset.filter_true_of_mem (fun x _ => by simp)]
    rw [Finset.card_product, Int.card_Icc, Int.card_Icc]
    simp
  obtain ⟨far, hfeq⟩ :=
    ff_loop_total g3 R C hL hL0 (5 * R * C + 2) [(st, 0)] [] st (-1)
      (by intro e he
          rw [List.mem_singleton] at he
          rw [he]
          exact hstin)
      (by rw [hful]
          have h5 : 5 * R * C = 5 * (R * C) := by ring
          simp only [List.length_singleton]
          omega)
  rw [hfeq]
  exact ⟨_, rfl⟩

/-- Claim C7 (amended): construction succeeds, with both generation loops
terminating, for every rows >= 2 and cols >= 2 (at rows = cols = 1 the
empty randrange range raises ValueError instead). -/
theorem maze_init_total (rows cols : Nat) (s : Nat → Nat)
    (hr : 2 ≤ rows) (hc : 2 ≤ cols) :
    ∃ m, Maze.init rows cols s = .ok m := by
  unfold Maze.init
  dsimp only
  have hrodd : (if rows % 2 = 1 then rows else rows + 1) % 2 = 1 := by
    split <;> omega
  have hcodd : (if cols % 2 = 1 then cols else cols + 1) % 2 = 1 := by
    split <;> omega
  obtain ⟨out, hgen⟩ := generate_total (if rows % 2 = 1 then rows else rows + 1)
    (if cols % 2 = 1 then cols else cols + 1) s
    (by rw [odd_lor_one _ hrodd]; split <;> omega)
    (by rw [odd_lor_one _ hcodd]; split <;> omega)
  obtain ⟨g, st, gl, r2, c2⟩ := out
  rw [hgen]
  exact ⟨_, rfl⟩

/-- The maze Maze(5, 5) builds when every random draw is 0. -/
def mazeGen5 : Maze :=
  { rows := 5, cols := 5,
    maze := [['#','#','#','#','#'],
             ['#','S',' ',' ','#'],
             ['#',' ','#','#','#'],
             ['#',' ',' ','G','#'],
             ['#','#','#','#','#']],
    start := (1, 1), goal := (3, 3) }

/-- The maze Maze(3, 3) builds when every random draw is 0: the goal
coincides with the start and its 'G' mark is overwritten by 'S'. -/
def mazeGen3 : Maze :=
  { rows := 3, cols := 3,
    maze := [['#','#','#'],
             ['#','S','#'],
             ['#','#','#']],
    start := (1, 1), goal := (1, 1) }

/-- Claim C1 is false as stated: on the concretely generated 5x5 maze both
BFS and A* return a path of length 3, but the shortest-path length from
Start to Goal is 4 (the searches drop the goal-action pair). -/
theorem bfs_shortest_mismatch :
    Maze.init 5 5 (fun _ => 0) = Except.ok mazeGen5 ∧
    (breadth_first_search mazeGen5.start mazeGen5).map
      (fun pr => pr.1.length) = .ok 3 ∧
    (astar_first_search mazeGen5.start mazeGen5).map
      (fun pr => pr.1.length) = .ok 3 ∧
    ¬ IsShortestDist mazeGen5 3 := by
  refine ⟨by decide, by decide, by decide, ?_⟩
  intro hsd
  have h1 := hsd.1
  revert h1
  decide

/-- Witness for bfs_astar_shortest at the concretely generated 5x5 maze. -/
theorem bfs_astar_shortest_witness :
    ∃ pb eb pa ea d,
      breadth_first_search mazeGen5.start mazeGen5 = .ok (pb, eb) ∧
      astar_first_search mazeGen5.start mazeGen5 = .ok (pa, ea) ∧
      IsShortestDist mazeGen5 d ∧ pb.length = pa.length ∧ pb.length = d - 1 :=
  bfs_astar_shortest 5 5 (fun _ => 0) mazeGen5 (by decide)

/-- Claim C2 is false as stated: the concretely generated 3x3 maze contains
no 'G' cell at all, and its goal field equals its start. -/
theorem generated_maze_one_goal_false :
    Maze.init 3 3 (fun _ => 0) = Except.ok mazeGen3 ∧
    (mazeGen3.maze.map (fun row => row.count 'G')).sum = 0 ∧
    mazeGen3.goal = mazeGen3.start := by
  refine ⟨by decide, by decide, rfl⟩

/-- Witness for generated_maze_invariants at the 5x5 maze generated with the
all-zero stream. -/
theorem generated_maze_invariants_witness :
    (∀ p, inRect mazeGen5.rows mazeGen5.cols p →
      (cellAt mazeGen5.maze p = 'S' ↔ p = mazeGen5.start)) ∧
    (∀ p, inRect mazeGen5.rows mazeGen5.cols p →
      cellAt mazeGen5.maze p ≠ '#' → Reachable mazeGen5 mazeGen5.start p) ∧
    ((3 < 5 ∨ 3 < 5) → mazeGen5.goal ≠ mazeGen5.start ∧
      (∀ p, inRect mazeGen5.rows mazeGen5.cols p →
        (cellAt mazeGen5.maze p = 'G' ↔ p = mazeGen5.goal))) :=
  generated_maze_invariants 5 5 (fun _ => 0) mazeGen5 (by decide)

/-- Witness for maze_init_total at the smallest accepted dimensions. -/
theorem maze_init_total_witness :
    ∃ m, Maze.init 2 2 (fun _ => 0) = .ok m :=
  maze_init_total 2 2 (fun _ => 0) (by decide) (by decide)
